import Mathlib

/-!
# cryhel: AES-CBC string encryption helper (Go) — verification development

A shallow embedding of `cryhel.go` and of the parts of the Go standard library it
calls (`bytes.TrimFunc`, `unicode/utf8`, `encoding/base64`, `net/url`,
`crypto/cipher` CBC mode, `crypto/aes`), followed by theorems about the embedded program.

Conventions.
* A Go `byte` is a `Fin 256`; a Go `[]byte` and a Go `string` are both `List Byte`
  (the conversions `[]byte(s)` and `string(b)` copy the bytes unchanged).
* A Go `error` is `Option Err`: `none` is `nil`, `some e` is an error of one of the
  dynamic types listed in `Err`.
* A function returning `(v, err)` returns a pair; a call that can stop with a run-time
  panic returns `Run`.
* The AES block cipher of `crypto/aes` is modelled after FIPS 197, which Go implements;
  `Block.IsAES` states the contract of a `cipher.Block` that the program relies on.
-/

namespace Cryhel

/-- A Go `byte`. -/
abbrev Byte := Fin 256

/-- A Go `string`: an immutable sequence of bytes. -/
abbrev GoString := List Byte

/-- Outcome of a call that may panic at run time. -/
inductive Run (α : Type) where
  | ret (v : α)
  | panic (msg : String)
  deriving DecidableEq, Repr

/-- The byte of an ASCII character literal such as `'='`. -/
def ch (c : Char) : Byte := Fin.ofNat c.toNat

/-! ## unicode/utf8 -/

namespace utf8

def RuneError : Nat := 0xFFFD
def RuneSelf : Nat := 0x80
def UTFMax : Nat := 4

/-- The table `first` of `unicode/utf8`: information about the first byte of an encoding.
`0xF0` is `as` (ASCII), `0xF1` is `xx` (invalid), otherwise the low three bits are the size
and the high nibble is the index into `acceptRanges`. -/
def first (p0 : Nat) : Nat :=
  if p0 < 0x80 then 0xF0
  else if p0 < 0xC2 then 0xF1
  else if p0 < 0xE0 then 0x02
  else if p0 = 0xE0 then 0x13
  else if p0 < 0xED then 0x03
  else if p0 = 0xED then 0x23
  else if p0 < 0xF0 then 0x03
  else if p0 = 0xF0 then 0x34
  else if p0 < 0xF4 then 0x04
  else if p0 = 0xF4 then 0x44
  else 0xF1

/-- The table `acceptRanges`: the range `(lo, hi)` allowed for the second byte. -/
def acceptRanges (i : Nat) : Nat × Nat :=
  match i with
  | 0 => (0x80, 0xBF)
  | 1 => (0xA0, 0xBF)
  | 2 => (0x80, 0x9F)
  | 3 => (0x90, 0xBF)
  | 4 => (0x80, 0x8F)
  | _ => (0, 0)

/-- Go `utf8.DecodeRune(p)`: the first rune of `p` and its width in bytes;
`(RuneError, 0)` for empty input, `(RuneError, 1)` for an invalid encoding. -/
def DecodeRune (p : List Byte) : Nat × Nat :=
  match p with
  | [] => (RuneError, 0)
  | p0 :: _ =>
    let x := first p0.val
    if x ≥ 0xF0 then
      -- mask := rune(x) << 31 >> 31; return rune(p[0])&^mask | RuneError&mask, 1
      if x % 2 = 1 then (RuneError, 1) else (p0.val, 1)
    else
      let sz := x &&& 7
      let accept := acceptRanges (x >>> 4)
      if p.length < sz then (RuneError, 1)
      else
        let b1 := (p.getD 1 0).val
        if b1 < accept.1 ∨ accept.2 < b1 then (RuneError, 1)
        else if sz ≤ 2 then (((p0.val &&& 0x1F) <<< 6) ||| (b1 &&& 0x3F), 2)
        else
          let b2 := (p.getD 2 0).val
          if b2 < 0x80 ∨ 0xBF < b2 then (RuneError, 1)
          else if sz ≤ 3 then
            (((p0.val &&& 0x0F) <<< 12) ||| ((b1 &&& 0x3F) <<< 6) ||| (b2 &&& 0x3F), 3)
          else
            let b3 := (p.getD 3 0).val
            if b3 < 0x80 ∨ 0xBF < b3 then (RuneError, 1)
            else
              (((p0.val &&& 0x07) <<< 18) ||| ((b1 &&& 0x3F) <<< 12) |||
                ((b2 &&& 0x3F) <<< 6) ||| (b3 &&& 0x3F), 4)

/-- Go `utf8.RuneStart(b)`: `b` is not a continuation byte. -/
def RuneStart (b : Byte) : Bool := b.val &&& 0xC0 != 0x80

/-- The backward scan of `DecodeLastRune`:
`for start--; start >= lim; start-- { if RuneStart(p[start]) { break } }`,
entered after the leading `start--`; `fuel` bounds the number of iterations. -/
def scanBack (p : List Byte) (lim : Int) : Nat → Int → Int
  | 0, start => start
  | fuel + 1, start =>
    if start ≥ lim then
      if RuneStart (p.getD start.toNat 0) then start
      else scanBack p lim fuel (start - 1)
    else start

/-- Go `utf8.DecodeLastRune(p)`: the last rune of `p` and its width. -/
def DecodeLastRune (p : List Byte) : Nat × Nat :=
  let end_ := p.length
  if end_ = 0 then (RuneError, 0)
  else
    let start : Int := (end_ : Int) - 1
    let r := (p.getD start.toNat 0).val
    if r < RuneSelf then (r, 1)
    else
      let lim : Int := if (end_ : Int) - UTFMax < 0 then 0 else (end_ : Int) - UTFMax
      let start := scanBack p lim (UTFMax + 1) (start - 1)
      let start := if start < 0 then 0 else start
      let rs := DecodeRune ((p.drop start.toNat).take (end_ - start.toNat))
      if start.toNat + rs.2 ≠ end_ then (RuneError, 1) else rs

end utf8

/-! ## bytes -/

namespace bytes

/-- Go `bytes.indexFunc(s, f, truth)`: a byte index, or `-1`. `rest` is `s[start:]`;
every iteration advances by the width of the decoded rune (at least one byte), so
`fuel = len(rest)` iterations are enough. -/
def indexFuncLoop (f : Nat → Bool) (truth : Bool) : Nat → List Byte → Nat → Int
  | 0, _, _ => -1
  | fuel + 1, rest, start =>
    match rest with
    | [] => -1
    | b :: _ =>
      let rw : Nat × Nat :=
        if b.val ≥ utf8.RuneSelf then utf8.DecodeRune rest else (b.val, 1)
      if f rw.1 = truth then (start : Int)
      else indexFuncLoop f truth fuel (rest.drop rw.2) (start + rw.2)

def indexFunc (s : List Byte) (f : Nat → Bool) (truth : Bool) : Int :=
  indexFuncLoop f truth s.length s 0

/-- Go `bytes.lastIndexFunc(s, f, truth)`: the loop `for i := len(s); i > 0; { ... }`. -/
def lastIndexFuncLoop (s : List Byte) (f : Nat → Bool) (truth : Bool) : Nat → Nat → Int
  | 0, _ => -1
  | fuel + 1, i =>
    if i > 0 then
      let b := (s.getD (i - 1) 0).val
      let rs : Nat × Nat :=
        if b ≥ utf8.RuneSelf then utf8.DecodeLastRune (s.take i) else (b, 1)
      let i := i - rs.2
      if f rs.1 = truth then (i : Int)
      else lastIndexFuncLoop s f truth fuel i
    else -1

def lastIndexFunc (s : List Byte) (f : Nat → Bool) (truth : Bool) : Int :=
  lastIndexFuncLoop s f truth s.length s.length

/-- Go `bytes.TrimLeftFunc`. -/
def TrimLeftFunc (s : List Byte) (f : Nat → Bool) : List Byte :=
  let i := indexFunc s f false
  if i = -1 then [] else s.drop i.toNat

/-- Go `bytes.TrimRightFunc`. -/
def TrimRightFunc (s : List Byte) (f : Nat → Bool) : List Byte :=
  let i := lastIndexFunc s f false
  let i : Int :=
    if i ≥ 0 ∧ (s.getD i.toNat 0).val ≥ utf8.RuneSelf then
      i + (utf8.DecodeRune (s.drop i.toNat)).2
    else i + 1
  s.take i.toNat

/-- Go `bytes.TrimFunc`. -/
def TrimFunc (s : List Byte) (f : Nat → Bool) : List Byte :=
  TrimRightFunc (TrimLeftFunc s f) f

/-- Go `bytes.Repeat(b, count)`. -/
def Repeat (b : List Byte) (count : Nat) : List Byte :=
  (List.replicate count b).flatten

end bytes

/-! ## cryhel.go: padding -/

namespace aes
/-- Go `aes.BlockSize`. -/
def BlockSize : Nat := 16
end aes

/-- `ZeroPadding` of cryhel.go. -/
def ZeroPadding (in_ : List Byte) : List Byte :=
  let padding := aes.BlockSize - (in_.length % aes.BlockSize)
  let padtext := bytes.Repeat [0] padding
  in_ ++ padtext

/-- `ZeroUnPadding` of cryhel.go. -/
def ZeroUnPadding (origData : List Byte) : List Byte :=
  bytes.TrimFunc origData (fun r => r == 0)

/-- Specification side: `b` without its leading and its trailing zero bytes. -/
def stripZeros (b : List Byte) : List Byte :=
  (b.dropWhile (fun x => x == 0)).rdropWhile (fun x => x == 0)

/-- Specification side: neither the first nor the last byte of `P` is zero
(true of the empty string). -/
def noZeroEnds (P : List Byte) : Prop :=
  P.head? ≠ some 0 ∧ P.getLast? ≠ some 0

instance (P : List Byte) : Decidable (noZeroEnds P) :=
  inferInstanceAs (Decidable (P.head? ≠ some 0 ∧ P.getLast? ≠ some 0))

end Cryhel


namespace Cryhel

/-! ## Go error values -/

/-- The dynamic types of the Go `error` values this program can produce. -/
inductive Err where
  /-- Result of `errors.New(text)`. -/
  | errorString (text : String)
  /-- The `aes.KeySizeError(k)` of `crypto/aes`. -/
  | KeySizeError (k : Nat)
  /-- The `base64.CorruptInputError(offset)` of `encoding/base64`. -/
  | CorruptInputError (offset : Nat)
  /-- The `url.EscapeError(s)` of `net/url`. -/
  | EscapeError (s : List Byte)
  /-- Any error returned by `json.Unmarshal`. -/
  | jsonError (text : String)
  deriving DecidableEq, Repr

/-- A Go `error`: `none` is `nil`. -/
abbrev GoError := Option Err

/-- Go `errors.New`. -/
def errors.New (text : String) : GoError := some (Err.errorString text)

/-! ## crypto/rand and io.ReadFull -/

/-- The random source `rand.Reader` as one call of `io.ReadFull` sees it: the bytes it can
still deliver, and the text of the error it reports when they run out. -/
structure Reader where
  supply : List Byte
  failure : String

/-- Go `io.ReadFull(r, buf)` with `len(buf) = n`: the bytes put in `buf`, and the error. -/
def io.ReadFull (r : Reader) (n : Nat) : List Byte × Option String :=
  if n ≤ r.supply.length then (r.supply.take n, none) else (r.supply, some r.failure)

/-! ## crypto/cipher: the Block interface and CBC mode -/

namespace cipher

/-- Go interface `cipher.Block`. `Encrypt x` and `Decrypt x` are the `BlockSize` bytes that
`Encrypt(dst, src)` and `Decrypt(dst, src)` write to `dst` when `src` holds the block `x`. -/
structure Block where
  BlockSize : Nat
  Encrypt : List Byte → List Byte
  Decrypt : List Byte → List Byte

/-- The contract of an AES cipher returned by `aes.NewCipher`: sixteen-byte blocks,
and `Decrypt` inverts `Encrypt`. -/
structure Block.IsAES (b : Block) : Prop where
  blockSize : b.BlockSize = 16
  encrypt_length : ∀ x : List Byte, x.length = 16 → (b.Encrypt x).length = 16
  decrypt_length : ∀ x : List Byte, x.length = 16 → (b.Decrypt x).length = 16
  decrypt_encrypt : ∀ x : List Byte, x.length = 16 → b.Decrypt (b.Encrypt x) = x

/-- Go `subtle.XORBytes(dst, x, y)`: the bytes written, `min(len(x), len(y))` of them. -/
def xorBytes (x y : List Byte) : List Byte :=
  List.zipWith (fun a b => a ^^^ b) x y

/-- The state of a CBC encrypter or decrypter (`cipher.cbc`). -/
structure cbc where
  b : Block
  blockSize : Nat
  iv : List Byte

/-- Go `cipher.NewCBCEncrypter(b, iv)`. -/
def NewCBCEncrypter (b : Block) (iv : List Byte) : Run cbc :=
  if iv.length ≠ b.BlockSize then
    Run.panic "cipher.NewCBCEncrypter: IV length must equal block size"
  else Run.ret { b := b, blockSize := b.BlockSize, iv := iv }

/-- Go `cipher.NewCBCDecrypter(b, iv)`. -/
def NewCBCDecrypter (b : Block) (iv : List Byte) : Run cbc :=
  if iv.length ≠ b.BlockSize then
    Run.panic "cipher.NewCBCDecrypter: IV length must equal block size"
  else Run.ret { b := b, blockSize := b.BlockSize, iv := iv }

/-- The loop of `(*cbcEncrypter).CryptBlocks`: `for len(src) > 0 { ... }`; every block is
xor-ed with the previous ciphertext block (the IV for the first) and encrypted. -/
def encryptLoop (b : Block) (blockSize : Nat) : Nat → List Byte → List Byte → List Byte
  | 0, _, _ => []
  | fuel + 1, iv, src =>
    if src.length > 0 then
      let blk := b.Encrypt (xorBytes (src.take blockSize) iv)
      blk ++ encryptLoop b blockSize fuel blk (src.drop blockSize)
    else []

/-- Go `(*cbcEncrypter).CryptBlocks(dst, src)`: the `len(src)` bytes written to `dst`. -/
def cbc.encryptBlocks (x : cbc) (src : List Byte) : Run (List Byte) :=
  if src.length % x.blockSize ≠ 0 then Run.panic "crypto/cipher: input not full blocks"
  else Run.ret (encryptLoop x.b x.blockSize src.length x.iv src)

/-- The loop of `(*cbcDecrypter).CryptBlocks`: every block is decrypted and xor-ed with the
previous ciphertext block (the IV for the first). Go walks the blocks from the last to the
first so that it can work in place; the bytes written are the same. -/
def decryptLoop (b : Block) (blockSize : Nat) : Nat → List Byte → List Byte → List Byte
  | 0, _, _ => []
  | fuel + 1, iv, src =>
    if src.length > 0 then
      let blk := src.take blockSize
      xorBytes (b.Decrypt blk) iv ++ decryptLoop b blockSize fuel blk (src.drop blockSize)
    else []

/-- Go `(*cbcDecrypter).CryptBlocks(dst, src)`: the `len(src)` bytes written to `dst`. -/
def cbc.decryptBlocks (x : cbc) (src : List Byte) : Run (List Byte) :=
  if src.length % x.blockSize ≠ 0 then Run.panic "crypto/cipher: input not full blocks"
  else Run.ret (decryptLoop x.b x.blockSize src.length x.iv src)

end cipher

/-! ## crypto/aes: the block cipher (FIPS 197) -/

namespace aes

/-- The table `sbox0` of `crypto/aes`: the FIPS-197 S-box. -/
def sbox0 : List Byte := [
    0x63, 0x7c, 0x77, 0x7b, 0xf2, 0x6b, 0x6f, 0xc5, 0x30, 0x01, 0x67, 0x2b, 0xfe, 0xd7, 0xab, 0x76,
    0xca, 0x82, 0xc9, 0x7d, 0xfa, 0x59, 0x47, 0xf0, 0xad, 0xd4, 0xa2, 0xaf, 0x9c, 0xa4, 0x72, 0xc0,
    0xb7, 0xfd, 0x93, 0x26, 0x36, 0x3f, 0xf7, 0xcc, 0x34, 0xa5, 0xe5, 0xf1, 0x71, 0xd8, 0x31, 0x15,
    0x04, 0xc7, 0x23, 0xc3, 0x18, 0x96, 0x05, 0x9a, 0x07, 0x12, 0x80, 0xe2, 0xeb, 0x27, 0xb2, 0x75,
    0x09, 0x83, 0x2c, 0x1a, 0x1b, 0x6e, 0x5a, 0xa0, 0x52, 0x3b, 0xd6, 0xb3, 0x29, 0xe3, 0x2f, 0x84,
    0x53, 0xd1, 0x00, 0xed, 0x20, 0xfc, 0xb1, 0x5b, 0x6a, 0xcb, 0xbe, 0x39, 0x4a, 0x4c, 0x58, 0xcf,
    0xd0, 0xef, 0xaa, 0xfb, 0x43, 0x4d, 0x33, 0x85, 0x45, 0xf9, 0x02, 0x7f, 0x50, 0x3c, 0x9f, 0xa8,
    0x51, 0xa3, 0x40, 0x8f, 0x92, 0x9d, 0x38, 0xf5, 0xbc, 0xb6, 0xda, 0x21, 0x10, 0xff, 0xf3, 0xd2,
    0xcd, 0x0c, 0x13, 0xec, 0x5f, 0x97, 0x44, 0x17, 0xc4, 0xa7, 0x7e, 0x3d, 0x64, 0x5d, 0x19, 0x73,
    0x60, 0x81, 0x4f, 0xdc, 0x22, 0x2a, 0x90, 0x88, 0x46, 0xee, 0xb8, 0x14, 0xde, 0x5e, 0x0b, 0xdb,
    0xe0, 0x32, 0x3a, 0x0a, 0x49, 0x06, 0x24, 0x5c, 0xc2, 0xd3, 0xac, 0x62, 0x91, 0x95, 0xe4, 0x79,
    0xe7, 0xc8, 0x37, 0x6d, 0x8d, 0xd5, 0x4e, 0xa9, 0x6c, 0x56, 0xf4, 0xea, 0x65, 0x7a, 0xae, 0x08,
    0xba, 0x78, 0x25, 0x2e, 0x1c, 0xa6, 0xb4, 0xc6, 0xe8, 0xdd, 0x74, 0x1f, 0x4b, 0xbd, 0x8b, 0x8a,
    0x70, 0x3e, 0xb5, 0x66, 0x48, 0x03, 0xf6, 0x0e, 0x61, 0x35, 0x57, 0xb9, 0x86, 0xc1, 0x1d, 0x9e,
    0xe1, 0xf8, 0x98, 0x11, 0x69, 0xd9, 0x8e, 0x94, 0x9b, 0x1e, 0x87, 0xe9, 0xce, 0x55, 0x28, 0xdf,
    0x8c, 0xa1, 0x89, 0x0d, 0xbf, 0xe6, 0x42, 0x68, 0x41, 0x99, 0x2d, 0x0f, 0xb0, 0x54, 0xbb, 0x16]

/-- The table `sbox1` of `crypto/aes`: the inverse S-box. -/
def sbox1 : List Byte := [
    0x52, 0x09, 0x6a, 0xd5, 0x30, 0x36, 0xa5, 0x38, 0xbf, 0x40, 0xa3, 0x9e, 0x81, 0xf3, 0xd7, 0xfb,
    0x7c, 0xe3, 0x39, 0x82, 0x9b, 0x2f, 0xff, 0x87, 0x34, 0x8e, 0x43, 0x44, 0xc4, 0xde, 0xe9, 0xcb,
    0x54, 0x7b, 0x94, 0x32, 0xa6, 0xc2, 0x23, 0x3d, 0xee, 0x4c, 0x95, 0x0b, 0x42, 0xfa, 0xc3, 0x4e,
    0x08, 0x2e, 0xa1, 0x66, 0x28, 0xd9, 0x24, 0xb2, 0x76, 0x5b, 0xa2, 0x49, 0x6d, 0x8b, 0xd1, 0x25,
    0x72, 0xf8, 0xf6, 0x64, 0x86, 0x68, 0x98, 0x16, 0xd4, 0xa4, 0x5c, 0xcc, 0x5d, 0x65, 0xb6, 0x92,
    0x6c, 0x70, 0x48, 0x50, 0xfd, 0xed, 0xb9, 0xda, 0x5e, 0x15, 0x46, 0x57, 0xa7, 0x8d, 0x9d, 0x84,
    0x90, 0xd8, 0xab, 0x00, 0x8c, 0xbc, 0xd3, 0x0a, 0xf7, 0xe4, 0x58, 0x05, 0xb8, 0xb3, 0x45, 0x06,
    0xd0, 0x2c, 0x1e, 0x8f, 0xca, 0x3f, 0x0f, 0x02, 0xc1, 0xaf, 0xbd, 0x03, 0x01, 0x13, 0x8a, 0x6b,
    0x3a, 0x91, 0x11, 0x41, 0x4f, 0x67, 0xdc, 0xea, 0x97, 0xf2, 0xcf, 0xce, 0xf0, 0xb4, 0xe6, 0x73,
    0x96, 0xac, 0x74, 0x22, 0xe7, 0xad, 0x35, 0x85, 0xe2, 0xf9, 0x37, 0xe8, 0x1c, 0x75, 0xdf, 0x6e,
    0x47, 0xf1, 0x1a, 0x71, 0x1d, 0x29, 0xc5, 0x89, 0x6f, 0xb7, 0x62, 0x0e, 0xaa, 0x18, 0xbe, 0x1b,
    0xfc, 0x56, 0x3e, 0x4b, 0xc6, 0xd2, 0x79, 0x20, 0x9a, 0xdb, 0xc0, 0xfe, 0x78, 0xcd, 0x5a, 0xf4,
    0x1f, 0xdd, 0xa8, 0x33, 0x88, 0x07, 0xc7, 0x31, 0xb1, 0x12, 0x10, 0x59, 0x27, 0x80, 0xec, 0x5f,
    0x60, 0x51, 0x7f, 0xa9, 0x19, 0xb5, 0x4a, 0x0d, 0x2d, 0xe5, 0x7a, 0x9f, 0x93, 0xc9, 0x9c, 0xef,
    0xa0, 0xe0, 0x3b, 0x4d, 0xae, 0x2a, 0xf5, 0xb0, 0xc8, 0xeb, 0xbb, 0x3c, 0x83, 0x53, 0x99, 0x61,
    0x17, 0x2b, 0x04, 0x7e, 0xba, 0x77, 0xd6, 0x26, 0xe1, 0x69, 0x14, 0x63, 0x55, 0x21, 0x0c, 0x7d]

/-- The table `powx` of `crypto/aes`: powers of `x` in GF(2^8), the round constants. -/
def powx : List Nat :=
  [0x01, 0x02, 0x04, 0x08, 0x10, 0x20, 0x40, 0x80, 0x1b, 0x36, 0x6c, 0xd8, 0xab, 0x4d, 0x9a, 0x2f]

/-- Apply `sbox0` to each byte of the 32-bit word `w` (`subw`). -/
def subw (w : Nat) : Nat :=
  (sbox0.getD (w >>> 24 % 256) 0).val <<< 24 ||| (sbox0.getD (w >>> 16 % 256) 0).val <<< 16 |||
    (sbox0.getD (w >>> 8 % 256) 0).val <<< 8 ||| (sbox0.getD (w % 256) 0).val

/-- Rotate the 32-bit word `w` left by eight bits (`rotw`). -/
def rotw (w : Nat) : Nat := (w <<< 8 ||| w >>> 24) % 2 ^ 32

/-- The loop of `expandKeyGo`: `for i := nk; i < n; i++`, appending one word of the
encryption key schedule per iteration; `count` is the number of words still to add. -/
def expandLoop (nk : Nat) : Nat → Nat → List Nat → List Nat
  | 0, _, enc => enc
  | count + 1, i, enc =>
    let t := enc.getD (i - 1) 0
    let t :=
      if i % nk = 0 then subw (rotw t) ^^^ (powx.getD (i / nk - 1) 0 <<< 24)
      else if nk > 6 ∧ i % nk = 4 then subw t
      else t
    expandLoop nk count (i + 1) (enc ++ [enc.getD (i - nk) 0 ^^^ t])

/-- The encryption key schedule of `expandKeyGo`: `len(key) + 28` words of 32 bits. -/
def expandKey (key : List Byte) : List Nat :=
  let nk := key.length / 4
  let enc := (List.range nk).map (fun i =>
    (key.getD (4 * i) 0).val <<< 24 ||| (key.getD (4 * i + 1) 0).val <<< 16 |||
      (key.getD (4 * i + 2) 0).val <<< 8 ||| (key.getD (4 * i + 3) 0).val)
  expandLoop nk (key.length + 28 - nk) nk enc

/-- The four bytes of a 32-bit word, most significant first. -/
def wordBytes (w : Nat) : List Byte :=
  [Fin.ofNat (w >>> 24), Fin.ofNat (w >>> 16), Fin.ofNat (w >>> 8), Fin.ofNat w]

/-- The sixteen bytes of round key `r` of the schedule `xk`. -/
def roundKey (xk : List Nat) (r : Nat) : List Byte :=
  wordBytes (xk.getD (4 * r) 0) ++ wordBytes (xk.getD (4 * r + 1) 0) ++
    wordBytes (xk.getD (4 * r + 2) 0) ++ wordBytes (xk.getD (4 * r + 3) 0)

/-- Multiplication by `x` in GF(2^8) modulo `x^8 + x^4 + x^3 + x + 1`. -/
def xtime (b : Byte) : Byte :=
  Fin.ofNat ((b.val <<< 1) ^^^ (if b.val ≥ 0x80 then 0x1b else 0))

def subBytes (s : List Byte) : List Byte := s.map (fun b => sbox0.getD b.val 0)

def invSubBytes (s : List Byte) : List Byte := s.map (fun b => sbox1.getD b.val 0)

/-- The step ShiftRows on a state stored column by column. -/
def shiftRows (s : List Byte) : List Byte :=
  ([0, 5, 10, 15, 4, 9, 14, 3, 8, 13, 2, 7, 12, 1, 6, 11] : List Nat).map (fun i => s.getD i 0)

def invShiftRows (s : List Byte) : List Byte :=
  ([0, 13, 10, 7, 4, 1, 14, 11, 8, 5, 2, 15, 12, 9, 6, 3] : List Nat).map (fun i => s.getD i 0)

/-- MixColumns on one column: multiplication by the matrix `02 03 01 01`. -/
def mixColumn (a b c d : Byte) : List Byte :=
  [xtime a ^^^ (xtime b ^^^ b) ^^^ c ^^^ d,
   a ^^^ xtime b ^^^ (xtime c ^^^ c) ^^^ d,
   a ^^^ b ^^^ xtime c ^^^ (xtime d ^^^ d),
   (xtime a ^^^ a) ^^^ b ^^^ c ^^^ xtime d]

def mul9 (b : Byte) : Byte := xtime (xtime (xtime b)) ^^^ b
def mul11 (b : Byte) : Byte := xtime (xtime (xtime b)) ^^^ xtime b ^^^ b
def mul13 (b : Byte) : Byte := xtime (xtime (xtime b)) ^^^ xtime (xtime b) ^^^ b
def mul14 (b : Byte) : Byte := xtime (xtime (xtime b)) ^^^ xtime (xtime b) ^^^ xtime b

/-- InvMixColumns on one column: multiplication by the matrix `0e 0b 0d 09`. -/
def invMixColumn (a b c d : Byte) : List Byte :=
  [mul14 a ^^^ mul11 b ^^^ mul13 c ^^^ mul9 d,
   mul9 a ^^^ mul14 b ^^^ mul11 c ^^^ mul13 d,
   mul13 a ^^^ mul9 b ^^^ mul14 c ^^^ mul11 d,
   mul11 a ^^^ mul13 b ^^^ mul9 c ^^^ mul14 d]

def mixColumns (s : List Byte) : List Byte :=
  mixColumn (s.getD 0 0) (s.getD 1 0) (s.getD 2 0) (s.getD 3 0) ++
  mixColumn (s.getD 4 0) (s.getD 5 0) (s.getD 6 0) (s.getD 7 0) ++
  mixColumn (s.getD 8 0) (s.getD 9 0) (s.getD 10 0) (s.getD 11 0) ++
  mixColumn (s.getD 12 0) (s.getD 13 0) (s.getD 14 0) (s.getD 15 0)

def invMixColumns (s : List Byte) : List Byte :=
  invMixColumn (s.getD 0 0) (s.getD 1 0) (s.getD 2 0) (s.getD 3 0) ++
  invMixColumn (s.getD 4 0) (s.getD 5 0) (s.getD 6 0) (s.getD 7 0) ++
  invMixColumn (s.getD 8 0) (s.getD 9 0) (s.getD 10 0) (s.getD 11 0) ++
  invMixColumn (s.getD 12 0) (s.getD 13 0) (s.getD 14 0) (s.getD 15 0)

/-- The middle rounds of encryption, one per round key of `rks`: SubBytes, ShiftRows,
MixColumns, AddRoundKey. -/
def encRounds : List (List Byte) → List Byte → List Byte
  | [], s => s
  | rk :: rest, s =>
    encRounds rest (cipher.xorBytes (mixColumns (shiftRows (subBytes s))) rk)

/-- The middle rounds of decryption for the round keys `rks` (given in encryption order,
used from the last to the first): AddRoundKey, InvMixColumns, InvShiftRows, InvSubBytes. -/
def decRounds : List (List Byte) → List Byte → List Byte
  | [], s => s
  | rk :: rest, s =>
    invSubBytes (invShiftRows (invMixColumns (cipher.xorBytes (decRounds rest s) rk)))

/-- The round keys 1 to `nr - 1` of the schedule `xk`. -/
def middleKeys (xk : List Nat) (nr : Nat) : List (List Byte) :=
  (List.range (nr - 1)).map (fun r => roundKey xk (r + 1))

/-- The block that `encryptBlockGo(xk, dst, src)` writes to `dst`, for `nr` rounds. -/
def encryptBlock (xk : List Nat) (nr : Nat) (src : List Byte) : List Byte :=
  let s := cipher.xorBytes (src.take 16) (roundKey xk 0)
  let s := encRounds (middleKeys xk nr) s
  cipher.xorBytes (shiftRows (subBytes s)) (roundKey xk nr)

/-- The block that `decryptBlockGo(xk, dst, src)` writes to `dst`, for `nr` rounds. -/
def decryptBlock (xk : List Nat) (nr : Nat) (src : List Byte) : List Byte :=
  let s := cipher.xorBytes (src.take 16) (roundKey xk nr)
  let s := invSubBytes (invShiftRows s)
  let s := decRounds (middleKeys xk nr) s
  cipher.xorBytes s (roundKey xk 0)

/-- The `cipher.Block` that `aes.NewCipher(key)` returns for a key of 16, 24 or 32 bytes:
AES with `len(key)/4 + 6` rounds. -/
def newBlock (key : List Byte) : cipher.Block where
  BlockSize := 16
  Encrypt := encryptBlock (expandKey key) (key.length / 4 + 6)
  Decrypt := decryptBlock (expandKey key) (key.length / 4 + 6)

/-- Go `aes.NewCipher(key)`. -/
def NewCipher (key : List Byte) : Option cipher.Block × GoError :=
  let k := key.length
  if k = 16 ∨ k = 24 ∨ k = 32 then (some (newBlock key), none)
  else (none, some (Err.KeySizeError k))

end aes

/-! ## encoding/base64: `StdEncoding` -/

namespace base64

/-- The alphabet `encodeStd`. -/
def encodeStd : List Byte :=
  "ABCDEFGHIJKLMNOPQRSTUVWXYZabcdefghijklmnopqrstuvwxyz0123456789+/".toList.map ch

/-- The table `enc.encode`. -/
def encode (i : Nat) : Byte := encodeStd.getD i 0

/-- The table `enc.decodeMap`: the index of `c` in the alphabet, `0xff` for any other byte. -/
def decodeMap (c : Byte) : Nat :=
  let i := encodeStd.indexOf c
  if i < 64 then i else 0xff

/-- The padding character `StdPadding`. -/
def padChar : Byte := ch '='

/-- Go `base64.StdEncoding.EncodeToString(src)`. -/
def EncodeToString : List Byte → GoString
  | [] => []
  | [a] =>
    let val := a.val <<< 16
    [encode ((val >>> 18) &&& 0x3F), encode ((val >>> 12) &&& 0x3F), padChar, padChar]
  | [a, b] =>
    let val := a.val <<< 16 ||| b.val <<< 8
    [encode ((val >>> 18) &&& 0x3F), encode ((val >>> 12) &&& 0x3F),
      encode ((val >>> 6) &&& 0x3F), padChar]
  | a :: b :: c :: rest =>
    let val := a.val <<< 16 ||| b.val <<< 8 ||| c.val
    encode ((val >>> 18) &&& 0x3F) :: encode ((val >>> 12) &&& 0x3F) ::
      encode ((val >>> 6) &&& 0x3F) :: encode (val &&& 0x3F) :: EncodeToString rest

/-- The end of `decodeQuantum`: the `dlen - 1` bytes stored from the 6-bit values `dbuf`. -/
def quantumBytes (dbuf : List Nat) (dlen : Nat) : List Byte :=
  let val := dbuf.getD 0 0 <<< 18 ||| dbuf.getD 1 0 <<< 12 ||| dbuf.getD 2 0 <<< 6 |||
    dbuf.getD 3 0
  ([Fin.ofNat (val >>> 16), Fin.ofNat (val >>> 8), Fin.ofNat (val >>> 0)] : List Byte).take
    (dlen - 1)

def isNewline (c : Byte) : Bool := c == ch '\n' || c == ch '\r'

/-- After the padding of a quantum: skip newlines; anything left is trailing garbage.
`si` is the index of the first byte of `rest`. -/
def afterPadding (rest : List Byte) (si : Nat) (dbuf : List Nat) (dlen : Nat) :
    List Byte × GoError :=
  let rest1 := rest.dropWhile isNewline
  let si1 := si + (rest.length - rest1.length)
  (quantumBytes dbuf dlen, if rest1 ≠ [] then some (Err.CorruptInputError si1) else none)

/-- Go `(*Encoding).Decode` for `StdEncoding`: the bytes decoded and the error. The outer
loop calls `decodeQuantum` until the input ends or an error occurs; `j` and `dbuf` are the
loop variables of `decodeQuantum` (`dbuf` holds the `j` values read so far), `rest` is
`src[si:]`. A completed quantum (`j` reaching 4) stores three bytes and starts the next
one. The 8- and 4-character fast paths of `Decode` compute the same bytes. -/
def decodeLoop : List Byte → Nat → Nat → List Nat → List Byte × GoError
  | [], si, j, _ =>
    if j = 0 then ([], none) else ([], some (Err.CorruptInputError (si - j)))
  | in_ :: rest, si, j, dbuf =>
    let si := si + 1
    let out := decodeMap in_
    if out ≠ 0xff then
      if j + 1 = 4 then
        let r := decodeLoop rest si 0 []
        (quantumBytes (dbuf ++ [out]) 4 ++ r.1, r.2)
      else decodeLoop rest si (j + 1) (dbuf ++ [out])
    else if in_ = ch '\n' ∨ in_ = ch '\r' then decodeLoop rest si j dbuf
    else if in_ ≠ padChar then ([], some (Err.CorruptInputError (si - 1)))
    else
      match j with
      | 0 => ([], some (Err.CorruptInputError (si - 1)))
      | 1 => ([], some (Err.CorruptInputError (si - 1)))
      | 2 =>
        let rest1 := rest.dropWhile isNewline
        let si1 := si + (rest.length - rest1.length)
        match rest1 with
        | [] => ([], some (Err.CorruptInputError si1))
        | c :: rest2 =>
          if c ≠ padChar then ([], some (Err.CorruptInputError (si1 - 1)))
          else afterPadding rest2 (si1 + 1) dbuf j
      | _ => afterPadding rest si dbuf j

/-- Go `base64.StdEncoding.DecodeString(s)`: `(dbuf[:n], err)`. -/
def DecodeString (s : GoString) : List Byte × GoError :=
  decodeLoop s 0 0 []

end base64

/-! ## net/url: query escaping -/

namespace url

def ishex (c : Byte) : Bool :=
  (ch '0' ≤ c && c ≤ ch '9') || (ch 'a' ≤ c && c ≤ ch 'f') || (ch 'A' ≤ c && c ≤ ch 'F')

def unhex (c : Byte) : Byte :=
  if ch '0' ≤ c ∧ c ≤ ch '9' then c - ch '0'
  else if ch 'a' ≤ c ∧ c ≤ ch 'f' then c - ch 'a' + 10
  else if ch 'A' ≤ c ∧ c ≤ ch 'F' then c - ch 'A' + 10
  else 0

/-- Go `shouldEscape(c, encodeQueryComponent)`. -/
def shouldEscape (c : Byte) : Bool :=
  if (ch 'a' ≤ c ∧ c ≤ ch 'z') ∨ (ch 'A' ≤ c ∧ c ≤ ch 'Z') ∨ (ch '0' ≤ c ∧ c ≤ ch '9') then false
  else if c = ch '-' ∨ c = ch '_' ∨ c = ch '.' ∨ c = ch '~' then false
  else true

def upperhex : List Byte := "0123456789ABCDEF".toList.map ch

/-- The second loop of Go `escape(s, encodeQueryComponent)`. -/
def escapeLoop : List Byte → List Byte
  | [] => []
  | c :: rest =>
    if c = ch ' ' then ch '+' :: escapeLoop rest
    else if shouldEscape c then
      ch '%' :: upperhex.getD (c.val >>> 4) 0 :: upperhex.getD (c.val &&& 15) 0 :: escapeLoop rest
    else c :: escapeLoop rest

/-- Go `escape(s, encodeQueryComponent)`. -/
def escape (s : GoString) : GoString :=
  let spaceCount := (s.filter (fun c => shouldEscape c && c == ch ' ')).length
  let hexCount := (s.filter (fun c => shouldEscape c && !(c == ch ' '))).length
  if spaceCount = 0 ∧ hexCount = 0 then s
  else if hexCount = 0 then s.map (fun c => if c = ch ' ' then ch '+' else c)
  else escapeLoop s

/-- Go `url.QueryEscape`. -/
def QueryEscape (s : GoString) : GoString := escape s

/-- The first loop of Go `unescape(s, encodeQueryComponent)`: the `EscapeError` of the
first malformed percent-escape, if there is one. -/
def unescapeCheck : List Byte → GoError
  | [] => none
  | c :: rest =>
    if c = ch '%' then
      match rest with
      | a :: b :: rest2 =>
        if !ishex a || !ishex b then some (Err.EscapeError [c, a, b])
        else unescapeCheck rest2
      | _ => some (Err.EscapeError (c :: rest))
    else unescapeCheck rest

/-- The second loop of Go `unescape(s, encodeQueryComponent)`, run on checked input. -/
def unescapeLoop : List Byte → List Byte
  | [] => []
  | c :: rest =>
    if c = ch '%' then
      match rest with
      | a :: b :: rest2 => (unhex a <<< 4 ||| unhex b) :: unescapeLoop rest2
      | _ => []
    else if c = ch '+' then ch ' ' :: unescapeLoop rest
    else c :: unescapeLoop rest

/-- Go `unescape(s, encodeQueryComponent)`. -/
def unescape (s : GoString) : GoString × GoError :=
  match unescapeCheck s with
  | some e => ([], some e)
  | none =>
    let n := (s.filter (fun c => c == ch '%')).length
    let hasPlus := s.any (fun c => c == ch '+')
    if n = 0 ∧ !hasPlus then (s, none) else (unescapeLoop s, none)

/-- Go `url.QueryUnescape`. -/
def QueryUnescape (s : GoString) : GoString × GoError := unescape s

end url

end Cryhel

namespace Cryhel

/-! ## reflect, fmt and encoding/json as far as `Out` uses them -/

namespace reflect

/-- Go `reflect.Kind`. -/
inductive Kind where
  | Invalid | Bool | Int | Int8 | Int16 | Int32 | Int64
  | Uint | Uint8 | Uint16 | Uint32 | Uint64 | Uintptr
  | Float32 | Float64 | Complex64 | Complex128
  | Array | Chan | Func | Interface | Map | Ptr | Slice | String | Struct | UnsafePtr
  deriving DecidableEq, Repr

end reflect

/-- What the Go run time offers for the interface values of some type `D` that a caller
may pass to `Out` as destination: their `reflect` kind (`Invalid` for an untyped `nil`),
how `fmt` renders them under the verb `%s`, and what `json.Unmarshal(data, v)` does with
them (the destination afterwards, and the error). -/
structure Values (D : Type) where
  KindOf : D → reflect.Kind
  Sprint_s : D → String
  Unmarshal : List Byte → D → D × GoError

/-- `isPointer` of cryhel.go. -/
def isPointer {D : Type} (V : Values D) (value : D) : Bool :=
  if V.KindOf value ≠ reflect.Kind.Ptr then false
  else true

/-! ## cryhel.go: the cipher core -/

/-- `Crypto` of cryhel.go. `block` is `none` for a nil `cipher.Block`. The fields `Encrypt`
and `Decrypt` of the Go struct point to services that hold the `Crypto` itself; they are
the functions `Crypto.Encrypt` and `Crypto.Decrypt` below. -/
structure Crypto where
  block : Option cipher.Block
  bkey : List Byte

/-- `(*Crypto).encrypt` of cryhel.go; `rand` is the random source `rand.Reader`. -/
def Crypto.encrypt (c : Crypto) (rand : Reader) (msg : GoString) : Run (List Byte × GoError) :=
  let plaintext := ZeroPadding msg
  if plaintext.length % aes.BlockSize ≠ 0 then
    Run.ret ([], errors.New "plaintext is not a multiple of the block size")
  else
    -- ciphertext := make([]byte, aes.BlockSize+len(plaintext)); iv := ciphertext[:aes.BlockSize]
    match io.ReadFull rand aes.BlockSize with
    | (_, some err) => Run.ret ([], errors.New err)
    | (iv, none) =>
      match c.block with
      | none => Run.panic "runtime error: invalid memory address or nil pointer dereference"
      | some block =>
        match cipher.NewCBCEncrypter block iv with
        | Run.panic msg => Run.panic msg
        | Run.ret mode =>
          match mode.encryptBlocks plaintext with
          | Run.panic msg => Run.panic msg
          | Run.ret out => Run.ret (iv ++ out, none)

/-- `(*Crypto).decrypt` of cryhel.go. The slice expression `c.bkey[:n]` is modelled with
`cap(c.bkey) = len(c.bkey)`. -/
def Crypto.decrypt (c : Crypto) (ciphertext : List Byte) : Run (List Byte × GoError) :=
  match c.block with
  | none => Run.panic "runtime error: invalid memory address or nil pointer dereference"
  | some block =>
    if c.bkey.length < block.BlockSize then Run.panic "runtime error: slice bounds out of range"
    else
      match cipher.NewCBCDecrypter block (c.bkey.take block.BlockSize) with
      | Run.panic msg => Run.panic msg
      | Run.ret blockMode =>
        if ciphertext.length < aes.BlockSize then
          Run.ret ([], errors.New "ciphertext too short")
        else if ciphertext.length % aes.BlockSize ≠ 0 then
          Run.ret ([], errors.New "ciphertext is not a multiple of the block size")
        else
          -- planeText := make([]byte, len(ciphertext))
          match blockMode.decryptBlocks ciphertext with
          | Run.panic msg => Run.panic msg
          | Run.ret planeText => Run.ret (ZeroUnPadding (planeText.drop aes.BlockSize), none)

/-- `NewCrypto` of cryhel.go: the pair `(c, err)`; `c = none` is the nil pointer. -/
def NewCrypto (secretkey : GoString) : Option Crypto × GoError :=
  if secretkey = [] then (none, errors.New "secret key empty")
  else
    let bkey : List Byte := secretkey
    let r := aes.NewCipher bkey
    (some { block := r.1, bkey := bkey }, r.2)

/-! ## cryhel.go: the call builders -/

structure EncryptService where
  s : Crypto

def NewEncryptService (s : Crypto) : EncryptService := { s := s }

structure EncryptMsgCall where
  s : Crypto
  m : GoString

def EncryptService.Msg (r : EncryptService) (msg : GoString) : EncryptMsgCall :=
  { s := r.s, m := msg }

def EncryptMsgCall.Do (r : EncryptMsgCall) (rand : Reader) : Run (GoString × GoError) :=
  match r.s.encrypt rand r.m with
  | Run.panic msg => Run.panic msg
  | Run.ret (ciphertext, err) =>
    if err ≠ none then Run.ret ([], err)
    else Run.ret (base64.EncodeToString ciphertext, none)

structure EncryptQueryEscapeMsgCall where
  s : Crypto
  m : GoString

def EncryptService.QueryEscapeMsg (r : EncryptService) (msg : GoString) :
    EncryptQueryEscapeMsgCall :=
  { s := r.s, m := msg }

def EncryptQueryEscapeMsgCall.Do (r : EncryptQueryEscapeMsgCall) (rand : Reader) :
    Run (GoString × GoError) :=
  match r.s.encrypt rand r.m with
  | Run.panic msg => Run.panic msg
  | Run.ret (ciphertext, err) =>
    if err ≠ none then Run.ret ([], err)
    else
      let base64EncodeString := url.QueryEscape (base64.EncodeToString ciphertext)
      Run.ret (base64EncodeString, none)

structure DecryptService where
  s : Crypto

def NewDecryptService (s : Crypto) : DecryptService := { s := s }

structure DecryptMsgCall where
  s : Crypto
  m : GoString

def DecryptService.Msg (r : DecryptService) (msg : GoString) : DecryptMsgCall :=
  { s := r.s, m := msg }

def DecryptMsgCall.Do (r : DecryptMsgCall) : Run (GoString × GoError) :=
  let ciphertext := (base64.DecodeString r.m).1
  match r.s.decrypt ciphertext with
  | Run.panic msg => Run.panic msg
  | Run.ret (buf, err) =>
    if err ≠ none then Run.ret ([], err)
    else Run.ret (buf, none)

/-- `(*DecryptMsgCall).Out` of cryhel.go: the destination after the call, and the error. -/
def DecryptMsgCall.Out {D : Type} (V : Values D) (r : DecryptMsgCall) (out : D) :
    Run (D × GoError) :=
  if !isPointer V out then
    Run.ret (out, errors.New ("Value '" ++ V.Sprint_s out ++ "' is not a pointer"))
  else
    let ciphertext := (base64.DecodeString r.m).1
    match r.s.decrypt ciphertext with
    | Run.panic msg => Run.panic msg
    | Run.ret (buf, err) =>
      if err ≠ none then Run.ret (out, err)
      else
        let u := V.Unmarshal buf out
        if u.2 ≠ none then Run.ret (u.1, u.2)
        else Run.ret (u.1, none)

structure DecryptQueryEscapeMsgCall where
  s : Crypto
  m : GoString

def DecryptService.QueryEscapeMsg (r : DecryptService) (msg : GoString) :
    DecryptQueryEscapeMsgCall :=
  { s := r.s, m := msg }

def DecryptQueryEscapeMsgCall.Do (r : DecryptQueryEscapeMsgCall) : Run (GoString × GoError) :=
  let base64Encode := (url.QueryUnescape r.m).1
  let ciphertext := (base64.DecodeString base64Encode).1
  match r.s.decrypt ciphertext with
  | Run.panic msg => Run.panic msg
  | Run.ret (buf, err) =>
    if err ≠ none then Run.ret ([], err)
    else Run.ret (buf, none)

/-- `(*DecryptQueryEscapeMsgCall).Out` of cryhel.go. -/
def DecryptQueryEscapeMsgCall.Out {D : Type} (V : Values D) (r : DecryptQueryEscapeMsgCall)
    (out : D) : Run (D × GoError) :=
  if !isPointer V out then
    Run.ret (out, errors.New ("Value '" ++ V.Sprint_s out ++ "' is not a pointer"))
  else
    let base64Encode := (url.QueryUnescape r.m).1
    let ciphertext := (base64.DecodeString base64Encode).1
    match r.s.decrypt ciphertext with
    | Run.panic msg => Run.panic msg
    | Run.ret (buf, err) =>
      if err ≠ none then Run.ret (out, err)
      else
        let u := V.Unmarshal buf out
        if u.2 ≠ none then Run.ret (u.1, u.2)
        else Run.ret (u.1, none)

/-- The field `c.Encrypt`, set by `NewCrypto` to `NewEncryptService(c)`. -/
def Crypto.Encrypt (c : Crypto) : EncryptService := NewEncryptService c

/-- The field `c.Decrypt`, set by `NewCrypto` to `NewDecryptService(c)`. -/
def Crypto.Decrypt (c : Crypto) : DecryptService := NewDecryptService c

/-! ## Specification side: the shape of a URL-safe token -/

/-- An ASCII letter or digit. -/
def isAlnum (c : Byte) : Bool :=
  (ch 'a' ≤ c && c ≤ ch 'z') || (ch 'A' ≤ c && c ≤ ch 'Z') || (ch '0' ≤ c && c ≤ ch '9')

/-- A character of the standard base64 alphabet, or the padding character. -/
def isBase64Char (c : Byte) : Bool :=
  isAlnum c || c == ch '+' || c == ch '/' || c == ch '='

/-- Every character of the token is an ASCII letter or digit, or is a `%` followed by two
hexadecimal digits. -/
def urlTokenOK : List Byte → Bool
  | [] => true
  | c :: rest =>
    if isAlnum c then urlTokenOK rest
    else if c = ch '%' then
      match rest with
      | a :: b :: rest2 => url.ishex a && url.ishex b && urlTokenOK rest2
      | _ => false
    else false

/-! ## Values for examples -/

/-- The sixteen-byte key `"0123456789abcdef"`. -/
def exampleKey : List Byte := "0123456789abcdef".toList.map ch

/-- A random source that delivers the bytes 1 to 32. -/
def exampleRand : Reader where
  supply := (List.range 32).map (fun i => Fin.ofNat (i + 1))
  failure := "unexpected EOF"

/-- The `Crypto` that `NewCrypto` builds from `exampleKey`. -/
def exampleCrypto : Crypto where
  block := some (aes.newBlock exampleKey)
  bkey := exampleKey

/-- A random source that delivers the first sixteen bytes of `exampleKey`, the IV that
`decrypt` derives from the key. -/
def keyRand : Reader where
  supply := exampleKey
  failure := "unexpected EOF"

/-- A `Values` for examples: a destination is a flag telling whether it is a pointer and
the bytes it holds; a non-pointer is a Go string. Unmarshalling stores the data. -/
def exampleValues : Values (Bool × List Byte) where
  KindOf := fun d => if d.1 then reflect.Kind.Ptr else reflect.Kind.String
  Sprint_s := fun d => String.mk (d.2.map (fun b => Char.ofNat b.val))
  Unmarshal := fun data d => ((d.1, data), none)

end Cryhel

namespace Cryhel

/-! ## Specification side: standard CBC decryption -/

/-- Specification side: the first `n` blocks of sixteen bytes of `l`. -/
def blocks16 (n : Nat) (l : List Byte) : List (List Byte) :=
  (List.range n).map (fun i => (l.drop (16 * i)).take 16)

/-- Specification side: standard CBC decryption of the ciphertext `ct` under the block
cipher `b` and the initialisation vector `iv`: plaintext block `i` is the decryption of
ciphertext block `i` xor-ed with ciphertext block `i - 1`, the IV taking the place of
block `-1`. -/
def stdCBCDecrypt (b : cipher.Block) (iv ct : List Byte) : List Byte :=
  let cs := blocks16 (ct.length / 16) ct
  (List.zipWith (fun c prev => cipher.xorBytes (b.Decrypt c) prev) cs (iv :: cs)).flatten

end Cryhel

namespace Cryhel

/-! ## Lemmas: UTF-8 decoding never yields rune 0 from a non-zero byte -/

theorem nat_or_ne_zero_left {x : Nat} (y : Nat) (h : x ≠ 0) : x ||| y ≠ 0 := by
  intro h0
  obtain ⟨i, hi⟩ := Nat.ne_zero_implies_bit_true h
  have := Nat.testBit_or x y i
  rw [h0, hi] at this
  simp at this

theorem nat_or_ne_zero_right (x : Nat) {y : Nat} (h : y ≠ 0) : x ||| y ≠ 0 := by
  intro h0
  obtain ⟨i, hi⟩ := Nat.ne_zero_implies_bit_true h
  have := Nat.testBit_or x y i
  rw [h0, hi] at this
  simp at this

theorem nat_shiftLeft_ne_zero {x : Nat} (n : Nat) (h : x ≠ 0) : x <<< n ≠ 0 := by
  rw [Nat.shiftLeft_eq]
  exact Nat.mul_ne_zero h (by positivity)

theorem utf8_first_cases (n : Nat) :
    (utf8.first n = 0xF0 ∧ n < 0x80) ∨ utf8.first n = 0xF1 ∨
    (utf8.first n = 0x02 ∧ 0xC2 ≤ n ∧ n < 0xE0) ∨
    (utf8.first n = 0x13 ∧ n = 0xE0) ∨
    (utf8.first n = 0x03 ∧ 0xE1 ≤ n ∧ n < 0xF0) ∨
    (utf8.first n = 0x23 ∧ n = 0xED) ∨
    (utf8.first n = 0x34 ∧ n = 0xF0) ∨
    (utf8.first n = 0x04 ∧ 0xF1 ≤ n ∧ n < 0xF4) ∨
    (utf8.first n = 0x44 ∧ n = 0xF4) := by
  unfold utf8.first
  split_ifs <;> simp <;> omega

theorem decodeRune_width_pos (b : Byte) (t : List Byte) : 1 ≤ (utf8.DecodeRune (b :: t)).2 := by
  unfold utf8.DecodeRune
  simp only
  split_ifs <;> simp

theorem and_1F_ne_zero (n : Nat) (h1 : 0xC2 ≤ n) (h2 : n < 0xE0) : n &&& 0x1F ≠ 0 := by
  interval_cases n <;> decide

theorem and_0F_ne_zero (n : Nat) (h1 : 0xE1 ≤ n) (h2 : n < 0xF0) : n &&& 0x0F ≠ 0 := by
  interval_cases n <;> decide

theorem and_07_ne_zero (n : Nat) (h1 : 0xF1 ≤ n) (h2 : n ≤ 0xF4) : n &&& 0x07 ≠ 0 := by
  interval_cases n <;> decide

theorem and_3F_ne_zero (n : Nat) (h1 : 0x90 ≤ n) (h2 : n ≤ 0xBF) : n &&& 0x3F ≠ 0 := by
  interval_cases n <;> decide

theorem utf8_sz_eval : (0x02 &&& 7 : Nat) = 2 ∧ (0x13 &&& 7 : Nat) = 3 ∧ (0x03 &&& 7 : Nat) = 3 ∧
    (0x23 &&& 7 : Nat) = 3 ∧ (0x34 &&& 7 : Nat) = 4 ∧ (0x04 &&& 7 : Nat) = 4 ∧
    (0x44 &&& 7 : Nat) = 4 := by decide

theorem utf8_idx_eval : (0x02 >>> 4 : Nat) = 0 ∧ (0x13 >>> 4 : Nat) = 1 ∧ (0x03 >>> 4 : Nat) = 0 ∧
    (0x23 >>> 4 : Nat) = 2 ∧ (0x34 >>> 4 : Nat) = 3 ∧ (0x04 >>> 4 : Nat) = 0 ∧
    (0x44 >>> 4 : Nat) = 4 := by decide

/-- A rune decoded from bytes whose first byte is not zero is not rune 0. -/
theorem decodeRune_ne_zero (b : Byte) (t : List Byte) (hb : b ≠ 0) :
    (utf8.DecodeRune (b :: t)).1 ≠ 0 := by
  have hbv : b.val ≠ 0 := fun h => hb (Fin.ext h)
  obtain ⟨s1, s2, s3, s4, s5, s6, s7⟩ := utf8_sz_eval
  obtain ⟨i1, i2, i3, i4, i5, i6, i7⟩ := utf8_idx_eval
  unfold utf8.DecodeRune
  simp only
  rcases utf8_first_cases b.val with h | h | h | h | h | h | h | h | h
  · simp [h.1, hbv]
  · simp [h, utf8.RuneError]
  · simp [h.1, utf8.acceptRanges, utf8.RuneError, s1, i1]
    split_ifs <;> simp
    exact nat_or_ne_zero_left _ (nat_shiftLeft_ne_zero _ (and_1F_ne_zero _ h.2.1 h.2.2))
  · simp [h.1, utf8.acceptRanges, utf8.RuneError, s2, i2]
    split_ifs <;> simp
    exact nat_or_ne_zero_left _ (nat_or_ne_zero_right _
      (nat_shiftLeft_ne_zero _ (and_3F_ne_zero _ (by omega) (by omega))))
  · simp [h.1, utf8.acceptRanges, utf8.RuneError, s3, i3]
    split_ifs <;> simp
    exact nat_or_ne_zero_left _ (nat_or_ne_zero_left _
      (nat_shiftLeft_ne_zero _ (and_0F_ne_zero _ h.2.1 h.2.2)))
  · simp [h.1, utf8.acceptRanges, utf8.RuneError, s4, i4]
    split_ifs <;> simp
    exact nat_or_ne_zero_left _ (nat_or_ne_zero_left _
      (nat_shiftLeft_ne_zero _ (and_0F_ne_zero _ (by omega) (by omega))))
  · simp [h.1, utf8.acceptRanges, utf8.RuneError, s5, i5]
    split_ifs <;> simp
    exact nat_or_ne_zero_left _ (nat_or_ne_zero_left _ (nat_or_ne_zero_right _
      (nat_shiftLeft_ne_zero _ (and_3F_ne_zero _ (by omega) (by omega)))))
  · simp [h.1, utf8.acceptRanges, utf8.RuneError, s6, i6]
    split_ifs <;> simp
    exact nat_or_ne_zero_left _ (nat_or_ne_zero_left _ (nat_or_ne_zero_left _
      (nat_shiftLeft_ne_zero _ (and_07_ne_zero _ (by omega) (by omega)))))
  · simp [h.1, utf8.acceptRanges, utf8.RuneError, s7, i7]
    split_ifs <;> simp
    exact nat_or_ne_zero_left _ (nat_or_ne_zero_left _ (nat_or_ne_zero_left _
      (nat_shiftLeft_ne_zero _ (and_07_ne_zero _ (by omega) (by omega)))))

/-- A byte `≥ 0x80` followed by nothing or by a zero byte decodes with width 1. -/
theorem decodeRune_width_one (b : Byte) (zs : List Byte) (hb : 0x80 ≤ b.val)
    (hz : zs = [] ∨ zs.head? = some 0) : (utf8.DecodeRune (b :: zs)).2 = 1 := by
  obtain ⟨s1, s2, s3, s4, s5, s6, s7⟩ := utf8_sz_eval
  obtain ⟨i1, i2, i3, i4, i5, i6, i7⟩ := utf8_idx_eval
  have hz0 : (zs[0]?.getD 0).val = 0 := by
    rcases hz with h | h
    · simp [h]
    · cases zs with
      | nil => simp
      | cons z t => simp at h; simp [h]
  unfold utf8.DecodeRune
  simp only
  rcases utf8_first_cases b.val with h | h | h | h | h | h | h | h | h
  · omega
  · simp [h]
  all_goals
    simp [h.1, utf8.acceptRanges, s1, s2, s3, s4, s5, s6, s7, i1, i2, i3, i4, i5, i6, i7, hz0]

/-- A multi-byte decode only reads the bytes it consumes. -/
theorem decodeRune_append (p q : List Byte) (h : 2 ≤ (utf8.DecodeRune p).2) :
    utf8.DecodeRune (p ++ q) = utf8.DecodeRune p := by
  obtain ⟨s1, s2, s3, s4, s5, s6, s7⟩ := utf8_sz_eval
  obtain ⟨i1, i2, i3, i4, i5, i6, i7⟩ := utf8_idx_eval
  rcases p with _ | ⟨b, t⟩
  · simp [utf8.DecodeRune] at h
  · unfold utf8.DecodeRune at h ⊢
    simp only [List.cons_append] at h ⊢
    rcases utf8_first_cases b.val with h1 | h1 | h1 | h1 | h1 | h1 | h1 | h1 | h1
    · simp [h1.1] at h
    · simp [h1] at h
    all_goals
      rcases t with _ | ⟨c, _ | ⟨d, _ | ⟨e, t⟩⟩⟩ <;>
      simp [h1.1, utf8.acceptRanges, s1, s2, s3, s4, s5, s6, s7, i1, i2, i3, i4, i5, i6, i7]
        at h ⊢
    all_goals
      split_ifs <;> first | rfl | omega

/-- A multi-byte decode starts at a byte `≥ 0x80`. -/
theorem decodeRune_head_ge (b : Byte) (t : List Byte) (h : 2 ≤ (utf8.DecodeRune (b :: t)).2) :
    0x80 ≤ b.val := by
  unfold utf8.DecodeRune at h
  simp only at h
  rcases utf8_first_cases b.val with h1 | h1 | h1 | h1 | h1 | h1 | h1 | h1 | h1
  · simp [h1.1] at h
  · simp [h1] at h
  all_goals omega

theorem scanBack_le (p : List Byte) (lim : Int) (fuel : Nat) (st : Int) :
    utf8.scanBack p lim fuel st ≤ st := by
  induction fuel generalizing st with
  | zero => simp [utf8.scanBack]
  | succ n ih =>
    unfold utf8.scanBack
    split_ifs
    · exact le_refl _
    · exact le_trans (ih _) (by omega)
    · exact le_refl _

theorem decodeLastRune_unfold (init : List Byte) (b : Byte) (hb : 0x80 ≤ b.val) :
    ∃ S, S ≤ init.length ∧ utf8.DecodeLastRune (init ++ [b]) =
      if S + (utf8.DecodeRune ((init ++ [b]).drop S)).2 ≠ init.length + 1
      then (utf8.RuneError, 1) else utf8.DecodeRune ((init ++ [b]).drop S) := by
  unfold utf8.DecodeLastRune
  simp only [List.length_append, List.length_singleton]
  have hlast : ((init ++ [b]).getD (((init.length + 1 : Nat) : Int) - 1).toNat 0) = b := by
    have : (((init.length + 1 : Nat) : Int) - 1).toNat = init.length := by omega
    rw [this]
    simp
  rw [if_neg (by omega), hlast, if_neg (by simp [utf8.RuneSelf]; omega)]
  generalize hlim : (if ((init.length + 1 : Nat) : Int) - (utf8.UTFMax : Int) < 0 then (0 : Int)
    else ((init.length + 1 : Nat) : Int) - (utf8.UTFMax : Int)) = lim
  have hsc := scanBack_le (init ++ [b]) lim (utf8.UTFMax + 1) (((init.length + 1 : Nat) : Int) - 1 - 1)
  generalize utf8.scanBack (init ++ [b]) lim (utf8.UTFMax + 1)
    (((init.length + 1 : Nat) : Int) - 1 - 1) = st at hsc ⊢
  have hS : (if st < 0 then 0 else st).toNat ≤ init.length := by
    split_ifs <;> omega
  refine ⟨(if st < 0 then 0 else st).toNat, hS, ?_⟩
  rw [List.take_of_length_le (by simp)]

/-- What `bytes.TrimRightFunc` needs of `DecodeLastRune` at a last byte `≥ 0x80`: the rune is
not 0, and decoding forward from where the rune starts consumes exactly its width, also
when zero bytes follow. -/
theorem decodeLastRune_spec (init : List Byte) (b : Byte) (hb : 0x80 ≤ b.val) :
    (utf8.DecodeLastRune (init ++ [b])).1 ≠ 0 ∧ 1 ≤ (utf8.DecodeLastRune (init ++ [b])).2 ∧
    (utf8.DecodeLastRune (init ++ [b])).2 ≤ init.length + 1 ∧
    ∀ zs : List Byte, (zs = [] ∨ zs.head? = some 0) →
      0x80 ≤ ((init ++ [b] ++ zs).getD
        (init.length + 1 - (utf8.DecodeLastRune (init ++ [b])).2) 0).val ∧
      (utf8.DecodeRune ((init ++ [b] ++ zs).drop
        (init.length + 1 - (utf8.DecodeLastRune (init ++ [b])).2))).2 =
        (utf8.DecodeLastRune (init ++ [b])).2 := by
  obtain ⟨S, hS, hE⟩ := decodeLastRune_unfold init b hb
  have hbne : b ≠ 0 := by
    intro h
    rw [h] at hb
    simp at hb
  have hlastD : ∀ zs : List Byte, (init ++ [b] ++ zs).getD init.length 0 = b := by
    intro zs
    simp [List.getD_eq_getElem?_getD, List.getElem_append_right]
  have hlastDrop : ∀ zs : List Byte, (init ++ [b] ++ zs).drop init.length = b :: zs := by
    intro zs
    simp [List.drop_append_of_le_length]
  rw [hE]
  split_ifs with hne
  · refine ⟨by simp [utf8.RuneError], le_refl _, by simp, fun zs hz => ?_⟩
    simp only [Nat.add_sub_cancel]
    rw [hlastD, hlastDrop]
    exact ⟨hb, decodeRune_width_one b zs hb hz⟩
  · simp only [ne_eq, Decidable.not_not] at hne
    have hdrop : (init ++ [b]).drop S = init.drop S ++ [b] := by
      rw [List.drop_append_of_le_length hS]
    by_cases h1 : (utf8.DecodeRune ((init ++ [b]).drop S)).2 = 1
    · have hSe : S = init.length := by omega
      subst hSe
      have hd : (init ++ [b]).drop init.length = [b] := by simp
      rw [hd] at h1 ⊢
      refine ⟨decodeRune_ne_zero b [] hbne, by omega, by omega, fun zs hz => ?_⟩
      rw [h1]
      simp only [Nat.add_sub_cancel]
      rw [hlastD, hlastDrop]
      exact ⟨hb, decodeRune_width_one b zs hb hz⟩
    · have hne0 : init.drop S ++ [b] ≠ [] := by simp
      obtain ⟨h, tl, htl⟩ := List.exists_cons_of_ne_nil hne0
      rw [hdrop, htl] at hne h1 ⊢
      have hw := decodeRune_width_pos h tl
      have h2 : 2 ≤ (utf8.DecodeRune (h :: tl)).2 := by omega
      have hh := decodeRune_head_ge h tl h2
      have hhne : h ≠ 0 := by
        intro h0
        rw [h0] at hh
        simp at hh
      refine ⟨decodeRune_ne_zero h tl hhne, hw, by omega, fun zs hz => ?_⟩
      have hidx : init.length + 1 - (utf8.DecodeRune (h :: tl)).2 = S := by omega
      rw [hidx]
      have hdz : (init ++ [b] ++ zs).drop S = (h :: tl) ++ zs := by
        rw [List.append_assoc, List.drop_append_of_le_length hS, ← htl]
        simp
      constructor
      · have : (init ++ [b] ++ zs).getD S 0 = ((init ++ [b] ++ zs).drop S).getD 0 0 := by
          simp [List.getD_eq_getElem?_getD]
        rw [this, hdz]
        simpa using hh
      · rw [hdz, decodeRune_append _ _ h2]

end Cryhel

namespace Cryhel

/-! ## Lemmas: `bytes.TrimFunc` with the predicate `r == 0` strips zero bytes -/

theorem indexFuncLoop_zero (l : List Byte) (fuel start : Nat) (hf : l.length ≤ fuel) :
    bytes.indexFuncLoop (fun r => r == 0) false fuel l start =
      if l.dropWhile (fun b => b == 0) = [] then -1
      else ((start + (l.takeWhile (fun b => b == 0)).length : Nat) : Int) := by
  induction l generalizing fuel start with
  | nil => cases fuel <;> simp [bytes.indexFuncLoop]
  | cons b t ih =>
    cases fuel with
    | zero => simp at hf
    | succ n =>
      have hn : t.length ≤ n := by simpa using hf
      unfold bytes.indexFuncLoop
      by_cases hb : b = 0
      · subst hb
        simp [utf8.RuneSelf, ih n (start + 1) hn]
        split_ifs <;> first | rfl | omega
      · have hbv : b.val ≠ 0 := fun h => hb (Fin.ext h)
        have hr : (if b.val ≥ utf8.RuneSelf then utf8.DecodeRune (b :: t) else (b.val, 1)).1 ≠ 0 := by
          split_ifs
          · exact decodeRune_ne_zero b t hb
          · exact hbv
        simp [hr, hb]

theorem drop_length_takeWhile (p : Byte → Bool) (l : List Byte) :
    l.drop (l.takeWhile p).length = l.dropWhile p := by
  induction l with
  | nil => simp
  | cons b t ih =>
    by_cases h : p b
    · simp [List.takeWhile_cons, List.dropWhile_cons, h, ih]
    · simp [List.takeWhile_cons, List.dropWhile_cons, h]

theorem trimLeftFunc_zero (s : List Byte) :
    bytes.TrimLeftFunc s (fun r => r == 0) = s.dropWhile (fun b => b == 0) := by
  unfold bytes.TrimLeftFunc bytes.indexFunc
  rw [indexFuncLoop_zero s s.length 0 (le_refl _)]
  by_cases h : s.dropWhile (fun b => b == 0) = []
  · simp [h]
  · simp only [h, if_false]
    rw [if_neg (by omega)]
    simp [drop_length_takeWhile]

theorem lastIndexFuncLoop_zeros (core : List Byte) (k j fuel : Nat) (hj : j ≤ k) :
    bytes.lastIndexFuncLoop (core ++ List.replicate k 0) (fun r => r == 0) false
        (fuel + j) (core.length + j) =
      bytes.lastIndexFuncLoop (core ++ List.replicate k 0) (fun r => r == 0) false
        fuel core.length := by
  induction j with
  | zero => rfl
  | succ n ih =>
    have hget : (core ++ List.replicate k (0 : Byte)).getD (core.length + (n + 1) - 1) 0 = 0 := by
      rw [List.getD_eq_getElem?_getD]
      have hi : core.length + (n + 1) - 1 = core.length + n := by omega
      rw [hi, List.getElem?_append_right (by omega)]
      simp
    rw [show fuel + (n + 1) = (fuel + n) + 1 from by omega]
    conv_lhs => unfold bytes.lastIndexFuncLoop
    rw [if_pos (by omega), hget]
    have e : core.length + (n + 1) - 1 = core.length + n := by omega
    simp [utf8.RuneSelf, e]
    exact ih (by omega)

theorem lastIndexFuncLoop_core (init : List Byte) (b : Byte) (k fuel : Nat) (hb : b ≠ 0) :
    bytes.lastIndexFuncLoop (init ++ [b] ++ List.replicate k 0) (fun r => r == 0) false
        (fuel + 1) (init.length + 1) =
      ((init.length + 1 - (if b.val ≥ utf8.RuneSelf then utf8.DecodeLastRune (init ++ [b])
        else (b.val, 1)).2 : Nat) : Int) := by
  have hbv : b.val ≠ 0 := fun h => hb (Fin.ext h)
  have hget : (init ++ [b] ++ List.replicate k (0 : Byte)).getD (init.length + 1 - 1) 0 = b := by
    simp [List.getD_eq_getElem?_getD, List.getElem_append_right]
  have htake : (init ++ [b] ++ List.replicate k (0 : Byte)).take (init.length + 1) =
      init ++ [b] := by
    rw [List.take_append_of_le_length (by simp)]
    simp
  unfold bytes.lastIndexFuncLoop
  simp only
  rw [if_pos (by omega), hget, htake]
  have hr : (if b.val ≥ utf8.RuneSelf then utf8.DecodeLastRune (init ++ [b])
      else (b.val, 1)).1 ≠ 0 := by
    split_ifs with h80
    · exact (decodeLastRune_spec init b h80).1
    · exact hbv
  have hf : ((if b.val ≥ utf8.RuneSelf then utf8.DecodeLastRune (init ++ [b])
      else (b.val, 1)).1 == 0) = false := by simpa using hr
  rw [if_pos hf]

/-- `bytes.TrimRightFunc` with `r == 0` removes a trailing run of zero bytes that follows
a non-zero byte (or follows nothing). -/
theorem trimRightFunc_zero (core : List Byte) (k : Nat)
    (hc : core = [] ∨ ∃ init b, core = init ++ [b] ∧ b ≠ 0) :
    bytes.TrimRightFunc (core ++ List.replicate k 0) (fun r => r == 0) = core := by
  unfold bytes.TrimRightFunc bytes.lastIndexFunc
  rw [List.length_append, List.length_replicate,
    lastIndexFuncLoop_zeros core k k core.length (le_refl _)]
  rcases hc with hc | ⟨init, b, hc, hb⟩
  · subst hc
    simp [bytes.lastIndexFuncLoop]
  · subst hc
    have hbv : b.val ≠ 0 := fun h => hb (Fin.ext h)
    have hlen : (init ++ [b]).length = init.length + 1 := by simp
    have hget : (init ++ [b] ++ List.replicate k (0 : Byte)).getD init.length 0 = b := by
      simp [List.getD_eq_getElem?_getD, List.getElem_append_right]
    have htake : (init ++ [b] ++ List.replicate k (0 : Byte)).take (init.length + 1) =
        init ++ [b] := by
      rw [List.take_append_of_le_length (by simp)]
      simp
    have hz : (List.replicate k (0 : Byte) = [] ∨ (List.replicate k (0 : Byte)).head? = some 0) := by
      cases k with
      | zero => left; rfl
      | succ n => right; simp [List.replicate_succ]
    rw [hlen, lastIndexFuncLoop_core init b k init.length hb]
    by_cases h80 : b.val ≥ utf8.RuneSelf
    · obtain ⟨h1, h2, h3, h4⟩ := decodeLastRune_spec init b h80
      obtain ⟨h5, h6⟩ := h4 _ hz
      simp only [h80, if_true, Int.toNat_ofNat]
      rw [if_pos ⟨by omega, h5⟩, h6]
      have : (((init.length + 1 - (utf8.DecodeLastRune (init ++ [b])).2 : Nat) : Int) +
          ((utf8.DecodeLastRune (init ++ [b])).2 : Int)).toNat = init.length + 1 := by omega
      rw [this, htake]
    · simp only [h80, if_false, Int.toNat_ofNat, Nat.add_sub_cancel, hget]
      rw [if_neg (by
        intro hh
        exact hh.2)]
      have : (((init.length : Nat) : Int) + 1).toNat = init.length + 1 := by omega
      rw [this, htake]

theorem rdropWhile_decompose (l : List Byte) :
    ∃ k, l = l.rdropWhile (fun b => b == 0) ++ List.replicate k 0 ∧
      (l.rdropWhile (fun b => b == 0) = [] ∨
        ∃ init b, l.rdropWhile (fun b => b == 0) = init ++ [b] ∧ b ≠ 0) := by
  induction l using List.reverseRecOn with
  | nil => exact ⟨0, by simp, Or.inl (by simp)⟩
  | append_singleton init a ih =>
    rw [List.rdropWhile_concat]
    by_cases ha : a = 0
    · obtain ⟨k, h1, h2⟩ := ih
      refine ⟨k + 1, ?_, ?_⟩
      · simp only [ha, beq_self_eq_true, if_true]
        rw [List.replicate_succ', ← List.append_assoc, ← h1]
      · simpa [ha] using h2
    · refine ⟨0, by simp [ha], Or.inr ⟨init, a, by simp [ha], ha⟩⟩

/-- `bytes.TrimRightFunc` with `r == 0` is removal of the trailing zero bytes. -/
theorem trimRightFunc_eq_rdropWhile (s : List Byte) :
    bytes.TrimRightFunc s (fun r => r == 0) = s.rdropWhile (fun b => b == 0) := by
  obtain ⟨k, h1, h2⟩ := rdropWhile_decompose s
  conv_lhs => rw [h1]
  exact trimRightFunc_zero _ k h2

/-- `ZeroUnPadding` removes exactly the leading and the trailing zero bytes. -/
theorem zeroUnPadding_eq_stripZeros (b : List Byte) : ZeroUnPadding b = stripZeros b := by
  unfold ZeroUnPadding stripZeros bytes.TrimFunc
  rw [trimLeftFunc_zero, trimRightFunc_eq_rdropWhile]

theorem rdropWhile_append_zeros (l : List Byte) (k : Nat) :
    (l ++ List.replicate k 0).rdropWhile (fun b => b == 0) = l.rdropWhile (fun b => b == 0) := by
  induction k with
  | zero => simp
  | succ n ih =>
    rw [List.replicate_succ', ← List.append_assoc, List.rdropWhile_concat]
    simpa using ih

theorem dropWhile_zeros (k : Nat) :
    (List.replicate k (0 : Byte)).dropWhile (fun b => b == 0) = [] := by
  induction k with
  | zero => rfl
  | succ n ih => simp [List.replicate_succ, List.dropWhile_cons, ih]

theorem stripZeros_append_zeros (l : List Byte) (k : Nat) :
    stripZeros (l ++ List.replicate k 0) = stripZeros l := by
  unfold stripZeros
  induction l with
  | nil => simp [dropWhile_zeros]
  | cons a t ih =>
    by_cases ha : a = 0
    · simpa [List.dropWhile_cons, ha] using ih
    · simp only [List.cons_append, List.dropWhile_cons, beq_iff_eq, ha, if_false]
      exact rdropWhile_append_zeros (a :: t) k

theorem zeroPadding_eq (b : List Byte) :
    ZeroPadding b = b ++ List.replicate (16 - b.length % 16) 0 := by
  unfold ZeroPadding bytes.Repeat aes.BlockSize
  simp only [List.append_cancel_left_eq]
  generalize 16 - b.length % 16 = n
  induction n with
  | zero => rfl
  | succ n ih => simp [List.replicate_succ, ih]

/-- Un-padding after padding strips the zero bytes at both ends of the plaintext. -/
theorem zeroUnPadding_zeroPadding (b : List Byte) :
    ZeroUnPadding (ZeroPadding b) = stripZeros b := by
  rw [zeroUnPadding_eq_stripZeros, zeroPadding_eq, stripZeros_append_zeros]

theorem stripZeros_of_noZeroEnds (P : List Byte) (h : noZeroEnds P) : stripZeros P = P := by
  unfold stripZeros
  obtain ⟨h1, h2⟩ := h
  have hd : P.dropWhile (fun b => b == 0) = P := by
    cases P with
    | nil => rfl
    | cons a t =>
      have : a ≠ 0 := by simpa using h1
      simp [List.dropWhile_cons, this]
  rw [hd]
  induction P using List.reverseRecOn with
  | nil => rfl
  | append_singleton init a _ =>
    have : a ≠ 0 := by simpa using h2
    simp [List.rdropWhile_concat, this]

end Cryhel

namespace Cryhel

/-! ## Lemmas: CBC decryption undoes CBC encryption -/

theorem byte_xor_cancel (a b : Byte) : (a ^^^ b) ^^^ b = a := by
  apply Fin.ext
  have h1 : ∀ x y : Byte, (x ^^^ y).val = x.val ^^^ y.val := by
    intro x y
    show (x.val ^^^ y.val) % 256 = x.val ^^^ y.val
    exact Nat.mod_eq_of_lt (Nat.xor_lt_two_pow (n := 8) x.isLt y.isLt)
  rw [h1, h1, Nat.xor_assoc, Nat.xor_self, Nat.xor_zero]

theorem xorBytes_length (x y : List Byte) (h : x.length = y.length) :
    (cipher.xorBytes x y).length = x.length := by
  unfold cipher.xorBytes
  simp [h]

theorem xorBytes_cancel (x y : List Byte) (h : x.length = y.length) :
    cipher.xorBytes (cipher.xorBytes x y) y = x := by
  unfold cipher.xorBytes
  induction x generalizing y with
  | nil => simp
  | cons a t ih =>
    cases y with
    | nil => simp at h
    | cons b u =>
      simp only [List.zipWith_cons_cons, List.cons.injEq]
      exact ⟨byte_xor_cancel a b, ih u (by simpa using h)⟩

theorem encryptLoop_length (b : cipher.Block) (hb : b.IsAES) (n : Nat) :
    ∀ (fuel : Nat) (iv src : List Byte), iv.length = 16 → src.length = 16 * n → n ≤ fuel →
      (cipher.encryptLoop b 16 fuel iv src).length = src.length := by
  induction n with
  | zero =>
    intro fuel iv src _ hs _
    have : src = [] := List.length_eq_zero.mp (by simpa using hs)
    subst this
    cases fuel <;> simp [cipher.encryptLoop]
  | succ n ih =>
    intro fuel iv src hiv hs hf
    cases fuel with
    | zero => omega
    | succ f =>
      unfold cipher.encryptLoop
      rw [if_pos (by omega)]
      have hx : (cipher.xorBytes (src.take 16) iv).length = 16 := by
        rw [xorBytes_length _ _ (by simp [hiv]; omega)]
        simp; omega
      have hblk := hb.encrypt_length _ hx
      simp only [List.length_append, hblk]
      rw [ih f _ (src.drop 16) hblk (by simp; omega) (by omega)]
      simp; omega

theorem decryptLoop_encryptLoop (b : cipher.Block) (hb : b.IsAES) (n : Nat) :
    ∀ (f1 f2 : Nat) (iv src : List Byte), iv.length = 16 → src.length = 16 * n →
      n ≤ f1 → n ≤ f2 →
      cipher.decryptLoop b 16 f2 iv (cipher.encryptLoop b 16 f1 iv src) = src := by
  induction n with
  | zero =>
    intro f1 f2 iv src _ hs _ _
    have : src = [] := List.length_eq_zero.mp (by simpa using hs)
    subst this
    cases f1 <;> cases f2 <;> simp [cipher.encryptLoop, cipher.decryptLoop]
  | succ n ih =>
    intro f1 f2 iv src hiv hs h1 h2
    cases f1 with
    | zero => omega
    | succ f1 =>
      cases f2 with
      | zero => omega
      | succ f2 =>
        have hx : (cipher.xorBytes (src.take 16) iv).length = 16 := by
          rw [xorBytes_length _ _ (by simp [hiv]; omega)]
          simp; omega
        have hblk := hb.encrypt_length _ hx
        unfold cipher.encryptLoop
        rw [if_pos (by omega)]
        unfold cipher.decryptLoop
        simp only
        rw [if_pos (by simp [hblk])]
        rw [List.take_left' hblk, List.drop_left' hblk, hb.decrypt_encrypt _ hx,
          xorBytes_cancel _ _ (by simp [hiv]; omega),
          ih f1 f2 _ (src.drop 16) hblk (by simp; omega) (by omega) (by omega)]
        exact List.take_append_drop 16 src

end Cryhel

namespace Cryhel

/-! ## Lemmas: the AES block cipher is invertible -/

theorem byte_xor_val (x y : Byte) : (x ^^^ y).val = x.val ^^^ y.val := by
  show (x.val ^^^ y.val) % 256 = x.val ^^^ y.val
  exact Nat.mod_eq_of_lt (Nat.xor_lt_two_pow (n := 8) x.isLt y.isLt)

theorem byte_xor_assoc (a b c : Byte) : (a ^^^ b) ^^^ c = a ^^^ (b ^^^ c) := by
  apply Fin.ext
  simp only [byte_xor_val, Nat.xor_assoc]

theorem byte_xor_comm (a b : Byte) : a ^^^ b = b ^^^ a := by
  apply Fin.ext
  simp only [byte_xor_val, Nat.xor_comm]

theorem byte_xor_left_comm (a b c : Byte) : a ^^^ (b ^^^ c) = b ^^^ (a ^^^ c) := by
  rw [← byte_xor_assoc, byte_xor_comm a b, byte_xor_assoc]

theorem byte_xor_self (a : Byte) : a ^^^ a = 0 := by
  apply Fin.ext
  simp only [byte_xor_val, Nat.xor_self]
  rfl

theorem byte_xor_zero (a : Byte) : a ^^^ 0 = a := by
  apply Fin.ext
  rw [byte_xor_val]
  simp

theorem nat_xor_double (u v : Nat) : 2 * (u ^^^ v) = (2 * u) ^^^ (2 * v) := by
  have h1 : ((2 * u) ^^^ (2 * v)) / 2 = u ^^^ v := by
    rw [Nat.xor_div_two]
    simp
  have h2 : ((2 * u) ^^^ (2 * v)) % 2 = 0 := by
    rw [Nat.xor_mod_two_eq]
    omega
  omega

theorem nat_xor_div_128 (u v : Nat) : (u ^^^ v) / 128 = (u / 128) ^^^ (v / 128) := by
  have e : ∀ x : Nat, x / 128 = x / 2 / 2 / 2 / 2 / 2 / 2 / 2 := by
    intro x
    omega
  rw [e, e u, e v]
  simp only [Nat.xor_div_two]

theorem nat_xor_mod_256 (u v : Nat) : (u ^^^ v) % 256 = (u % 256) ^^^ (v % 256) := by
  have e : ∀ x : Nat, x % 256 = x &&& (2 ^ 8 - 1) := fun x =>
    (Nat.and_pow_two_sub_one_eq_mod x 8).symm
  rw [e, e u, e v, Nat.and_xor_distrib_right]

theorem xtime_val (b : Byte) :
    (aes.xtime b).val = ((2 * b.val) ^^^ (if b.val / 128 = 1 then 27 else 0)) % 256 := by
  have hb := b.isLt
  show ((b.val <<< 1) ^^^ (if b.val ≥ 0x80 then 0x1b else 0)) % 256 = _
  rw [Nat.shiftLeft_eq]
  have : (b.val ≥ 0x80) ↔ (b.val / 128 = 1) := by
    constructor <;> intro h <;> omega
  simp only [this, pow_one, Nat.mul_comm]

/-- Multiplication by `x` in GF(2^8) is additive. -/
theorem xtime_xor (a b : Byte) : aes.xtime (a ^^^ b) = aes.xtime a ^^^ aes.xtime b := by
  apply Fin.ext
  have ha := a.isLt
  have hb := b.isLt
  rw [byte_xor_val, xtime_val, xtime_val, xtime_val, byte_xor_val, ← nat_xor_mod_256,
    nat_xor_double, nat_xor_div_128]
  have h1 : a.val / 128 = 0 ∨ a.val / 128 = 1 := by omega
  have h2 : b.val / 128 = 0 ∨ b.val / 128 = 1 := by omega
  have hAC : ∀ p q r s : Nat, (p ^^^ q) ^^^ (r ^^^ s) = (p ^^^ r) ^^^ (q ^^^ s) := by
    intro p q r s
    rw [Nat.xor_assoc, Nat.xor_assoc, ← Nat.xor_assoc q r s, Nat.xor_comm q r, Nat.xor_assoc]
  rcases h1 with h1 | h1 <;> rcases h2 with h2 | h2
  · simp [h1, h2]
  · simp [h1, h2, Nat.xor_assoc]
  · simp only [h1, h2, if_true, Nat.xor_zero]
    rw [Nat.xor_assoc, Nat.xor_assoc, Nat.xor_comm 27]
    simp
  · simp [h1, h2, hAC]

theorem byte_xor_sum4 (p q r s : Byte) (f : Byte → Byte)
    (hf : ∀ x y, f (x ^^^ y) = f x ^^^ f y) :
    f (p ^^^ q ^^^ r ^^^ s) = f p ^^^ f q ^^^ f r ^^^ f s := by
  rw [hf, hf, hf]

/-- Sixteen bytes summed by rows equal the same bytes summed by columns. -/
theorem byte_xor_transpose (p1 q1 r1 s1 p2 q2 r2 s2 p3 q3 r3 s3 p4 q4 r4 s4 : Byte) :
    (p1 ^^^ q1 ^^^ r1 ^^^ s1) ^^^ (p2 ^^^ q2 ^^^ r2 ^^^ s2) ^^^ (p3 ^^^ q3 ^^^ r3 ^^^ s3) ^^^
      (p4 ^^^ q4 ^^^ r4 ^^^ s4) =
    (p1 ^^^ p2 ^^^ p3 ^^^ p4) ^^^ (q1 ^^^ q2 ^^^ q3 ^^^ q4) ^^^ (r1 ^^^ r2 ^^^ r3 ^^^ r4) ^^^
      (s1 ^^^ s2 ^^^ s3 ^^^ s4) := by
  simp only [byte_xor_assoc, byte_xor_comm, byte_xor_left_comm]

theorem mul9_xor (x y : Byte) : aes.mul9 (x ^^^ y) = aes.mul9 x ^^^ aes.mul9 y := by
  simp only [aes.mul9, xtime_xor]
  simp only [byte_xor_assoc, byte_xor_comm, byte_xor_left_comm]

theorem mul11_xor (x y : Byte) : aes.mul11 (x ^^^ y) = aes.mul11 x ^^^ aes.mul11 y := by
  simp only [aes.mul11, xtime_xor]
  simp only [byte_xor_assoc, byte_xor_comm, byte_xor_left_comm]

theorem mul13_xor (x y : Byte) : aes.mul13 (x ^^^ y) = aes.mul13 x ^^^ aes.mul13 y := by
  simp only [aes.mul13, xtime_xor]
  simp only [byte_xor_assoc, byte_xor_comm, byte_xor_left_comm]

theorem mul14_xor (x y : Byte) : aes.mul14 (x ^^^ y) = aes.mul14 x ^^^ aes.mul14 y := by
  simp only [aes.mul14, xtime_xor]
  simp only [byte_xor_assoc, byte_xor_comm, byte_xor_left_comm]

set_option maxRecDepth 100000 in
/-- The product of the matrices `0e 0b 0d 09` and `02 03 01 01`, first column. -/
theorem mix_col1 : ∀ a : Byte,
    aes.mul14 (aes.xtime a) ^^^ aes.mul11 a ^^^ aes.mul13 a ^^^ aes.mul9 (aes.xtime a ^^^ a) = a ∧
    aes.mul9 (aes.xtime a) ^^^ aes.mul14 a ^^^ aes.mul11 a ^^^ aes.mul13 (aes.xtime a ^^^ a) = 0 ∧
    aes.mul13 (aes.xtime a) ^^^ aes.mul9 a ^^^ aes.mul14 a ^^^ aes.mul11 (aes.xtime a ^^^ a) = 0 ∧
    aes.mul11 (aes.xtime a) ^^^ aes.mul13 a ^^^ aes.mul9 a ^^^ aes.mul14 (aes.xtime a ^^^ a) = 0 := by
  decide

set_option maxRecDepth 100000 in
/-- The product of the matrices, second column. -/
theorem mix_col2 : ∀ b : Byte,
    aes.mul14 (aes.xtime b ^^^ b) ^^^ aes.mul11 (aes.xtime b) ^^^ aes.mul13 b ^^^ aes.mul9 b = 0 ∧
    aes.mul9 (aes.xtime b ^^^ b) ^^^ aes.mul14 (aes.xtime b) ^^^ aes.mul11 b ^^^ aes.mul13 b = b ∧
    aes.mul13 (aes.xtime b ^^^ b) ^^^ aes.mul9 (aes.xtime b) ^^^ aes.mul14 b ^^^ aes.mul11 b = 0 ∧
    aes.mul11 (aes.xtime b ^^^ b) ^^^ aes.mul13 (aes.xtime b) ^^^ aes.mul9 b ^^^ aes.mul14 b = 0 := by
  decide

set_option maxRecDepth 100000 in
/-- The product of the matrices, third column. -/
theorem mix_col3 : ∀ c : Byte,
    aes.mul14 c ^^^ aes.mul11 (aes.xtime c ^^^ c) ^^^ aes.mul13 (aes.xtime c) ^^^ aes.mul9 c = 0 ∧
    aes.mul9 c ^^^ aes.mul14 (aes.xtime c ^^^ c) ^^^ aes.mul11 (aes.xtime c) ^^^ aes.mul13 c = 0 ∧
    aes.mul13 c ^^^ aes.mul9 (aes.xtime c ^^^ c) ^^^ aes.mul14 (aes.xtime c) ^^^ aes.mul11 c = c ∧
    aes.mul11 c ^^^ aes.mul13 (aes.xtime c ^^^ c) ^^^ aes.mul9 (aes.xtime c) ^^^ aes.mul14 c = 0 := by
  decide

set_option maxRecDepth 100000 in
/-- The product of the matrices, fourth column. -/
theorem mix_col4 : ∀ d : Byte,
    aes.mul14 d ^^^ aes.mul11 d ^^^ aes.mul13 (aes.xtime d ^^^ d) ^^^ aes.mul9 (aes.xtime d) = 0 ∧
    aes.mul9 d ^^^ aes.mul14 d ^^^ aes.mul11 (aes.xtime d ^^^ d) ^^^ aes.mul13 (aes.xtime d) = 0 ∧
    aes.mul13 d ^^^ aes.mul9 d ^^^ aes.mul14 (aes.xtime d ^^^ d) ^^^ aes.mul11 (aes.xtime d) = 0 ∧
    aes.mul11 d ^^^ aes.mul13 d ^^^ aes.mul9 (aes.xtime d ^^^ d) ^^^ aes.mul14 (aes.xtime d) = d := by
  decide

/-- InvMixColumns undoes MixColumns on every column. -/
theorem invMixColumn_mixColumn (a b c d : Byte) :
    aes.invMixColumn
      (aes.xtime a ^^^ (aes.xtime b ^^^ b) ^^^ c ^^^ d)
      (a ^^^ aes.xtime b ^^^ (aes.xtime c ^^^ c) ^^^ d)
      (a ^^^ b ^^^ aes.xtime c ^^^ (aes.xtime d ^^^ d))
      ((aes.xtime a ^^^ a) ^^^ b ^^^ c ^^^ aes.xtime d) = [a, b, c, d] := by
  obtain ⟨a1, a2, a3, a4⟩ := mix_col1 a
  obtain ⟨b1, b2, b3, b4⟩ := mix_col2 b
  obtain ⟨c1, c2, c3, c4⟩ := mix_col3 c
  obtain ⟨d1, d2, d3, d4⟩ := mix_col4 d
  have z : ∀ x : Byte, x ^^^ 0 = x := byte_xor_zero
  have z0 : ∀ x : Byte, 0 ^^^ x = x := fun x => by rw [byte_xor_comm, byte_xor_zero]
  unfold aes.invMixColumn
  simp only [byte_xor_sum4 _ _ _ _ aes.mul9 mul9_xor, byte_xor_sum4 _ _ _ _ aes.mul11 mul11_xor,
    byte_xor_sum4 _ _ _ _ aes.mul13 mul13_xor, byte_xor_sum4 _ _ _ _ aes.mul14 mul14_xor,
    byte_xor_transpose, a1, a2, a3, a4, b1, b2, b3, b4, c1, c2, c3, c4, d1, d2, d3, d4, z, z0]

set_option maxRecDepth 100000 in
theorem sbox1_sbox0 : ∀ b : Byte, aes.sbox1.getD (aes.sbox0.getD b.val 0).val 0 = b := by
  decide

theorem invSubBytes_subBytes (s : List Byte) : aes.invSubBytes (aes.subBytes s) = s := by
  unfold aes.invSubBytes aes.subBytes
  rw [List.map_map]
  conv_rhs => rw [← List.map_id s]
  apply List.map_congr_left
  intro b _
  exact sbox1_sbox0 b

theorem subBytes_length (s : List Byte) : (aes.subBytes s).length = s.length := by
  simp [aes.subBytes]

theorem invSubBytes_length (s : List Byte) : (aes.invSubBytes s).length = s.length := by
  simp [aes.invSubBytes]

theorem shiftRows_length (s : List Byte) : (aes.shiftRows s).length = 16 := by
  simp [aes.shiftRows]

theorem invShiftRows_length (s : List Byte) : (aes.invShiftRows s).length = 16 := by
  simp [aes.invShiftRows]

theorem mixColumns_length (s : List Byte) : (aes.mixColumns s).length = 16 := by
  simp [aes.mixColumns, aes.mixColumn]

theorem roundKey_length (xk : List Nat) (r : Nat) : (aes.roundKey xk r).length = 16 := by
  simp [aes.roundKey, aes.wordBytes]

/-- A list of sixteen bytes, spelled out. -/
theorem list16 (s : List Byte) (h : s.length = 16) :
    ∃ a0 a1 a2 a3 a4 a5 a6 a7 a8 a9 a10 a11 a12 a13 a14 a15 : Byte,
      s = [a0, a1, a2, a3, a4, a5, a6, a7, a8, a9, a10, a11, a12, a13, a14, a15] := by
  match s, h with
  | [a0, a1, a2, a3, a4, a5, a6, a7, a8, a9, a10, a11, a12, a13, a14, a15], _ =>
    exact ⟨a0, a1, a2, a3, a4, a5, a6, a7, a8, a9, a10, a11, a12, a13, a14, a15, rfl⟩

theorem invShiftRows_shiftRows (s : List Byte) (h : s.length = 16) :
    aes.invShiftRows (aes.shiftRows s) = s := by
  obtain ⟨a0, a1, a2, a3, a4, a5, a6, a7, a8, a9, a10, a11, a12, a13, a14, a15, rfl⟩ :=
    list16 s h
  rfl

theorem invMixColumns_mixColumns (s : List Byte) (h : s.length = 16) :
    aes.invMixColumns (aes.mixColumns s) = s := by
  obtain ⟨a0, a1, a2, a3, a4, a5, a6, a7, a8, a9, a10, a11, a12, a13, a14, a15, rfl⟩ :=
    list16 s h
  have e1 := invMixColumn_mixColumn a0 a1 a2 a3
  have e2 := invMixColumn_mixColumn a4 a5 a6 a7
  have e3 := invMixColumn_mixColumn a8 a9 a10 a11
  have e4 := invMixColumn_mixColumn a12 a13 a14 a15
  show aes.invMixColumn _ _ _ _ ++ aes.invMixColumn _ _ _ _ ++ aes.invMixColumn _ _ _ _ ++
    aes.invMixColumn _ _ _ _ = _
  simp only [aes.mixColumns, aes.mixColumn, List.getD_cons_zero, List.getD_cons_succ,
    List.cons_append, List.nil_append]
  rw [e1, e2, e3, e4]
  rfl

theorem xorBytes_length16 (x y : List Byte) (hx : x.length = 16) (hy : y.length = 16) :
    (cipher.xorBytes x y).length = 16 := by
  unfold cipher.xorBytes
  simp [hx, hy]

theorem encRounds_length (rks : List (List Byte)) (hr : ∀ rk ∈ rks, rk.length = 16) :
    ∀ s : List Byte, s.length = 16 → (aes.encRounds rks s).length = 16 := by
  induction rks with
  | nil => intro s hs; exact hs
  | cons rk rest ih =>
    intro s _
    unfold aes.encRounds
    exact ih (fun k hk => hr k (List.mem_cons_of_mem _ hk)) _
      (xorBytes_length16 _ _ (mixColumns_length _) (hr rk (List.mem_cons_self _ _)))

theorem decRounds_length (rks : List (List Byte)) :
    ∀ s : List Byte, s.length = 16 → (aes.decRounds rks s).length = 16 := by
  induction rks with
  | nil => intro s hs; exact hs
  | cons rk rest _ =>
    intro s _
    unfold aes.decRounds
    rw [invSubBytes_length, invShiftRows_length]

theorem decRounds_encRounds (rks : List (List Byte)) (hr : ∀ rk ∈ rks, rk.length = 16) :
    ∀ s : List Byte, s.length = 16 → aes.decRounds rks (aes.encRounds rks s) = s := by
  induction rks with
  | nil => intro s _; rfl
  | cons rk rest ih =>
    intro s hs
    have hrk := hr rk (List.mem_cons_self _ _)
    have hm : (aes.mixColumns (aes.shiftRows (aes.subBytes s))).length = 16 :=
      mixColumns_length _
    unfold aes.encRounds aes.decRounds
    rw [ih (fun k hk => hr k (List.mem_cons_of_mem _ hk)) _
        (xorBytes_length16 _ _ hm hrk),
      xorBytes_cancel _ _ (by rw [hm, hrk]),
      invMixColumns_mixColumns _ (shiftRows_length _),
      invShiftRows_shiftRows _ (by rw [subBytes_length, hs]), invSubBytes_subBytes]

theorem middleKeys_length (xk : List Nat) (nr : Nat) :
    ∀ rk ∈ aes.middleKeys xk nr, rk.length = 16 := by
  intro rk h
  unfold aes.middleKeys at h
  rw [List.mem_map] at h
  obtain ⟨r, _, rfl⟩ := h
  exact roundKey_length xk (r + 1)

/-- AES decryption undoes AES encryption, for every key schedule and number of rounds. -/
theorem decryptBlock_encryptBlock (xk : List Nat) (nr : Nat) (x : List Byte)
    (hx : x.length = 16) : aes.decryptBlock xk nr (aes.encryptBlock xk nr x) = x := by
  have hk := middleKeys_length xk nr
  have h0 : (cipher.xorBytes x (aes.roundKey xk 0)).length = 16 :=
    xorBytes_length16 _ _ hx (roundKey_length _ _)
  have h1 := encRounds_length _ hk _ h0
  have h2 : (aes.shiftRows (aes.subBytes (aes.encRounds (aes.middleKeys xk nr)
      (cipher.xorBytes x (aes.roundKey xk 0))))).length = 16 := shiftRows_length _
  have h3 := xorBytes_length16 _ _ h2 (roundKey_length xk nr)
  unfold aes.decryptBlock aes.encryptBlock
  simp only
  rw [List.take_of_length_le (le_of_eq hx)] at *
  rw [List.take_of_length_le (le_of_eq h3),
    xorBytes_cancel _ _ (by rw [h2, roundKey_length]),
    invShiftRows_shiftRows _ (by rw [subBytes_length, h1]), invSubBytes_subBytes,
    decRounds_encRounds _ hk _ h0, xorBytes_cancel _ _ (by rw [hx, roundKey_length])]

/-- The cipher of `aes.NewCipher` meets the contract `IsAES`. -/
theorem newBlock_isAES (key : List Byte) : (aes.newBlock key).IsAES where
  blockSize := rfl
  encrypt_length := by
    intro x _
    show (aes.encryptBlock _ _ x).length = 16
    unfold aes.encryptBlock
    exact xorBytes_length16 _ _ (shiftRows_length _) (roundKey_length _ _)
  decrypt_length := by
    intro x hx
    show (aes.decryptBlock _ _ x).length = 16
    unfold aes.decryptBlock
    refine xorBytes_length16 _ _ (decRounds_length _ _ ?_) (roundKey_length _ _)
    rw [invSubBytes_length, invShiftRows_length]
  decrypt_encrypt := by
    intro x hx
    exact decryptBlock_encryptBlock _ _ x hx

end Cryhel

namespace Cryhel

/-! ## The AES model on the example vectors of FIPS 197 -/

set_option maxRecDepth 1000000 in
/-- The example vector of FIPS 197, appendix C.1 (AES-128). -/
theorem aes128_fips197_vector :
    (aes.newBlock [0x00, 0x01, 0x02, 0x03, 0x04, 0x05, 0x06, 0x07, 0x08, 0x09, 0x0a, 0x0b,
      0x0c, 0x0d, 0x0e, 0x0f]).Encrypt
      [0x00, 0x11, 0x22, 0x33, 0x44, 0x55, 0x66, 0x77, 0x88, 0x99, 0xaa, 0xbb, 0xcc, 0xdd,
        0xee, 0xff] =
      [0x69, 0xc4, 0xe0, 0xd8, 0x6a, 0x7b, 0x04, 0x30, 0xd8, 0xcd, 0xb7, 0x80, 0x70, 0xb4,
        0xc5, 0x5a] := by
  decide

set_option maxRecDepth 1000000 in
/-- The example vector of FIPS 197, appendix C.2 (AES-192). -/
theorem aes192_fips197_vector :
    (aes.newBlock [0x00, 0x01, 0x02, 0x03, 0x04, 0x05, 0x06, 0x07, 0x08, 0x09, 0x0a, 0x0b,
      0x0c, 0x0d, 0x0e, 0x0f, 0x10, 0x11, 0x12, 0x13, 0x14, 0x15, 0x16, 0x17]).Encrypt
      [0x00, 0x11, 0x22, 0x33, 0x44, 0x55, 0x66, 0x77, 0x88, 0x99, 0xaa, 0xbb, 0xcc, 0xdd,
        0xee, 0xff] =
      [0xdd, 0xa9, 0x7c, 0xa4, 0x86, 0x4c, 0xdf, 0xe0, 0x6e, 0xaf, 0x70, 0xa0, 0xec, 0x0d,
        0x71, 0x91] := by
  decide

set_option maxRecDepth 1000000 in
/-- The example vector of FIPS 197, appendix C.3 (AES-256). -/
theorem aes256_fips197_vector :
    (aes.newBlock [0x00, 0x01, 0x02, 0x03, 0x04, 0x05, 0x06, 0x07, 0x08, 0x09, 0x0a, 0x0b,
      0x0c, 0x0d, 0x0e, 0x0f, 0x10, 0x11, 0x12, 0x13, 0x14, 0x15, 0x16, 0x17, 0x18, 0x19,
      0x1a, 0x1b, 0x1c, 0x1d, 0x1e, 0x1f]).Encrypt
      [0x00, 0x11, 0x22, 0x33, 0x44, 0x55, 0x66, 0x77, 0x88, 0x99, 0xaa, 0xbb, 0xcc, 0xdd,
        0xee, 0xff] =
      [0x8e, 0xa2, 0xb7, 0xca, 0x51, 0x67, 0x45, 0xbf, 0xea, 0xfc, 0x49, 0x90, 0x4b, 0x49,
        0x60, 0x89] := by
  decide

end Cryhel

namespace Cryhel

/-! ## Lemmas: the cipher core -/

theorem zeroPadding_length (P : List Byte) :
    (ZeroPadding P).length = 16 * (P.length / 16 + 1) := by
  rw [zeroPadding_eq]
  simp only [List.length_append, List.length_replicate]
  omega

/-- The envelope `encrypt` builds from the IV `iv` and the plaintext `P`. -/
theorem encrypt_eq (c : Crypto) (block : cipher.Block) (hblock : c.block = some block)
    (hb : block.IsAES) (rand : Reader) (hr : 16 ≤ rand.supply.length) (P : GoString) :
    c.encrypt rand P = Run.ret (rand.supply.take 16 ++
      cipher.encryptLoop block 16 (ZeroPadding P).length (rand.supply.take 16) (ZeroPadding P),
      none) := by
  have hlen := zeroPadding_length P
  have hiv : (rand.supply.take 16).length = 16 := by simp; omega
  unfold Crypto.encrypt
  simp only [aes.BlockSize, io.ReadFull]
  rw [if_neg (by omega), if_pos hr]
  simp only [hblock, cipher.NewCBCEncrypter, hb.blockSize, hiv, ne_eq, not_true_eq_false,
    if_false, cipher.cbc.encryptBlocks]
  rw [if_neg (by omega)]

/-- The cipher core decrypts an envelope made by `encrypt` (whatever IV was drawn) to the
plaintext without its leading and trailing zero bytes. -/
theorem decrypt_envelope (c : Crypto) (block : cipher.Block) (hblock : c.block = some block)
    (hb : block.IsAES) (hkey : 16 ≤ c.bkey.length) (iv : List Byte) (hiv : iv.length = 16)
    (P : GoString) :
    c.decrypt (iv ++ cipher.encryptLoop block 16 (ZeroPadding P).length iv (ZeroPadding P)) =
      Run.ret (stripZeros P, none) := by
  have hlen := zeroPadding_length P
  have hC := encryptLoop_length block hb (P.length / 16 + 1) (ZeroPadding P).length iv
    (ZeroPadding P) hiv hlen (by omega)
  have hkiv : (c.bkey.take 16).length = 16 := by simp; omega
  unfold Crypto.decrypt
  simp only [hblock, hb.blockSize, cipher.NewCBCDecrypter, hkiv, aes.BlockSize, ne_eq,
    not_true_eq_false, if_false, List.length_append, hiv, hC, cipher.cbc.decryptBlocks]
  rw [if_neg (by omega), if_neg (by omega), if_neg (by omega), if_neg (by omega)]
  simp only
  have hstep : cipher.decryptLoop block 16 (16 + (ZeroPadding P).length) (c.bkey.take 16)
      (iv ++ cipher.encryptLoop block 16 (ZeroPadding P).length iv (ZeroPadding P)) =
      cipher.xorBytes (block.Decrypt iv) (c.bkey.take 16) ++ ZeroPadding P := by
    rw [show 16 + (ZeroPadding P).length = (15 + (ZeroPadding P).length) + 1 from by omega]
    unfold cipher.decryptLoop
    rw [if_pos (by simp [hiv])]
    simp only
    rw [List.take_left' hiv, List.drop_left' hiv,
      decryptLoop_encryptLoop block hb (P.length / 16 + 1) _ _ iv (ZeroPadding P) hiv hlen
        (by omega) (by omega)]
  have hfirst : (cipher.xorBytes (block.Decrypt iv) (c.bkey.take 16)).length = 16 := by
    rw [xorBytes_length _ _ (by rw [hb.decrypt_length iv hiv, hkiv])]
    exact hb.decrypt_length iv hiv
  rw [hstep, List.drop_left' hfirst, zeroUnPadding_zeroPadding]

end Cryhel

namespace Cryhel

/-! ## Lemmas: base64 decoding undoes base64 encoding -/

set_option maxRecDepth 100000 in
theorem decodeMap_encode_fin : ∀ i : Fin 64, base64.decodeMap (base64.encode i.val) = i.val := by
  decide

theorem decodeMap_encode (i : Nat) (h : i < 64) : base64.decodeMap (base64.encode i) = i :=
  decodeMap_encode_fin ⟨i, h⟩

theorem decodeMap_padChar : base64.decodeMap base64.padChar = 0xff := by decide

theorem nat_or3 (x y z : Nat) (hy : y < 256) (hz : z < 256) :
    x <<< 16 ||| y <<< 8 ||| z = 65536 * x + 256 * y + z := by
  have h1 : y <<< 8 ||| z = 256 * y + z := by
    rw [Nat.shiftLeft_eq, Nat.mul_comm]
    exact (Nat.mul_add_lt_is_or (i := 8) hz y).symm
  have h2 : x <<< 16 ||| (256 * y + z) = 65536 * x + (256 * y + z) := by
    rw [Nat.shiftLeft_eq, Nat.mul_comm]
    exact (Nat.mul_add_lt_is_or (i := 16) (by omega) x).symm
  rw [Nat.or_assoc, h1, h2]
  omega

theorem nat_or4 (a b c d : Nat) (hb : b < 64) (hc : c < 64) (hd : d < 64) :
    a <<< 18 ||| b <<< 12 ||| c <<< 6 ||| d = 262144 * a + 4096 * b + 64 * c + d := by
  have h1 : c <<< 6 ||| d = 64 * c + d := by
    rw [Nat.shiftLeft_eq, Nat.mul_comm]
    exact (Nat.mul_add_lt_is_or (i := 6) hd c).symm
  have h2 : b <<< 12 ||| (64 * c + d) = 4096 * b + (64 * c + d) := by
    rw [Nat.shiftLeft_eq, Nat.mul_comm]
    exact (Nat.mul_add_lt_is_or (i := 12) (by omega) b).symm
  have h3 : a <<< 18 ||| (4096 * b + (64 * c + d)) = 262144 * a + (4096 * b + (64 * c + d)) := by
    rw [Nat.shiftLeft_eq, Nat.mul_comm]
    exact (Nat.mul_add_lt_is_or (i := 18) (by omega) a).symm
  rw [Nat.or_assoc, Nat.or_assoc, h1, h2, h3]
  omega

theorem nat_and_3F (x : Nat) : x &&& 0x3F = x % 64 :=
  Nat.and_pow_two_sub_one_eq_mod x 6

theorem byte_ofNat_eq (a : Byte) (n : Nat) (h : n % 256 = a.val) : (Fin.ofNat n : Byte) = a := by
  apply Fin.ext
  exact h

/-- One full quantum: the four characters of three bytes decode to those bytes. -/
theorem quantumBytes_full (a b c : Byte) :
    base64.quantumBytes
      [((a.val <<< 16 ||| b.val <<< 8 ||| c.val) >>> 18) &&& 0x3F,
       ((a.val <<< 16 ||| b.val <<< 8 ||| c.val) >>> 12) &&& 0x3F,
       ((a.val <<< 16 ||| b.val <<< 8 ||| c.val) >>> 6) &&& 0x3F,
       (a.val <<< 16 ||| b.val <<< 8 ||| c.val) &&& 0x3F] 4 = [a, b, c] := by
  have ha := a.isLt
  have hb := b.isLt
  have hc := c.isLt
  unfold base64.quantumBytes
  simp only [List.getD_cons_zero, List.getD_cons_succ, nat_and_3F, Nat.shiftRight_eq_div_pow,
    nat_or3 _ _ _ hb hc]
  rw [nat_or4 _ _ _ _ (Nat.mod_lt _ (by norm_num)) (Nat.mod_lt _ (by norm_num))
    (Nat.mod_lt _ (by norm_num))]
  simp only [show 4 - 1 = 3 from rfl, List.take, List.cons.injEq, and_true]
  refine ⟨byte_ofNat_eq _ _ ?_, byte_ofNat_eq _ _ ?_, byte_ofNat_eq _ _ ?_⟩ <;> omega

/-- A final quantum of two bytes. -/
theorem quantumBytes_two (a b : Byte) :
    base64.quantumBytes
      [((a.val <<< 16 ||| b.val <<< 8) >>> 18) &&& 0x3F,
       ((a.val <<< 16 ||| b.val <<< 8) >>> 12) &&& 0x3F,
       ((a.val <<< 16 ||| b.val <<< 8) >>> 6) &&& 0x3F] 3 = [a, b] := by
  have ha := a.isLt
  have hb := b.isLt
  have hv : a.val <<< 16 ||| b.val <<< 8 = 65536 * a.val + 256 * b.val := by
    have := nat_or3 a.val b.val 0 hb (by norm_num)
    simpa using this
  unfold base64.quantumBytes
  simp only [List.getD_cons_zero, List.getD_cons_succ, List.getD_nil, nat_and_3F,
    Nat.shiftRight_eq_div_pow, hv]
  rw [nat_or4 _ _ _ _ (Nat.mod_lt _ (by norm_num)) (Nat.mod_lt _ (by norm_num))
    (by norm_num)]
  simp only [show 3 - 1 = 2 from rfl, List.take, List.cons.injEq, and_true]
  refine ⟨byte_ofNat_eq _ _ ?_, byte_ofNat_eq _ _ ?_⟩ <;> omega

/-- A final quantum of one byte. -/
theorem quantumBytes_one (a : Byte) :
    base64.quantumBytes
      [((a.val <<< 16) >>> 18) &&& 0x3F, ((a.val <<< 16) >>> 12) &&& 0x3F] 2 = [a] := by
  have ha := a.isLt
  have hv : a.val <<< 16 = 65536 * a.val := by
    rw [Nat.shiftLeft_eq]
    omega
  unfold base64.quantumBytes
  simp only [List.getD_cons_zero, List.getD_cons_succ, List.getD_nil, nat_and_3F,
    Nat.shiftRight_eq_div_pow, hv]
  rw [nat_or4 _ _ _ _ (Nat.mod_lt _ (by norm_num)) (by norm_num) (by norm_num)]
  simp only [show 2 - 1 = 1 from rfl, List.take, List.cons.injEq, and_true]
  refine byte_ofNat_eq _ _ ?_
  omega

/-- One step of the decoder on a character of the alphabet. -/
theorem decodeLoop_alphabet (i : Nat) (hi : i < 64) (rest : List Byte) (si j : Nat)
    (dbuf : List Nat) :
    base64.decodeLoop (base64.encode i :: rest) si j dbuf =
      if j + 1 = 4 then
        (base64.quantumBytes (dbuf ++ [i]) 4 ++ (base64.decodeLoop rest (si + 1) 0 []).1,
          (base64.decodeLoop rest (si + 1) 0 []).2)
      else base64.decodeLoop rest (si + 1) (j + 1) (dbuf ++ [i]) := by
  conv_lhs => unfold base64.decodeLoop
  simp only [decodeMap_encode i hi]
  rw [if_pos (by omega)]

theorem decodeLoop_quad (s0 s1 s2 s3 : Nat) (h0 : s0 < 64) (h1 : s1 < 64) (h2 : s2 < 64)
    (h3 : s3 < 64) (rest : List Byte) (si : Nat) :
    base64.decodeLoop (base64.encode s0 :: base64.encode s1 :: base64.encode s2 ::
        base64.encode s3 :: rest) si 0 [] =
      (base64.quantumBytes [s0, s1, s2, s3] 4 ++ (base64.decodeLoop rest (si + 4) 0 []).1,
        (base64.decodeLoop rest (si + 4) 0 []).2) := by
  rw [decodeLoop_alphabet s0 h0, if_neg (by omega), decodeLoop_alphabet s1 h1,
    if_neg (by omega), decodeLoop_alphabet s2 h2, if_neg (by omega),
    decodeLoop_alphabet s3 h3, if_pos (by omega)]
  rfl

theorem decodeLoop_pad1 (dbuf : List Nat) (si : Nat) :
    base64.decodeLoop [base64.padChar] si 3 dbuf = (base64.quantumBytes dbuf 3, none) := by
  unfold base64.decodeLoop
  simp only [decodeMap_padChar]
  rw [if_neg (by simp), if_neg (by decide), if_neg (by simp)]
  simp [base64.afterPadding]

theorem decodeLoop_pad2 (dbuf : List Nat) (si : Nat) :
    base64.decodeLoop [base64.padChar, base64.padChar] si 2 dbuf =
      (base64.quantumBytes dbuf 2, none) := by
  unfold base64.decodeLoop
  simp only [decodeMap_padChar]
  rw [if_neg (by simp), if_neg (by decide), if_neg (by simp)]
  have : List.dropWhile base64.isNewline [base64.padChar] = [base64.padChar] := by decide
  simp [base64.afterPadding, this]

theorem decodeLoop_encode (n : Nat) : ∀ (bs : List Byte) (si : Nat), bs.length ≤ n →
    base64.decodeLoop (base64.EncodeToString bs) si 0 [] = (bs, none) := by
  induction n with
  | zero =>
    intro bs si h
    have : bs = [] := List.length_eq_zero.mp (by omega)
    subst this
    simp [base64.EncodeToString, base64.decodeLoop]
  | succ n ih =>
    intro bs si h
    match bs, h with
    | [], _ => simp [base64.EncodeToString, base64.decodeLoop]
    | [a], _ =>
      simp only [base64.EncodeToString, nat_and_3F]
      rw [decodeLoop_alphabet _ (Nat.mod_lt _ (by norm_num)), if_neg (by omega),
        decodeLoop_alphabet _ (Nat.mod_lt _ (by norm_num)), if_neg (by omega),
        decodeLoop_pad2]
      have := quantumBytes_one a
      simp only [nat_and_3F] at this
      simpa using this
    | [a, b], _ =>
      simp only [base64.EncodeToString, nat_and_3F]
      rw [decodeLoop_alphabet _ (Nat.mod_lt _ (by norm_num)), if_neg (by omega),
        decodeLoop_alphabet _ (Nat.mod_lt _ (by norm_num)), if_neg (by omega),
        decodeLoop_alphabet _ (Nat.mod_lt _ (by norm_num)), if_neg (by omega),
        decodeLoop_pad1]
      have := quantumBytes_two a b
      simp only [nat_and_3F] at this
      simpa using this
    | a :: b :: c :: rest, h =>
      simp only [base64.EncodeToString, nat_and_3F]
      rw [decodeLoop_quad _ _ _ _ (Nat.mod_lt _ (by norm_num)) (Nat.mod_lt _ (by norm_num))
        (Nat.mod_lt _ (by norm_num)) (Nat.mod_lt _ (by norm_num)),
        ih rest (si + 4) (by simp at h; omega)]
      have := quantumBytes_full a b c
      simp only [nat_and_3F] at this
      simp [this]

/-- `DecodeString` undoes `EncodeToString`, without error. -/
theorem decodeString_encodeToString (bs : List Byte) :
    base64.DecodeString (base64.EncodeToString bs) = (bs, none) :=
  decodeLoop_encode bs.length bs 0 (le_refl _)

end Cryhel

namespace Cryhel

/-! ## Lemmas: URL query unescaping undoes query escaping -/

set_option maxRecDepth 100000 in
theorem unhex_upperhex : ∀ c : Byte,
    url.unhex (url.upperhex.getD (c.val >>> 4) 0) <<< 4 |||
      url.unhex (url.upperhex.getD (c.val &&& 15) 0) = c := by
  decide

set_option maxRecDepth 100000 in
theorem ishex_upperhex : ∀ c : Byte,
    url.ishex (url.upperhex.getD (c.val >>> 4) 0) = true ∧
      url.ishex (url.upperhex.getD (c.val &&& 15) 0) = true := by
  decide

set_option maxRecDepth 100000 in
theorem shouldEscape_special : ∀ c : Byte,
    (c = ch '%' ∨ c = ch '+' ∨ c = ch ' ') → url.shouldEscape c = true := by
  decide

theorem escapeLoop_cons (c : Byte) (rest : List Byte) :
    url.escapeLoop (c :: rest) =
      if c = ch ' ' then ch '+' :: url.escapeLoop rest
      else if url.shouldEscape c then
        ch '%' :: url.upperhex.getD (c.val >>> 4) 0 :: url.upperhex.getD (c.val &&& 15) 0 ::
          url.escapeLoop rest
      else c :: url.escapeLoop rest := by
  rw [url.escapeLoop]

theorem unescapeCheck_cons_ne (c : Byte) (rest : List Byte) (h : c ≠ ch '%') :
    url.unescapeCheck (c :: rest) = url.unescapeCheck rest := by
  conv_lhs => unfold url.unescapeCheck
  rw [if_neg h]

theorem unescapeCheck_pct (a b : Byte) (rest : List Byte) (ha : url.ishex a = true)
    (hb : url.ishex b = true) :
    url.unescapeCheck (ch '%' :: a :: b :: rest) = url.unescapeCheck rest := by
  conv_lhs => unfold url.unescapeCheck
  simp [ha, hb]

theorem unescapeLoop_cons_ne (c : Byte) (rest : List Byte) (h : c ≠ ch '%') :
    url.unescapeLoop (c :: rest) =
      if c = ch '+' then ch ' ' :: url.unescapeLoop rest else c :: url.unescapeLoop rest := by
  conv_lhs => unfold url.unescapeLoop
  rw [if_neg h]

theorem unescapeLoop_pct (a b : Byte) (rest : List Byte) :
    url.unescapeLoop (ch '%' :: a :: b :: rest) =
      (url.unhex a <<< 4 ||| url.unhex b) :: url.unescapeLoop rest := by
  conv_lhs => unfold url.unescapeLoop
  simp

/-- The three exits of Go `escape` return what its general loop computes. -/
theorem escape_eq_escapeLoop (s : GoString) : url.escape s = url.escapeLoop s := by
  unfold url.escape
  simp only
  split_ifs with h1 h2
  · -- nothing to escape
    obtain ⟨ha, hb⟩ := h1
    rw [List.length_eq_zero, List.filter_eq_nil_iff] at ha hb
    have hall : ∀ c ∈ s, url.shouldEscape c = false := by
      intro c hc
      have h3 := ha c hc
      have h4 := hb c hc
      by_contra hs0
      have hs : url.shouldEscape c = true := by simpa using hs0
      simp only [hs, Bool.true_and, beq_iff_eq, Bool.not_eq_true', Bool.not_eq_true,
        bne_iff_ne, ne_eq, Decidable.not_not, Bool.not_eq_false'] at h3 h4
      simp only [beq_eq_false_iff_ne, ne_eq, beq_iff_eq] at h3 h4
      exact h4 h3
    clear ha hb
    induction s with
    | nil => rfl
    | cons c t ih =>
      have hc := hall c (List.mem_cons_self _ _)
      have hsp : c ≠ ch ' ' := by
        intro h
        have := shouldEscape_special c (Or.inr (Or.inr h))
        rw [hc] at this
        exact absurd this (by simp)
      rw [escapeLoop_cons, if_neg hsp, hc]
      simp only [Bool.false_eq_true, if_false]
      rw [← ih (fun x hx => hall x (List.mem_cons_of_mem _ hx))]
  · -- only spaces to escape
    rw [List.length_eq_zero, List.filter_eq_nil_iff] at h2
    have hall : ∀ c ∈ s, url.shouldEscape c = true → c = ch ' ' := by
      intro c hc hs
      have h4 := h2 c hc
      by_contra hsp
      simp [hs, hsp] at h4
    clear h1 h2
    induction s with
    | nil => rfl
    | cons c t ih =>
      rw [escapeLoop_cons, List.map_cons, ih (fun x hx => hall x (List.mem_cons_of_mem _ hx))]
      by_cases hsp : c = ch ' '
      · simp [hsp]
      · have : url.shouldEscape c = false := by
          by_contra h
          exact hsp (hall c (List.mem_cons_self _ _) (by simpa using h))
        simp [hsp, this]
  · rfl

theorem unescapeCheck_escapeLoop (s : GoString) : url.unescapeCheck (url.escapeLoop s) = none := by
  induction s with
  | nil => rfl
  | cons c t ih =>
    rw [escapeLoop_cons]
    split_ifs with h1 h2
    · rw [unescapeCheck_cons_ne _ _ (by decide)]
      exact ih
    · rw [unescapeCheck_pct _ _ _ (ishex_upperhex c).1 (ishex_upperhex c).2]
      exact ih
    · have hc : c ≠ ch '%' := by
        intro h
        exact h2 (shouldEscape_special c (Or.inl h))
      rw [unescapeCheck_cons_ne _ _ hc]
      exact ih

theorem unescapeLoop_escapeLoop (s : GoString) : url.unescapeLoop (url.escapeLoop s) = s := by
  induction s with
  | nil => rfl
  | cons c t ih =>
    rw [escapeLoop_cons]
    split_ifs with h1 h2
    · rw [unescapeLoop_cons_ne _ _ (by decide), if_pos rfl, ih, h1]
    · rw [unescapeLoop_pct, unhex_upperhex c, ih]
    · have hc : c ≠ ch '%' := by
        intro h
        exact h2 (shouldEscape_special c (Or.inl h))
      have hp : c ≠ ch '+' := by
        intro h
        exact h2 (shouldEscape_special c (Or.inr (Or.inl h)))
      rw [unescapeLoop_cons_ne _ _ hc, if_neg hp, ih]

theorem unescapeLoop_plain (t : GoString) (h : ∀ c ∈ t, c ≠ ch '%' ∧ c ≠ ch '+') :
    url.unescapeLoop t = t := by
  induction t with
  | nil => rfl
  | cons c r ih =>
    obtain ⟨h1, h2⟩ := h c (List.mem_cons_self _ _)
    rw [unescapeLoop_cons_ne _ _ h1, if_neg h2, ih (fun x hx => h x (List.mem_cons_of_mem _ hx))]

theorem unescape_of_check (t : GoString) (h : url.unescapeCheck t = none) :
    url.unescape t = (url.unescapeLoop t, none) := by
  unfold url.unescape
  rw [h]
  simp only
  split_ifs with h1
  · obtain ⟨ha, hb⟩ := h1
    rw [List.length_eq_zero, List.filter_eq_nil_iff] at ha
    rw [unescapeLoop_plain t]
    intro c hc
    refine ⟨by simpa using ha c hc, ?_⟩
    intro hp
    have : t.any (fun c => c == ch '+') = true := by
      rw [List.any_eq_true]
      exact ⟨c, hc, by simp [hp]⟩
    rw [this] at hb
    simp at hb
  · rfl

/-- `QueryUnescape` undoes `QueryEscape` on every string, without error. -/
theorem queryUnescape_queryEscape (s : GoString) :
    url.QueryUnescape (url.QueryEscape s) = (s, none) := by
  unfold url.QueryUnescape url.QueryEscape
  rw [escape_eq_escapeLoop, unescape_of_check _ (unescapeCheck_escapeLoop s),
    unescapeLoop_escapeLoop]

end Cryhel

namespace Cryhel

/-! ## Lemmas: construction and the call builders -/

/-- `NewCrypto` on a key of a supported length. -/
theorem newCrypto_valid (key : GoString)
    (hkey : key.length = 16 ∨ key.length = 24 ∨ key.length = 32) :
    NewCrypto key = (some { block := some (aes.newBlock key), bkey := key }, none) := by
  have hne : key ≠ [] := by
    intro h
    rw [h] at hkey
    simp at hkey
  unfold NewCrypto aes.NewCipher
  rw [if_neg hne]
  simp only [hkey, if_true]

/-- The token `Encrypt.Msg(P).Do()` returns decrypts, through `Decrypt.Msg`, to `P` without
its leading and trailing zero bytes. -/
theorem msg_round_trip_strip (c : Crypto) (block : cipher.Block) (hblock : c.block = some block)
    (hb : block.IsAES) (hkey : 16 ≤ c.bkey.length) (rand : Reader)
    (hr : 16 ≤ rand.supply.length) (P : GoString) :
    ∃ t, (c.Encrypt.Msg P).Do rand = Run.ret (t, none) ∧
      (c.Decrypt.Msg t).Do = Run.ret (stripZeros P, none) := by
  have hiv : (rand.supply.take 16).length = 16 := by simp; omega
  refine ⟨base64.EncodeToString (rand.supply.take 16 ++
      cipher.encryptLoop block 16 (ZeroPadding P).length (rand.supply.take 16) (ZeroPadding P)),
    ?_, ?_⟩
  · simp only [Crypto.Encrypt, NewEncryptService, EncryptService.Msg, EncryptMsgCall.Do,
      encrypt_eq c block hblock hb rand hr P]
    simp
  · simp only [Crypto.Decrypt, NewDecryptService, DecryptService.Msg, DecryptMsgCall.Do,
      decodeString_encodeToString,
      decrypt_envelope c block hblock hb hkey _ hiv P]
    simp

/-- The same for the URL-escaped variant. -/
theorem queryEscapeMsg_round_trip_strip (c : Crypto) (block : cipher.Block)
    (hblock : c.block = some block) (hb : block.IsAES) (hkey : 16 ≤ c.bkey.length)
    (rand : Reader) (hr : 16 ≤ rand.supply.length) (P : GoString) :
    ∃ t, (c.Encrypt.QueryEscapeMsg P).Do rand = Run.ret (t, none) ∧
      (c.Decrypt.QueryEscapeMsg t).Do = Run.ret (stripZeros P, none) := by
  have hiv : (rand.supply.take 16).length = 16 := by simp; omega
  refine ⟨url.QueryEscape (base64.EncodeToString (rand.supply.take 16 ++
      cipher.encryptLoop block 16 (ZeroPadding P).length (rand.supply.take 16)
        (ZeroPadding P))),
    ?_, ?_⟩
  · simp only [Crypto.Encrypt, NewEncryptService, EncryptService.QueryEscapeMsg,
      EncryptQueryEscapeMsgCall.Do, encrypt_eq c block hblock hb rand hr P]
    simp
  · simp only [Crypto.Decrypt, NewDecryptService, DecryptService.QueryEscapeMsg,
      DecryptQueryEscapeMsgCall.Do, queryUnescape_queryEscape, decodeString_encodeToString,
      decrypt_envelope c block hblock hb hkey _ hiv P]
    simp

/-! ## The claims -/

/-- C1. Token round trip, plain variant: for every key of length 16, 24 or 32, every
random source that delivers an IV, and every plaintext `P` whose first and last bytes are
not zero (or that is empty), `NewCrypto` succeeds,
`c.Encrypt.Msg(P).Do()` returns a token `t` without error, and `c.Decrypt.Msg(t).Do()`
returns `(P, nil)`. -/
theorem C1_msg_round_trip (key : GoString)
    (hkey : key.length = 16 ∨ key.length = 24 ∨ key.length = 32)
    (rand : Reader) (hrand : 16 ≤ rand.supply.length) (P : GoString) (hP : noZeroEnds P) :
    ∃ c t, NewCrypto key = (some c, none) ∧
      (c.Encrypt.Msg P).Do rand = Run.ret (t, none) ∧
      (c.Decrypt.Msg t).Do = Run.ret (P, none) := by
  obtain ⟨t, h1, h2⟩ := msg_round_trip_strip { block := some (aes.newBlock key), bkey := key }
    (aes.newBlock key) rfl (newBlock_isAES key) (by show 16 ≤ key.length; omega) rand hrand P
  rw [stripZeros_of_noZeroEnds P hP] at h2
  exact ⟨_, t, newCrypto_valid key hkey, h1, h2⟩

/-- C1, at the key `"0123456789abcdef"` and the plaintext `"hello"`. -/
theorem C1_msg_round_trip_witness :
    (exampleKey.length = 16 ∨ exampleKey.length = 24 ∨ exampleKey.length = 32) ∧
    16 ≤ exampleRand.supply.length ∧
    noZeroEnds ("hello".toList.map ch) ∧
    ∃ c t, NewCrypto exampleKey = (some c, none) ∧
      (c.Encrypt.Msg ("hello".toList.map ch)).Do exampleRand = Run.ret (t, none) ∧
      (c.Decrypt.Msg t).Do = Run.ret ("hello".toList.map ch, none) :=
  ⟨by decide, by decide, by decide,
    C1_msg_round_trip exampleKey (by decide)
      exampleRand (by decide) ("hello".toList.map ch) (by decide)⟩

/-- C2. Token round trip, URL-escaped variant: under the same conditions as C1,
`c.Decrypt.QueryEscapeMsg(t).Do()` returns `(P, nil)` for the token `t` that
`c.Encrypt.QueryEscapeMsg(P).Do()` returns; and URL-unescaping undoes URL-escaping on every
base64 string, and base64 decoding undoes base64 encoding on every envelope. -/
theorem C2_queryEscapeMsg_round_trip (key : GoString)
    (hkey : key.length = 16 ∨ key.length = 24 ∨ key.length = 32)
    (rand : Reader) (hrand : 16 ≤ rand.supply.length) (P : GoString) (hP : noZeroEnds P) :
    (∃ c t, NewCrypto key = (some c, none) ∧
      (c.Encrypt.QueryEscapeMsg P).Do rand = Run.ret (t, none) ∧
      (c.Decrypt.QueryEscapeMsg t).Do = Run.ret (P, none)) ∧
    (∀ e : List Byte, url.QueryUnescape (url.QueryEscape (base64.EncodeToString e)) =
      (base64.EncodeToString e, none)) ∧
    (∀ e : List Byte, base64.DecodeString (base64.EncodeToString e) = (e, none)) := by
  obtain ⟨t, h1, h2⟩ := queryEscapeMsg_round_trip_strip
    { block := some (aes.newBlock key), bkey := key } (aes.newBlock key) rfl
    (newBlock_isAES key) (by show 16 ≤ key.length; omega) rand hrand P
  rw [stripZeros_of_noZeroEnds P hP] at h2
  exact ⟨⟨_, t, newCrypto_valid key hkey, h1, h2⟩,
    fun e => queryUnescape_queryEscape _, decodeString_encodeToString⟩

/-- C2, at the key `"0123456789abcdef"` and the plaintext `"a b"`. -/
theorem C2_queryEscapeMsg_round_trip_witness :
    (exampleKey.length = 16 ∨ exampleKey.length = 24 ∨ exampleKey.length = 32) ∧
    16 ≤ exampleRand.supply.length ∧
    noZeroEnds ("a b".toList.map ch) ∧
    ((∃ c t, NewCrypto exampleKey = (some c, none) ∧
      (c.Encrypt.QueryEscapeMsg ("a b".toList.map ch)).Do exampleRand = Run.ret (t, none) ∧
      (c.Decrypt.QueryEscapeMsg t).Do = Run.ret ("a b".toList.map ch, none)) ∧
    (∀ e : List Byte, url.QueryUnescape (url.QueryEscape (base64.EncodeToString e)) =
      (base64.EncodeToString e, none)) ∧
    (∀ e : List Byte, base64.DecodeString (base64.EncodeToString e) = (e, none))) :=
  ⟨by decide, by decide, by decide,
    C2_queryEscapeMsg_round_trip exampleKey (by decide)
      exampleRand (by decide) ("a b".toList.map ch) (by decide)⟩

end Cryhel

namespace Cryhel

theorem newCrypto_ok_inv (key : GoString) (c : Crypto)
    (hc : NewCrypto key = (some c, none)) :
    (key.length = 16 ∨ key.length = 24 ∨ key.length = 32) ∧
      c = { block := some (aes.newBlock key), bkey := key } := by
  unfold NewCrypto aes.NewCipher at hc
  by_cases hne : key = []
  · rw [if_pos hne] at hc
    simp [errors.New] at hc
  · rw [if_neg hne] at hc
    by_cases hk : key.length = 16 ∨ key.length = 24 ∨ key.length = 32
    · simp only [hk, if_true, Prod.mk.injEq, Option.some.injEq, and_true] at hc
      exact ⟨hk, hc.symm⟩
    · simp [hk] at hc

theorem stripZeros_noZeroEnds (P : List Byte) : noZeroEnds (stripZeros P) := by
  unfold stripZeros noZeroEnds
  have hhead : (P.dropWhile (fun x => x == 0)).head? ≠ some 0 := by
    induction P with
    | nil => simp
    | cons a t ih =>
      by_cases ha : a = 0
      · simpa [List.dropWhile_cons, ha] using ih
      · simp [List.dropWhile_cons, ha]
  generalize P.dropWhile (fun x => x == 0) = l at hhead
  obtain ⟨k, h1, h2⟩ := rdropWhile_decompose l
  constructor
  · rcases h2 with h2 | ⟨init, b, h2, hb⟩
    · simp [h2]
    · cases hr : l.rdropWhile (fun b => b == 0) with
      | nil => simp
      | cons a t =>
        rw [hr] at h1
        rw [h1] at hhead
        simpa using hhead
  · rcases h2 with h2 | ⟨init, b, h2, hb⟩
    · simp [h2]
    · rw [h2]
      simpa using hb

/-- The cipher core on any constructed `Crypto`: the three outcomes of `decrypt`. -/
theorem decrypt_cases (block : cipher.Block) (hb : block.IsAES) (key : List Byte)
    (hkey : 16 ≤ key.length) (e : List Byte) :
    Crypto.decrypt { block := some block, bkey := key } e =
      if e.length < 16 then Run.ret ([], errors.New "ciphertext too short")
      else if e.length % 16 ≠ 0 then
        Run.ret ([], errors.New "ciphertext is not a multiple of the block size")
      else Run.ret (ZeroUnPadding
        ((cipher.decryptLoop block 16 e.length (key.take 16) e).drop 16), none) := by
  have hkiv : (key.take 16).length = 16 := by simp; omega
  unfold Crypto.decrypt
  simp only [hb.blockSize, cipher.NewCBCDecrypter, hkiv, aes.BlockSize, ne_eq,
    not_true_eq_false, if_false, cipher.cbc.decryptBlocks]
  rw [if_neg (by omega)]
  split_ifs <;> rfl

end Cryhel

namespace Cryhel

/-- The cipher core round trip on any plaintext: `decrypt(encrypt(P))` succeeds and returns
`P` without its leading and trailing zero bytes. -/
theorem core_round_trip_strip (key : GoString)
    (hkey : key.length = 16 ∨ key.length = 24 ∨ key.length = 32)
    (rand : Reader) (hrand : 16 ≤ rand.supply.length) (P : GoString) :
    ∃ e, Crypto.encrypt { block := some (aes.newBlock key), bkey := key } rand P = Run.ret (e, none) ∧
      Crypto.decrypt { block := some (aes.newBlock key), bkey := key } e =
        Run.ret (stripZeros P, none) := by
  have hiv : (rand.supply.take 16).length = 16 := by simp; omega
  exact ⟨_, encrypt_eq _ (aes.newBlock key) rfl (newBlock_isAES key) rand hrand P,
    decrypt_envelope _ (aes.newBlock key) rfl (newBlock_isAES key)
      (by show 16 ≤ key.length; omega) _ hiv P⟩

/-- C3 (the code at the failing input). With a valid key, and with the IV drawn by `encrypt`
equal to the first sixteen bytes of the key, the plaintext `"\x00A"`, whose last byte is
not zero, does not come back: `decrypt(encrypt("\x00A"))` returns `"A"` without error. -/
theorem C3_leading_zero_lost (key : GoString)
    (hkey : key.length = 16 ∨ key.length = 24 ∨ key.length = 32)
    (rand : Reader) (hrand : 16 ≤ rand.supply.length)
    (hiv : rand.supply.take 16 = key.take 16) :
    ([0, 65] : List Byte).getLast? ≠ some 0 ∧
    ∃ c e, NewCrypto key = (some c, none) ∧
      c.encrypt rand [0, 65] = Run.ret (e, none) ∧ e.take 16 = key.take 16 ∧
      c.decrypt e = Run.ret ([65], none) ∧ ([65] : List Byte) ≠ [0, 65] := by
  obtain ⟨e, h1, h2⟩ := core_round_trip_strip key hkey rand hrand [0, 65]
  have he := h1
  rw [encrypt_eq _ (aes.newBlock key) rfl (newBlock_isAES key) rand hrand] at he
  have hl : (rand.supply.take 16).length = 16 := by simp; omega
  have htake : e.take 16 = key.take 16 := by
    simp only [Run.ret.injEq, Prod.mk.injEq, and_true] at he
    rw [← he, List.take_left' hl, hiv]
  have hs : stripZeros ([0, 65] : List Byte) = [65] := by decide
  rw [hs] at h2
  exact ⟨by decide, _, e, newCrypto_valid key hkey, h1, htake, h2, by decide⟩

/-- C3's failing input at the key `"0123456789abcdef"`, the random source
delivering the first sixteen bytes of the key. -/
theorem C3_leading_zero_lost_witness :
    (exampleKey.length = 16 ∨ exampleKey.length = 24 ∨ exampleKey.length = 32) ∧
    16 ≤ keyRand.supply.length ∧
    keyRand.supply.take 16 = exampleKey.take 16 ∧
    (([0, 65] : List Byte).getLast? ≠ some 0 ∧
    ∃ c e, NewCrypto exampleKey = (some c, none) ∧
      c.encrypt keyRand [0, 65] = Run.ret (e, none) ∧ e.take 16 = exampleKey.take 16 ∧
      c.decrypt e = Run.ret ([65], none) ∧ ([65] : List Byte) ≠ [0, 65]) :=
  ⟨by decide, by decide, by decide,
    C3_leading_zero_lost exampleKey (by decide)
      keyRand (by decide) (by decide)⟩

/-- C4. The lossy round trip is consistent: for every valid key, every two random sources
that deliver an IV and every plaintext `P`, `r(P) = decrypt(encrypt(P))` succeeds with a
result `Q` that does not end in a zero byte, and `r(Q)` succeeds with `Q` again. -/
theorem C4_lossy_round_trip_idempotent (key : GoString)
    (hkey : key.length = 16 ∨ key.length = 24 ∨ key.length = 32)
    (rand1 rand2 : Reader) (h1 : 16 ≤ rand1.supply.length) (h2 : 16 ≤ rand2.supply.length)
    (P : GoString) :
    ∃ c e1 Q e2, NewCrypto key = (some c, none) ∧
      c.encrypt rand1 P = Run.ret (e1, none) ∧ c.decrypt e1 = Run.ret (Q, none) ∧
      Q.getLast? ≠ some 0 ∧
      c.encrypt rand2 Q = Run.ret (e2, none) ∧ c.decrypt e2 = Run.ret (Q, none) := by
  obtain ⟨e1, ha, hb⟩ := core_round_trip_strip key hkey rand1 h1 P
  obtain ⟨e2, hc, hd⟩ := core_round_trip_strip key hkey rand2 h2 (stripZeros P)
  rw [stripZeros_of_noZeroEnds _ (stripZeros_noZeroEnds P)] at hd
  exact ⟨_, e1, stripZeros P, e2, newCrypto_valid key hkey, ha, hb,
    (stripZeros_noZeroEnds P).2, hc, hd⟩

/-- C4 at a plaintext that ends in two zero bytes, `"ab\x00\x00"`. -/
theorem C4_lossy_round_trip_idempotent_witness :
    (exampleKey.length = 16 ∨ exampleKey.length = 24 ∨ exampleKey.length = 32) ∧
    16 ≤ exampleRand.supply.length ∧
    16 ≤ keyRand.supply.length ∧
    ∃ c e1 Q e2, NewCrypto exampleKey = (some c, none) ∧
      c.encrypt exampleRand [97, 98, 0, 0] = Run.ret (e1, none) ∧
      c.decrypt e1 = Run.ret (Q, none) ∧ Q.getLast? ≠ some 0 ∧
      c.encrypt keyRand Q = Run.ret (e2, none) ∧ c.decrypt e2 = Run.ret (Q, none) :=
  ⟨by decide, by decide, by decide,
    C4_lossy_round_trip_idempotent exampleKey (by decide)
      exampleRand keyRand (by decide) (by decide) [97, 98, 0, 0]⟩

/-- C5. Key validation: `NewCrypto(k)` returns a nil error if and only if the byte length
of `k` is 16, 24 or 32. -/
theorem C5_key_validation (k : GoString) :
    (NewCrypto k).2 = none ↔ (k.length = 16 ∨ k.length = 24 ∨ k.length = 32) := by
  constructor
  · intro h
    unfold NewCrypto aes.NewCipher at h
    by_cases hne : k = []
    · rw [if_pos hne] at h
      simp [errors.New] at h
    · rw [if_neg hne] at h
      by_contra hk
      simp [hk] at h
  · intro hk
    rw [newCrypto_valid k hk]

/-- C6 (the code at the failing input). `NewCrypto("abc")` returns the error
`aes.KeySizeError(3)` together with a non-nil `*Crypto` whose block cipher is nil; `decrypt`
on that value panics. For the empty key the returned `*Crypto` is nil. -/
theorem C6_failed_construction_returns_crypto :
    NewCrypto [97, 98, 99] =
      (some { block := none, bkey := [97, 98, 99] }, some (Err.KeySizeError 3)) ∧
    (∀ e : List Byte, Crypto.decrypt { block := none, bkey := [97, 98, 99] } e =
      Run.panic "runtime error: invalid memory address or nil pointer dereference") ∧
    NewCrypto [] = (none, errors.New "secret key empty") := by
  refine ⟨?_, fun e => rfl, rfl⟩
  unfold NewCrypto aes.NewCipher
  simp

end Cryhel

namespace Cryhel

/-- The outcomes of `encrypt` on a `Crypto` with an AES cipher: an envelope when the
random source delivers sixteen bytes, its error otherwise. -/
theorem encrypt_cases (block : cipher.Block) (hb : block.IsAES) (key : List Byte)
    (rand : Reader) (P : GoString) :
    Crypto.encrypt { block := some block, bkey := key } rand P =
      if 16 ≤ rand.supply.length then
        Run.ret (rand.supply.take 16 ++ cipher.encryptLoop block 16 (ZeroPadding P).length
          (rand.supply.take 16) (ZeroPadding P), none)
      else Run.ret ([], errors.New rand.failure) := by
  split_ifs with h
  · exact encrypt_eq _ block rfl hb rand h P
  · have hlen := zeroPadding_length P
    unfold Crypto.encrypt
    simp only [aes.BlockSize, io.ReadFull]
    rw [if_neg (by omega), if_neg h]

/-- C7. Envelope shape: for every valid key, every random source and every plaintext `P`,
`encrypt(P)` succeeds when the source delivers sixteen bytes, and a successful `encrypt(P)`
returns exactly `16 * (len(P)/16 + 2)` bytes (a positive multiple of the block size, at
least two blocks) whose first block is the IV that was drawn. -/
theorem C7_envelope_shape (key : GoString)
    (hkey : key.length = 16 ∨ key.length = 24 ∨ key.length = 32)
    (rand : Reader) (P : GoString) :
    ∃ c, NewCrypto key = (some c, none) ∧
      (16 ≤ rand.supply.length → ∃ e, c.encrypt rand P = Run.ret (e, none)) ∧
      ∀ e, c.encrypt rand P = Run.ret (e, none) →
        e.length = 16 * (P.length / 16 + 2) ∧ 0 < e.length ∧ e.length % 16 = 0 ∧
        32 ≤ e.length ∧ e.take 16 = rand.supply.take 16 ∧
        (rand.supply.take 16).length = 16 := by
  refine ⟨_, newCrypto_valid key hkey, ?_, ?_⟩
  · intro h
    exact ⟨_, encrypt_eq _ (aes.newBlock key) rfl (newBlock_isAES key) rand h P⟩
  · intro e he
    rw [encrypt_cases (aes.newBlock key) (newBlock_isAES key) key rand P] at he
    by_cases h : 16 ≤ rand.supply.length
    · rw [if_pos h] at he
      simp only [Run.ret.injEq, Prod.mk.injEq, and_true] at he
      have hiv : (rand.supply.take 16).length = 16 := by simp; omega
      have hlen := zeroPadding_length P
      have hC := encryptLoop_length (aes.newBlock key) (newBlock_isAES key)
        (P.length / 16 + 1) (ZeroPadding P).length (rand.supply.take 16) (ZeroPadding P) hiv
        hlen (by omega)
      have hel : e.length = 16 * (P.length / 16 + 2) := by
        rw [← he, List.length_append, hiv, hC, hlen]
        omega
      refine ⟨hel, by omega, by omega, by omega, ?_, hiv⟩
      rw [← he, List.take_left' hiv]
    · rw [if_neg h] at he
      simp [errors.New] at he

/-- C7 at the key `"0123456789abcdef"` and a plaintext of five bytes. -/
theorem C7_envelope_shape_witness :
    (exampleKey.length = 16 ∨ exampleKey.length = 24 ∨ exampleKey.length = 32) ∧
    ∃ c, NewCrypto exampleKey = (some c, none) ∧
      (16 ≤ exampleRand.supply.length →
        ∃ e, c.encrypt exampleRand ("hello".toList.map ch) = Run.ret (e, none)) ∧
      ∀ e, c.encrypt exampleRand ("hello".toList.map ch) = Run.ret (e, none) →
        e.length = 16 * (("hello".toList.map ch).length / 16 + 2) ∧ 0 < e.length ∧
        e.length % 16 = 0 ∧ 32 ≤ e.length ∧ e.take 16 = exampleRand.supply.take 16 ∧
        (exampleRand.supply.take 16).length = 16 :=
  ⟨by decide,
    C7_envelope_shape exampleKey (by decide)
      exampleRand ("hello".toList.map ch)⟩

/-- C8. Ciphertext rejection: for every successfully constructed `Crypto` and every byte
sequence `e`, `decrypt(e)` fails with "ciphertext too short" exactly when `len(e) < 16`,
fails with "ciphertext is not a multiple of the block size" exactly when `len(e) >= 16` and
`len(e) mod 16 != 0`, and succeeds exactly in the remaining case; an envelope of exactly one
block decrypts to the empty plaintext. -/
theorem C8_ciphertext_rejection (key : GoString) (c : Crypto)
    (hc : NewCrypto key = (some c, none)) (e : List Byte) :
    (c.decrypt e = Run.ret ([], errors.New "ciphertext too short") ↔ e.length < 16) ∧
    (c.decrypt e = Run.ret ([], errors.New "ciphertext is not a multiple of the block size") ↔
      (16 ≤ e.length ∧ e.length % 16 ≠ 0)) ∧
    ((∃ p, c.decrypt e = Run.ret (p, none)) ↔ (16 ≤ e.length ∧ e.length % 16 = 0)) ∧
    (e.length = 16 → c.decrypt e = Run.ret ([], none)) := by
  obtain ⟨hkey, hceq⟩ := newCrypto_ok_inv key c hc
  subst hceq
  have hk : 16 ≤ key.length := by omega
  have hcases := decrypt_cases (aes.newBlock key) (newBlock_isAES key) key hk e
  have hne : errors.New "ciphertext too short" ≠
      errors.New "ciphertext is not a multiple of the block size" := by decide
  refine ⟨?_, ?_, ?_, ?_⟩
  · rw [hcases]
    split_ifs with h1 h2
    · simp [h1]
    · simp only [Run.ret.injEq, Prod.mk.injEq, true_and, h1, iff_false]
      exact fun h => hne h.symm
    · simp [h1, errors.New]
  · rw [hcases]
    split_ifs with h1 h2
    · simp only [Run.ret.injEq, Prod.mk.injEq, true_and]
      constructor
      · intro h
        exact absurd h hne
      · intro h
        omega
    · simp only [true_iff]
      omega
    · simp only [Run.ret.injEq, Prod.mk.injEq, errors.New, reduceCtorEq, and_false, false_iff]
      omega
  · rw [hcases]
    split_ifs with h1 h2
    · simp only [Run.ret.injEq, Prod.mk.injEq, errors.New, reduceCtorEq, and_false,
        exists_false, false_iff]
      omega
    · simp only [Run.ret.injEq, Prod.mk.injEq, errors.New, reduceCtorEq, and_false,
        exists_false, false_iff]
      omega
    · simp only [Run.ret.injEq, Prod.mk.injEq, and_true, exists_eq', true_iff]
      omega
  · intro h16
    rw [hcases, if_neg (by omega), if_neg (by omega)]
    have hkiv : (key.take 16).length = 16 := by simp; omega
    have hstep : cipher.decryptLoop (aes.newBlock key) 16 e.length (key.take 16) e =
        cipher.xorBytes ((aes.newBlock key).Decrypt e) (key.take 16) := by
      rw [h16]
      unfold cipher.decryptLoop
      rw [if_pos (by omega)]
      simp only
      have hd : e.drop 16 = [] := by
        rw [List.drop_eq_nil_iff]
        omega
      have ht : e.take 16 = e := List.take_of_length_le (by omega)
      rw [hd, ht]
      unfold cipher.decryptLoop
      simp
    have hl : (cipher.xorBytes ((aes.newBlock key).Decrypt e) (key.take 16)).length = 16 := by
      rw [xorBytes_length _ _ (by rw [(newBlock_isAES key).decrypt_length e h16, hkiv])]
      exact (newBlock_isAES key).decrypt_length e h16
    have hdrop : (cipher.xorBytes ((aes.newBlock key).Decrypt e) (key.take 16)).drop 16 = [] := by
      rw [List.drop_eq_nil_iff]
      omega
    rw [hstep, hdrop]
    rfl

/-- C8 at the key `"0123456789abcdef"` and a five-byte input. -/
theorem C8_ciphertext_rejection_witness :
    NewCrypto exampleKey = (some exampleCrypto, none) ∧
    ((exampleCrypto.decrypt [1, 2, 3, 4, 5] = Run.ret ([], errors.New "ciphertext too short") ↔
      ([1, 2, 3, 4, 5] : List Byte).length < 16) ∧
    (exampleCrypto.decrypt [1, 2, 3, 4, 5] =
        Run.ret ([], errors.New "ciphertext is not a multiple of the block size") ↔
      (16 ≤ ([1, 2, 3, 4, 5] : List Byte).length ∧
        ([1, 2, 3, 4, 5] : List Byte).length % 16 ≠ 0)) ∧
    ((∃ p, exampleCrypto.decrypt [1, 2, 3, 4, 5] = Run.ret (p, none)) ↔
      (16 ≤ ([1, 2, 3, 4, 5] : List Byte).length ∧
        ([1, 2, 3, 4, 5] : List Byte).length % 16 = 0)) ∧
    (([1, 2, 3, 4, 5] : List Byte).length = 16 →
      exampleCrypto.decrypt [1, 2, 3, 4, 5] = Run.ret ([], none))) :=
  ⟨newCrypto_valid exampleKey (by decide),
    C8_ciphertext_rejection exampleKey exampleCrypto
      (newCrypto_valid exampleKey (by decide))
      [1, 2, 3, 4, 5]⟩

end Cryhel

namespace Cryhel

/-! ## Lemmas: the characters of an escaped token -/

set_option maxRecDepth 100000 in
theorem encode_isBase64Char : ∀ i : Fin 64, isBase64Char (base64.encode i.val) = true := by
  decide

theorem encode_mod_isBase64Char (n : Nat) : isBase64Char (base64.encode (n % 64)) = true :=
  encode_isBase64Char ⟨n % 64, Nat.mod_lt _ (by norm_num)⟩

theorem encodeToString_chars (n : Nat) : ∀ e : List Byte, e.length ≤ n →
    ∀ x ∈ base64.EncodeToString e, isBase64Char x = true := by
  have hpad : isBase64Char base64.padChar = true := by decide
  induction n with
  | zero =>
    intro e h x hx
    have : e = [] := List.length_eq_zero.mp (by omega)
    subst this
    simp [base64.EncodeToString] at hx
  | succ n ih =>
    intro e h x hx
    match e, h with
    | [], _ => simp [base64.EncodeToString] at hx
    | [a], _ =>
      simp only [base64.EncodeToString, nat_and_3F, List.mem_cons, List.mem_singleton,
        List.not_mem_nil, or_false] at hx
      rcases hx with hx | hx | hx | hx <;> rw [hx] <;>
        first | exact encode_mod_isBase64Char _ | exact hpad
    | [a, b], _ =>
      simp only [base64.EncodeToString, nat_and_3F, List.mem_cons, List.mem_singleton,
        List.not_mem_nil, or_false] at hx
      rcases hx with hx | hx | hx | hx <;> rw [hx] <;>
        first | exact encode_mod_isBase64Char _ | exact hpad
    | a :: b :: c :: rest, h =>
      simp only [base64.EncodeToString, nat_and_3F, List.mem_cons] at hx
      rcases hx with hx | hx | hx | hx | hx
      · rw [hx]; exact encode_mod_isBase64Char _
      · rw [hx]; exact encode_mod_isBase64Char _
      · rw [hx]; exact encode_mod_isBase64Char _
      · rw [hx]; exact encode_mod_isBase64Char _
      · exact ih rest (by simp at h; omega) x hx

set_option maxRecDepth 100000 in
theorem base64Char_facts : ∀ x : Byte, isBase64Char x = true →
    x ≠ ch ' ' ∧ (url.shouldEscape x = false → isAlnum x = true) := by
  decide

set_option maxRecDepth 100000 in
theorem alnum_facts : ∀ x : Byte, isAlnum x = true →
    x ≠ ch '+' ∧ x ≠ ch '/' ∧ x ≠ ch '=' ∧ x ≠ ch ' ' := by
  decide

set_option maxRecDepth 100000 in
theorem ishex_isAlnum : ∀ x : Byte, url.ishex x = true → isAlnum x = true := by
  decide

theorem urlTokenOK_alnum (c : Byte) (rest : List Byte) (h : isAlnum c = true) :
    urlTokenOK (c :: rest) = urlTokenOK rest := by
  conv_lhs => unfold urlTokenOK
  rw [if_pos h]

theorem urlTokenOK_pct (a b : Byte) (rest : List Byte) (ha : url.ishex a = true)
    (hb : url.ishex b = true) :
    urlTokenOK (ch '%' :: a :: b :: rest) = urlTokenOK rest := by
  conv_lhs => unfold urlTokenOK
  rw [if_neg (by decide), if_pos rfl]
  simp [ha, hb]

/-- Query-escaping a base64 string leaves letters, digits and `%XX` triples only. -/
theorem escapeLoop_base64 (s : List Byte) (hs : ∀ x ∈ s, isBase64Char x = true) :
    urlTokenOK (url.escapeLoop s) = true ∧
      ∀ y ∈ url.escapeLoop s, y ≠ ch '+' ∧ y ≠ ch '/' ∧ y ≠ ch '=' ∧ y ≠ ch ' ' := by
  induction s with
  | nil => exact ⟨rfl, by simp [url.escapeLoop]⟩
  | cons c t ih =>
    obtain ⟨ih1, ih2⟩ := ih (fun x hx => hs x (List.mem_cons_of_mem _ hx))
    obtain ⟨hsp, hal⟩ := base64Char_facts c (hs c (List.mem_cons_self _ _))
    rw [escapeLoop_cons, if_neg hsp]
    by_cases hesc : url.shouldEscape c = true
    · rw [if_pos hesc]
      obtain ⟨hx1, hx2⟩ := ishex_upperhex c
      refine ⟨by rw [urlTokenOK_pct _ _ _ hx1 hx2]; exact ih1, ?_⟩
      intro y hy
      simp only [List.mem_cons] at hy
      rcases hy with hy | hy | hy | hy
      · rw [hy]; decide
      · rw [hy]; exact alnum_facts _ (ishex_isAlnum _ hx1)
      · rw [hy]; exact alnum_facts _ (ishex_isAlnum _ hx2)
      · exact ih2 y hy
    · rw [if_neg hesc]
      have hc : isAlnum c = true := hal (by simpa using hesc)
      refine ⟨by rw [urlTokenOK_alnum _ _ hc]; exact ih1, ?_⟩
      intro y hy
      simp only [List.mem_cons] at hy
      rcases hy with hy | hy
      · rw [hy]; exact alnum_facts c hc
      · exact ih2 y hy

/-- C9. URL token safety: for every valid key, every random source that delivers an IV and
every plaintext `P`, `Encrypt.QueryEscapeMsg(P).Do()` returns a token in which every
character is an ASCII letter or digit or is a `%` followed by two hexadecimal digits, and
which contains none of `+`, `/`, `=` and the space. -/
theorem C9_url_token_safety (key : GoString)
    (hkey : key.length = 16 ∨ key.length = 24 ∨ key.length = 32)
    (rand : Reader) (hrand : 16 ≤ rand.supply.length) (P : GoString) :
    ∃ c t, NewCrypto key = (some c, none) ∧
      (c.Encrypt.QueryEscapeMsg P).Do rand = Run.ret (t, none) ∧
      urlTokenOK t = true ∧
      ∀ x ∈ t, x ≠ ch '+' ∧ x ≠ ch '/' ∧ x ≠ ch '=' ∧ x ≠ ch ' ' := by
  refine ⟨_, url.QueryEscape (base64.EncodeToString (rand.supply.take 16 ++
      cipher.encryptLoop (aes.newBlock key) 16 (ZeroPadding P).length (rand.supply.take 16)
        (ZeroPadding P))), newCrypto_valid key hkey, ?_, ?_⟩
  · simp only [Crypto.Encrypt, NewEncryptService, EncryptService.QueryEscapeMsg,
      EncryptQueryEscapeMsgCall.Do,
      encrypt_eq { block := some (aes.newBlock key), bkey := key } (aes.newBlock key) rfl
        (newBlock_isAES key) rand hrand P]
    simp
  · unfold url.QueryEscape
    rw [escape_eq_escapeLoop]
    exact escapeLoop_base64 _ (encodeToString_chars _ _ (le_refl _))

/-- C9 at the key `"0123456789abcdef"` and the plaintext `"a b"`. -/
theorem C9_url_token_safety_witness :
    (exampleKey.length = 16 ∨ exampleKey.length = 24 ∨ exampleKey.length = 32) ∧
    16 ≤ exampleRand.supply.length ∧
    ∃ c t, NewCrypto exampleKey = (some c, none) ∧
      (c.Encrypt.QueryEscapeMsg ("a b".toList.map ch)).Do exampleRand = Run.ret (t, none) ∧
      urlTokenOK t = true ∧
      ∀ x ∈ t, x ≠ ch '+' ∧ x ≠ ch '/' ∧ x ≠ ch '=' ∧ x ≠ ch ' ' :=
  ⟨by decide, by decide,
    C9_url_token_safety exampleKey (by decide)
      exampleRand (by decide) ("a b".toList.map ch)⟩

/-- C10. A destination that is not a pointer (an untyped nil included: its kind is
`Invalid`) is rejected first: `DecryptMsgCall.Out` and `DecryptQueryEscapeMsgCall.Out`
return the same non-nil error for every `Crypto`, every token and every behaviour of
`json.Unmarshal`, and leave the destination as it was: nothing is unescaped, decoded,
decrypted or unmarshalled. -/
theorem C10_non_pointer_rejected {D : Type} (V : Values D) (out : D)
    (hout : V.KindOf out ≠ reflect.Kind.Ptr) :
    ∃ err : Err,
      (∀ (unmarshal : List Byte → D → D × GoError) (c : Crypto) (m : GoString),
        DecryptMsgCall.Out { V with Unmarshal := unmarshal } (c.Decrypt.Msg m) out =
          Run.ret (out, some err)) ∧
      (∀ (unmarshal : List Byte → D → D × GoError) (c : Crypto) (m : GoString),
        DecryptQueryEscapeMsgCall.Out { V with Unmarshal := unmarshal }
          (c.Decrypt.QueryEscapeMsg m) out = Run.ret (out, some err)) := by
  refine ⟨Err.errorString ("Value '" ++ V.Sprint_s out ++ "' is not a pointer"), ?_, ?_⟩
  · intro unmarshal c m
    unfold DecryptMsgCall.Out isPointer
    simp [hout, errors.New]
  · intro unmarshal c m
    unfold DecryptQueryEscapeMsgCall.Out isPointer
    simp [hout, errors.New]

/-- C10 at a destination that is a Go string, not a pointer. -/
theorem C10_non_pointer_rejected_witness :
    exampleValues.KindOf (false, [97]) ≠ reflect.Kind.Ptr ∧
    ∃ err : Err,
      (∀ (unmarshal : List Byte → Bool × List Byte → (Bool × List Byte) × GoError)
          (c : Crypto) (m : GoString),
        DecryptMsgCall.Out { exampleValues with Unmarshal := unmarshal } (c.Decrypt.Msg m)
          (false, [97]) = Run.ret ((false, [97]), some err)) ∧
      (∀ (unmarshal : List Byte → Bool × List Byte → (Bool × List Byte) × GoError)
          (c : Crypto) (m : GoString),
        DecryptQueryEscapeMsgCall.Out { exampleValues with Unmarshal := unmarshal }
          (c.Decrypt.QueryEscapeMsg m) (false, [97]) = Run.ret ((false, [97]), some err)) :=
  ⟨by decide, C10_non_pointer_rejected exampleValues (false, [97]) (by decide)⟩

end Cryhel

namespace Cryhel

/-! ## Zero padding and un-padding (C12, C16) -/

/-- C12. Zero padding: for every byte sequence `b`, `ZeroPadding(b)` is `b` followed by
exactly `16 - (len(b) mod 16)` zero bytes; it appends between 1 and 16 bytes (a full block
when `b` is block-aligned), keeps `b` as a prefix, and returns a length that is a multiple
of 16. -/
theorem C12_zero_padding (b : List Byte) :
    ZeroPadding b = b ++ List.replicate (16 - b.length % 16) 0 ∧
    1 ≤ 16 - b.length % 16 ∧ 16 - b.length % 16 ≤ 16 ∧
    (b.length % 16 = 0 → 16 - b.length % 16 = 16) ∧
    (ZeroPadding b).length = b.length + (16 - b.length % 16) ∧
    b <+: ZeroPadding b ∧
    (ZeroPadding b).length % 16 = 0 := by
  have h := zeroPadding_eq b
  have hl := zeroPadding_length b
  refine ⟨h, by omega, by omega, fun h0 => by omega, ?_, ?_, by omega⟩
  · rw [h]
    simp
  · rw [h]
    exact List.prefix_append _ _

theorem takeWhile_zero_eq_replicate (b : List Byte) :
    b.takeWhile (fun x => x == 0) =
      List.replicate (b.takeWhile (fun x => x == 0)).length 0 := by
  induction b with
  | nil => rfl
  | cons a t ih =>
    by_cases ha : a = 0
    · subst ha
      simp only [List.takeWhile_cons, beq_self_eq_true, if_true, List.length_cons,
        List.replicate_succ, List.cons.injEq, true_and]
      exact ih
    · simp [List.takeWhile_cons, ha]

/-- Every byte sequence is a run of zero bytes, its stripped middle, and a run of zero
bytes. -/
theorem stripZeros_decompose (b : List Byte) :
    ∃ i j, b = List.replicate i 0 ++ stripZeros b ++ List.replicate j 0 := by
  obtain ⟨k, h1, _⟩ := rdropWhile_decompose (b.dropWhile (fun x => x == 0))
  refine ⟨(b.takeWhile (fun x => x == 0)).length, k, ?_⟩
  unfold stripZeros
  rw [List.append_assoc, ← h1, ← takeWhile_zero_eq_replicate]
  exact (List.takeWhile_append_dropWhile _ b).symm

/-- The last rune of a byte sequence whose last byte is not zero is not rune 0. -/
theorem decodeLastRune_ne_zero (init : List Byte) (x : Byte) (hx : x ≠ 0) :
    (utf8.DecodeLastRune (init ++ [x])).1 ≠ 0 := by
  by_cases h80 : 0x80 ≤ x.val
  · exact (decodeLastRune_spec init x h80).1
  · have hxv : x.val ≠ 0 := fun h => hx (Fin.ext h)
    have hlast : ((init ++ [x]).getD (((init.length + 1 : Nat) : Int) - 1).toNat 0) = x := by
      have : (((init.length + 1 : Nat) : Int) - 1).toNat = init.length := by omega
      rw [this]
      simp
    unfold utf8.DecodeLastRune
    simp only [List.length_append, List.length_singleton]
    rw [if_neg (by omega), hlast, if_pos (by simp only [utf8.RuneSelf]; omega)]
    exact hxv

/-- C16. `ZeroUnPadding` trims both ends: for every byte sequence `b`, valid UTF-8 or not,
`ZeroUnPadding(b)` is `b` without its maximal run of leading zero bytes and its maximal run
of trailing zero bytes, nothing else changed (`b` is zeros, the result, zeros, and the
result neither begins nor ends with a zero byte); rune decoding never yields rune 0 from a
non-zero byte; and `ZeroUnPadding(ZeroPadding(b)) = b` exactly when `b` is empty or neither
begins nor ends with a zero byte. -/
theorem C16_zeroUnPadding_trims_both_ends (b : List Byte) :
    ZeroUnPadding b = (b.dropWhile (fun x => x == 0)).rdropWhile (fun x => x == 0) ∧
    (∃ i j, b = List.replicate i 0 ++ ZeroUnPadding b ++ List.replicate j 0) ∧
    (ZeroUnPadding b).head? ≠ some 0 ∧ (ZeroUnPadding b).getLast? ≠ some 0 ∧
    (∀ (x : Byte) (t : List Byte), x ≠ 0 → (utf8.DecodeRune (x :: t)).1 ≠ 0) ∧
    (∀ (init : List Byte) (x : Byte), x ≠ 0 → (utf8.DecodeLastRune (init ++ [x])).1 ≠ 0) ∧
    (ZeroUnPadding (ZeroPadding b) = b ↔
      (b = [] ∨ (b.head? ≠ some 0 ∧ b.getLast? ≠ some 0))) := by
  have hs := zeroUnPadding_eq_stripZeros b
  have hn := stripZeros_noZeroEnds b
  refine ⟨hs, ?_, ?_, ?_, fun x t hx => decodeRune_ne_zero x t hx,
    fun init x hx => decodeLastRune_ne_zero init x hx, ?_⟩
  · rw [hs]
    exact stripZeros_decompose b
  · rw [hs]
    exact hn.1
  · rw [hs]
    exact hn.2
  · rw [zeroUnPadding_zeroPadding]
    constructor
    · intro h
      right
      rw [← h]
      exact hn
    · intro h
      rcases h with h | h
      · subst h
        rfl
      · exact stripZeros_of_noZeroEnds b h

end Cryhel

namespace Cryhel

/-! ## Failure of encryption (C17) -/

/-- C17. The block-alignment error of `encrypt` is unreachable: for every successfully
constructed `Crypto`, every random source and every plaintext, the condition of the branch
returning "plaintext is not a multiple of the block size" is false, and `encrypt` and both
`Encrypt ... Do()` methods return an error if and only if `io.ReadFull` on the random source
fails, which is when it cannot supply sixteen bytes; the error is then the one of the
random source. -/
theorem C17_alignment_error_unreachable (key : GoString) (c : Crypto)
    (hc : NewCrypto key = (some c, none)) (rand : Reader) (P : GoString) :
    (ZeroPadding P).length % aes.BlockSize = 0 ∧
    ((io.ReadFull rand aes.BlockSize).2 ≠ none ↔ rand.supply.length < 16) ∧
    ((∃ v err, c.encrypt rand P = Run.ret (v, some err)) ↔
      (io.ReadFull rand aes.BlockSize).2 ≠ none) ∧
    ((∃ v err, (c.Encrypt.Msg P).Do rand = Run.ret (v, some err)) ↔
      (io.ReadFull rand aes.BlockSize).2 ≠ none) ∧
    ((∃ v err, (c.Encrypt.QueryEscapeMsg P).Do rand = Run.ret (v, some err)) ↔
      (io.ReadFull rand aes.BlockSize).2 ≠ none) ∧
    (rand.supply.length < 16 →
      c.encrypt rand P = Run.ret ([], errors.New rand.failure) ∧
      (c.Encrypt.Msg P).Do rand = Run.ret ([], errors.New rand.failure) ∧
      (c.Encrypt.QueryEscapeMsg P).Do rand = Run.ret ([], errors.New rand.failure)) ∧
    (16 ≤ rand.supply.length →
      ∃ e, c.encrypt rand P = Run.ret (e, none) ∧
        (c.Encrypt.Msg P).Do rand = Run.ret (base64.EncodeToString e, none) ∧
        (c.Encrypt.QueryEscapeMsg P).Do rand =
          Run.ret (url.QueryEscape (base64.EncodeToString e), none)) := by
  obtain ⟨_, hceq⟩ := newCrypto_ok_inv key c hc
  subst hceq
  have hlen := zeroPadding_length P
  have henc := encrypt_cases (aes.newBlock key) (newBlock_isAES key) key rand P
  have hread : (io.ReadFull rand aes.BlockSize).2 ≠ none ↔ rand.supply.length < 16 := by
    unfold io.ReadFull aes.BlockSize
    split_ifs with h
    · simp only [ne_eq, not_true_eq_false, false_iff]
      omega
    · simp only [ne_eq, reduceCtorEq, not_false_eq_true, true_iff]
      omega
  have hMsg : (Crypto.Encrypt { block := some (aes.newBlock key), bkey := key }).Msg P =
      { s := { block := some (aes.newBlock key), bkey := key }, m := P } := rfl
  have hQ : (Crypto.Encrypt { block := some (aes.newBlock key), bkey := key }).QueryEscapeMsg P =
      { s := { block := some (aes.newBlock key), bkey := key }, m := P } := rfl
  by_cases h : 16 ≤ rand.supply.length
  · rw [if_pos h] at henc
    have h1 : (EncryptMsgCall.mk { block := some (aes.newBlock key), bkey := key } P).Do rand =
        Run.ret (base64.EncodeToString (rand.supply.take 16 ++
          cipher.encryptLoop (aes.newBlock key) 16 (ZeroPadding P).length
            (rand.supply.take 16) (ZeroPadding P)), none) := by
      simp only [EncryptMsgCall.Do, henc]
      simp
    have h2 : (EncryptQueryEscapeMsgCall.mk { block := some (aes.newBlock key), bkey := key }
        P).Do rand =
        Run.ret (url.QueryEscape (base64.EncodeToString (rand.supply.take 16 ++
          cipher.encryptLoop (aes.newBlock key) 16 (ZeroPadding P).length
            (rand.supply.take 16) (ZeroPadding P))), none) := by
      simp only [EncryptQueryEscapeMsgCall.Do, henc]
      simp
    rw [hMsg, hQ, henc, h1, h2]
    refine ⟨by simp only [aes.BlockSize]; omega, hread, ?_, ?_, ?_, fun h' => by omega,
      fun _ => ⟨_, rfl, rfl, rfl⟩⟩
    all_goals
      rw [hread]
      simp only [Run.ret.injEq, Prod.mk.injEq, reduceCtorEq, and_false, exists_false,
        false_iff]
      omega
  · rw [if_neg h] at henc
    have h1 : (EncryptMsgCall.mk { block := some (aes.newBlock key), bkey := key } P).Do rand =
        Run.ret ([], errors.New rand.failure) := by
      simp only [EncryptMsgCall.Do, henc]
      simp [errors.New]
    have h2 : (EncryptQueryEscapeMsgCall.mk { block := some (aes.newBlock key), bkey := key }
        P).Do rand = Run.ret ([], errors.New rand.failure) := by
      simp only [EncryptQueryEscapeMsgCall.Do, henc]
      simp [errors.New]
    rw [hMsg, hQ, henc, h1, h2]
    refine ⟨by simp only [aes.BlockSize]; omega, hread, ?_, ?_, ?_,
      fun _ => ⟨rfl, rfl, rfl⟩, fun h' => absurd h' h⟩
    all_goals
      rw [hread]
      simp only [errors.New, Run.ret.injEq, Prod.mk.injEq, Option.some.injEq, exists_and_left,
        exists_eq', and_true, exists_eq', true_iff]
      omega

/-- C17 at the key `"0123456789abcdef"` and the plaintext `"hello"`. -/
theorem C17_alignment_error_unreachable_witness :
    NewCrypto exampleKey = (some exampleCrypto, none) ∧
    ((ZeroPadding ("hello".toList.map ch)).length % aes.BlockSize = 0 ∧
    ((io.ReadFull exampleRand aes.BlockSize).2 ≠ none ↔ exampleRand.supply.length < 16) ∧
    ((∃ v err, exampleCrypto.encrypt exampleRand ("hello".toList.map ch) =
        Run.ret (v, some err)) ↔ (io.ReadFull exampleRand aes.BlockSize).2 ≠ none) ∧
    ((∃ v err, (exampleCrypto.Encrypt.Msg ("hello".toList.map ch)).Do exampleRand =
        Run.ret (v, some err)) ↔ (io.ReadFull exampleRand aes.BlockSize).2 ≠ none) ∧
    ((∃ v err, (exampleCrypto.Encrypt.QueryEscapeMsg ("hello".toList.map ch)).Do exampleRand =
        Run.ret (v, some err)) ↔ (io.ReadFull exampleRand aes.BlockSize).2 ≠ none) ∧
    (exampleRand.supply.length < 16 →
      exampleCrypto.encrypt exampleRand ("hello".toList.map ch) =
        Run.ret ([], errors.New exampleRand.failure) ∧
      (exampleCrypto.Encrypt.Msg ("hello".toList.map ch)).Do exampleRand =
        Run.ret ([], errors.New exampleRand.failure) ∧
      (exampleCrypto.Encrypt.QueryEscapeMsg ("hello".toList.map ch)).Do exampleRand =
        Run.ret ([], errors.New exampleRand.failure)) ∧
    (16 ≤ exampleRand.supply.length →
      ∃ e, exampleCrypto.encrypt exampleRand ("hello".toList.map ch) = Run.ret (e, none) ∧
        (exampleCrypto.Encrypt.Msg ("hello".toList.map ch)).Do exampleRand =
          Run.ret (base64.EncodeToString e, none) ∧
        (exampleCrypto.Encrypt.QueryEscapeMsg ("hello".toList.map ch)).Do exampleRand =
          Run.ret (url.QueryEscape (base64.EncodeToString e), none))) :=
  ⟨newCrypto_valid exampleKey (by decide),
    C17_alignment_error_unreachable exampleKey exampleCrypto
      (newCrypto_valid exampleKey (by decide)) exampleRand ("hello".toList.map ch)⟩

end Cryhel

namespace Cryhel

/-! ## Failure of unescaping (C15) -/

/-- A well-formed first part does not change the outcome of the check on what follows. -/
theorem unescapeCheck_append (n : Nat) : ∀ pre s : GoString, pre.length ≤ n →
    url.unescapeCheck pre = none → url.unescapeCheck (pre ++ s) = url.unescapeCheck s := by
  induction n with
  | zero =>
    intro pre s h _
    have : pre = [] := List.length_eq_zero.mp (by omega)
    subst this
    rfl
  | succ n ih =>
    intro pre s h hpre
    match pre, h, hpre with
    | [], _, _ => rfl
    | c :: rest, h, hpre =>
      by_cases hc : c = ch '%'
      · subst hc
        match rest, h, hpre with
        | [], _, hpre =>
          unfold url.unescapeCheck at hpre
          simp at hpre
        | [a], _, hpre =>
          unfold url.unescapeCheck at hpre
          simp at hpre
        | a :: b :: rest2, h, hpre =>
          have hab : url.ishex a = true ∧ url.ishex b = true := by
            by_contra hn
            unfold url.unescapeCheck at hpre
            rw [if_pos rfl] at hpre
            simp only at hpre
            rw [if_pos (by
              rw [not_and_or] at hn
              rcases hn with hn | hn
              · simp [hn]
              · simp [hn])] at hpre
            exact absurd hpre (by simp)
          rw [unescapeCheck_pct _ _ _ hab.1 hab.2] at hpre
          rw [List.cons_append, List.cons_append, List.cons_append,
            unescapeCheck_pct _ _ _ hab.1 hab.2]
          exact ih rest2 s (by simp at h; omega) hpre
      · rw [unescapeCheck_cons_ne _ _ hc] at hpre
        rw [List.cons_append, unescapeCheck_cons_ne _ _ hc]
        exact ih rest s (by simp at h; omega) hpre

/-- A `%` that is not followed by two hexadecimal digits makes the check fail. -/
theorem unescapeCheck_bad (rest : GoString)
    (h : ∀ a b r, rest = a :: b :: r → ¬(url.ishex a = true ∧ url.ishex b = true)) :
    url.unescapeCheck (ch '%' :: rest) ≠ none := by
  unfold url.unescapeCheck
  rw [if_pos rfl]
  match rest, h with
  | [], _ => simp
  | [a], _ => simp
  | a :: b :: r, h =>
    have hn := h a b r rfl
    simp only
    rw [if_pos (by
      rw [not_and_or] at hn
      rcases hn with hn | hn
      · simp [hn]
      · simp [hn])]
    simp

/-- C15. A malformed percent-escape recovers no bytes at all: for every successfully
constructed `Crypto` and every token `m` on which URL query-unescaping fails,
`QueryUnescape` returns the empty string and `Decrypt.QueryEscapeMsg(m).Do()` returns
`("", error "ciphertext too short")`; and unescaping does fail on every token that has,
after a well-formed part, a `%` not followed by two hexadecimal digits, whatever comes
before or after. -/
theorem C15_bad_escape_recovers_nothing (key : GoString) (c : Crypto)
    (hc : NewCrypto key = (some c, none)) (m : GoString)
    (hfail : (url.QueryUnescape m).2 ≠ none) :
    (url.QueryUnescape m).1 = [] ∧
    (c.Decrypt.QueryEscapeMsg m).Do = Run.ret ([], errors.New "ciphertext too short") ∧
    (∀ pre rest : GoString, (url.QueryUnescape pre).2 = none →
      (∀ a b r, rest = a :: b :: r → ¬(url.ishex a = true ∧ url.ishex b = true)) →
      (url.QueryUnescape (pre ++ ch '%' :: rest)).2 ≠ none) := by
  obtain ⟨hkey, hceq⟩ := newCrypto_ok_inv key c hc
  subst hceq
  have hk : 16 ≤ key.length := by omega
  have hun : ∀ s : GoString, (url.QueryUnescape s).2 = url.unescapeCheck s ∧
      ((url.QueryUnescape s).2 ≠ none → (url.QueryUnescape s).1 = []) := by
    intro s
    unfold url.QueryUnescape url.unescape
    cases hs : url.unescapeCheck s with
    | none =>
      simp only
      split_ifs <;> simp
    | some e => simp
  have hempty := (hun m).2 hfail
  refine ⟨hempty, ?_, ?_⟩
  · have hdec : base64.DecodeString [] = ([], none) := rfl
    simp only [Crypto.Decrypt, NewDecryptService, DecryptService.QueryEscapeMsg,
      DecryptQueryEscapeMsgCall.Do, hempty, hdec,
      decrypt_cases (aes.newBlock key) (newBlock_isAES key) key hk []]
    simp [errors.New]
  · intro pre rest hpre hbad
    rw [(hun _).1] at hpre ⊢
    rw [unescapeCheck_append pre.length pre _ (le_refl _) hpre]
    exact unescapeCheck_bad rest hbad

/-- C15 at the token `"QUJD%zzQUJD"`: valid base64 before and after a bad escape. -/
theorem C15_bad_escape_recovers_nothing_witness :
    NewCrypto exampleKey = (some exampleCrypto, none) ∧
    (url.QueryUnescape ("QUJD%zzQUJD".toList.map ch)).2 ≠ none ∧
    ((url.QueryUnescape ("QUJD%zzQUJD".toList.map ch)).1 = [] ∧
    (exampleCrypto.Decrypt.QueryEscapeMsg ("QUJD%zzQUJD".toList.map ch)).Do =
      Run.ret ([], errors.New "ciphertext too short") ∧
    (∀ pre rest : GoString, (url.QueryUnescape pre).2 = none →
      (∀ a b r, rest = a :: b :: r → ¬(url.ishex a = true ∧ url.ishex b = true)) →
      (url.QueryUnescape (pre ++ ch '%' :: rest)).2 ≠ none)) :=
  ⟨newCrypto_valid exampleKey (by decide), by decide,
    C15_bad_escape_recovers_nothing exampleKey exampleCrypto
      (newCrypto_valid exampleKey (by decide)) ("QUJD%zzQUJD".toList.map ch) (by decide)⟩

end Cryhel

namespace Cryhel

/-! ## Malformed base64 (C13) -/

/-- The decoder on a byte outside the alphabet that is neither a newline nor, within a
quantum, acceptable padding: at the start of a quantum it stops with no byte. -/
theorem decodeLoop_bad (x : Byte) (rest : List Byte) (si : Nat)
    (hx : base64.decodeMap x = 0xff) (hn : x ≠ ch '\n' ∧ x ≠ ch '\r') :
    base64.decodeLoop (x :: rest) si 0 [] = ([], some (Err.CorruptInputError si)) := by
  conv_lhs => unfold base64.decodeLoop
  simp only [hx]
  rw [if_neg (by simp), if_neg (by simp [hn.1, hn.2])]
  by_cases hp : x = base64.padChar
  · rw [if_neg (by simp [hp])]
    simp
  · rw [if_pos hp]
    simp

/-- Decoding the encoding of whole three-byte groups followed by anything: the groups are
recovered and decoding goes on with what follows. -/
theorem decodeLoop_encode_append (n : Nat) : ∀ (bs tail : List Byte) (si : Nat),
    bs.length ≤ n → bs.length % 3 = 0 →
    base64.decodeLoop (base64.EncodeToString bs ++ tail) si 0 [] =
      (bs ++ (base64.decodeLoop tail (si + (base64.EncodeToString bs).length) 0 []).1,
        (base64.decodeLoop tail (si + (base64.EncodeToString bs).length) 0 []).2) := by
  induction n with
  | zero =>
    intro bs tail si h _
    have : bs = [] := List.length_eq_zero.mp (by omega)
    subst this
    simp [base64.EncodeToString]
  | succ n ih =>
    intro bs tail si h h3
    match bs, h, h3 with
    | [], _, _ => simp [base64.EncodeToString]
    | [a], _, h3 => simp at h3
    | [a, b], _, h3 => simp at h3
    | a :: b :: c :: rest, h, h3 =>
      simp only [base64.EncodeToString, nat_and_3F, List.cons_append, List.length_cons]
      rw [decodeLoop_quad _ _ _ _ (Nat.mod_lt _ (by norm_num)) (Nat.mod_lt _ (by norm_num))
        (Nat.mod_lt _ (by norm_num)) (Nat.mod_lt _ (by norm_num)),
        ih rest tail (si + 4) (by simp at h; omega) (by simp at h3; omega)]
      have := quantumBytes_full a b c
      simp only [nat_and_3F] at this
      have hsi : si + 4 + (base64.EncodeToString rest).length =
          si + ((base64.EncodeToString rest).length + 1 + 1 + 1 + 1) := by omega
      rw [this, hsi]
      rfl

/-- C13. Malformed base64 is never surfaced: for every successfully constructed `Crypto`
and every token `m`, well-formed base64 or not, `Decrypt.Msg(m).Do()` returns what
`decrypt` returns on the bytes `base64.StdEncoding.DecodeString(m)` recovered, the base64
error being dropped; it returns the plaintext without error, or fails with
"ciphertext too short" or "ciphertext is not a multiple of the block size", and never
panics or fails with a base64 error. The bytes recovered are all the bytes when `m` is
well-formed, and the bytes before the first malformed input when whole quanta are followed
by a byte that is neither of the alphabet nor a newline. -/
theorem C13_malformed_base64_not_surfaced (key : GoString) (c : Crypto)
    (hc : NewCrypto key = (some c, none)) (m : GoString) :
    (c.Decrypt.Msg m).Do = c.decrypt (base64.DecodeString m).1 ∧
    (∃ block, c.block = some block ∧
      (c.Decrypt.Msg m).Do =
        if (base64.DecodeString m).1.length < 16 then
          Run.ret ([], errors.New "ciphertext too short")
        else if (base64.DecodeString m).1.length % 16 ≠ 0 then
          Run.ret ([], errors.New "ciphertext is not a multiple of the block size")
        else Run.ret (ZeroUnPadding ((cipher.decryptLoop block 16
          (base64.DecodeString m).1.length (c.bkey.take 16)
          (base64.DecodeString m).1).drop 16), none)) ∧
    (∃ p err, (c.Decrypt.Msg m).Do = Run.ret (p, err) ∧
      (err = none ∨ err = errors.New "ciphertext too short" ∨
        err = errors.New "ciphertext is not a multiple of the block size") ∧
      ∀ n, err ≠ some (Err.CorruptInputError n)) ∧
    (∀ e : List Byte, base64.DecodeString (base64.EncodeToString e) = (e, none)) ∧
    (∀ (e : List Byte) (x : Byte) (rest : List Byte), e.length % 3 = 0 →
      base64.decodeMap x = 0xff → x ≠ ch '\n' ∧ x ≠ ch '\r' →
      base64.DecodeString (base64.EncodeToString e ++ x :: rest) =
        (e, some (Err.CorruptInputError (base64.EncodeToString e).length))) := by
  obtain ⟨hkey, hceq⟩ := newCrypto_ok_inv key c hc
  subst hceq
  have hk : 16 ≤ key.length := by omega
  have hdec := decrypt_cases (aes.newBlock key) (newBlock_isAES key) key hk
    (base64.DecodeString m).1
  have hDo : ((Crypto.Decrypt { block := some (aes.newBlock key), bkey := key }).Msg m).Do =
      Crypto.decrypt { block := some (aes.newBlock key), bkey := key }
        (base64.DecodeString m).1 := by
    simp only [Crypto.Decrypt, NewDecryptService, DecryptService.Msg, DecryptMsgCall.Do, hdec]
    split_ifs <;> simp [errors.New]
  refine ⟨hDo, ⟨aes.newBlock key, rfl, by rw [hDo, hdec]⟩, ?_, decodeString_encodeToString, ?_⟩
  · rw [hDo, hdec]
    split_ifs
    · exact ⟨_, _, rfl, Or.inr (Or.inl rfl), by simp [errors.New]⟩
    · exact ⟨_, _, rfl, Or.inr (Or.inr rfl), by simp [errors.New]⟩
    · exact ⟨_, _, rfl, Or.inl rfl, by simp⟩
  · intro e x rest h3 hx hn
    unfold base64.DecodeString
    rw [decodeLoop_encode_append e.length e (x :: rest) 0 (le_refl _) h3,
      decodeLoop_bad x rest _ hx hn]
    simp

/-- C13 at the token `"QUJD!QUJD"`, whose fifth byte is not base64. -/
theorem C13_malformed_base64_not_surfaced_witness :
    NewCrypto exampleKey = (some exampleCrypto, none) ∧
    base64.DecodeString ("QUJD!QUJD".toList.map ch) =
      ("ABC".toList.map ch, some (Err.CorruptInputError 4)) ∧
    (exampleCrypto.Decrypt.Msg ("QUJD!QUJD".toList.map ch)).Do =
      exampleCrypto.decrypt (base64.DecodeString ("QUJD!QUJD".toList.map ch)).1 :=
  ⟨newCrypto_valid exampleKey (by decide), by decide,
    (C13_malformed_base64_not_surfaced exampleKey exampleCrypto
      (newCrypto_valid exampleKey (by decide)) ("QUJD!QUJD".toList.map ch)).1⟩

end Cryhel

namespace Cryhel

/-! ## Decryption and the IV derived from the key (C14); the structured round trip (C11) -/

theorem blocks16_succ (n : Nat) (l : List Byte) :
    blocks16 (n + 1) l = l.take 16 :: blocks16 n (l.drop 16) := by
  unfold blocks16
  rw [List.range_succ_eq_map]
  simp only [List.map_cons, List.map_map, Nat.mul_zero, List.drop_zero, List.cons.injEq,
    true_and]
  apply List.map_congr_left
  intro i _
  simp only [Function.comp, List.drop_drop]
  congr 2
  omega

/-- The loop of the CBC decrypter computes standard CBC decryption. -/
theorem decryptLoop_eq_std (b : cipher.Block) (n : Nat) :
    ∀ (fuel : Nat) (iv ct : List Byte), ct.length = 16 * n → n ≤ fuel →
      cipher.decryptLoop b 16 fuel iv ct = stdCBCDecrypt b iv ct := by
  induction n with
  | zero =>
    intro fuel iv ct hs _
    have : ct = [] := List.length_eq_zero.mp (by simpa using hs)
    subst this
    cases fuel <;> simp [cipher.decryptLoop, stdCBCDecrypt, blocks16]
  | succ n ih =>
    intro fuel iv ct hs hf
    cases fuel with
    | zero => omega
    | succ f =>
      have hd : (ct.drop 16).length = 16 * n := by simp; omega
      have hq : ct.length / 16 = n + 1 := by omega
      have hq2 : (ct.drop 16).length / 16 = n := by omega
      have ih2 := ih f (ct.take 16) (ct.drop 16) hd (by omega)
      unfold cipher.decryptLoop
      rw [if_pos (by omega)]
      simp only
      rw [ih2]
      unfold stdCBCDecrypt
      simp only [hq, hq2, blocks16_succ, List.zipWith_cons_cons, List.flatten_cons]

/-- C14. Decryption is independent of the IV derived from the key: for every successfully
constructed `Crypto` and every envelope `e` that `decrypt` accepts (sixteen bytes or more,
a multiple of sixteen), `decrypt(e)` returns, without error, `ZeroUnPadding` of the
standard CBC decryption of `e[16:]` under the IV `e[:16]`; putting any other sixteen
bytes in the place of `c.bkey[:16]` leaves the result unchanged. Standard CBC decryption
undoes the CBC encryption of the padded plaintext under the same IV. -/
theorem C14_decrypt_independent_of_key_iv (key : GoString) (c : Crypto)
    (hc : NewCrypto key = (some c, none)) (e : List Byte)
    (hlen : 16 ≤ e.length) (hmod : e.length % 16 = 0) :
    ∃ block, c.block = some block ∧
      c.decrypt e =
        Run.ret (ZeroUnPadding (stdCBCDecrypt block (e.take 16) (e.drop 16)), none) ∧
      (∀ iv : List Byte, iv.length = 16 →
        Crypto.decrypt { block := c.block, bkey := iv } e = c.decrypt e) ∧
      (∀ iv : List Byte, iv.length = 16 →
        (cipher.decryptLoop block 16 e.length iv e).drop 16 =
          stdCBCDecrypt block (e.take 16) (e.drop 16)) ∧
      (∀ (iv : List Byte) (P : GoString), iv.length = 16 →
        stdCBCDecrypt block iv
          (cipher.encryptLoop block 16 (ZeroPadding P).length iv (ZeroPadding P)) =
          ZeroPadding P) := by
  obtain ⟨hkey, hceq⟩ := newCrypto_ok_inv key c hc
  subst hceq
  have hk : 16 ≤ key.length := by omega
  have hb := newBlock_isAES key
  have hdrop : ∀ iv : List Byte, iv.length = 16 →
      (cipher.decryptLoop (aes.newBlock key) 16 e.length iv e).drop 16 =
        stdCBCDecrypt (aes.newBlock key) (e.take 16) (e.drop 16) := by
    intro iv hiv
    have he : e.length = (e.length - 1) + 1 := by omega
    have ht : (e.take 16).length = 16 := by simp; omega
    have hfirst : (cipher.xorBytes ((aes.newBlock key).Decrypt (e.take 16)) iv).length = 16 := by
      rw [xorBytes_length _ _ (by rw [hb.decrypt_length _ ht, hiv])]
      exact hb.decrypt_length _ ht
    rw [he]
    unfold cipher.decryptLoop
    rw [if_pos (by omega)]
    simp only
    rw [List.drop_left' hfirst]
    exact decryptLoop_eq_std (aes.newBlock key) (e.length / 16 - 1) _ _ _
      (by simp; omega) (by omega)
  have hdec : ∀ k : List Byte, 16 ≤ k.length →
      Crypto.decrypt { block := some (aes.newBlock key), bkey := k } e =
        Run.ret (ZeroUnPadding (stdCBCDecrypt (aes.newBlock key) (e.take 16) (e.drop 16)),
          none) := by
    intro k hk16
    rw [decrypt_cases (aes.newBlock key) hb k hk16 e, if_neg (by omega), if_neg (by omega),
      hdrop (k.take 16) (by simp; omega)]
  refine ⟨aes.newBlock key, rfl, hdec key hk, ?_, hdrop, ?_⟩
  · intro iv hiv
    rw [hdec key hk]
    exact hdec iv (by omega)
  · intro iv P hiv
    have hP := zeroPadding_length P
    have hC := encryptLoop_length (aes.newBlock key) hb (P.length / 16 + 1)
      (ZeroPadding P).length iv (ZeroPadding P) hiv hP (by omega)
    rw [← decryptLoop_eq_std (aes.newBlock key) (P.length / 16 + 1)
      (ZeroPadding P).length iv _ (by rw [hC, hP]) (by omega)]
    exact decryptLoop_encryptLoop (aes.newBlock key) hb (P.length / 16 + 1) _ _ iv
      (ZeroPadding P) hiv hP (by omega) (by omega)

/-- C14 at the envelope made of the bytes 1 to 32. -/
theorem C14_decrypt_independent_of_key_iv_witness :
    NewCrypto exampleKey = (some exampleCrypto, none) ∧
    16 ≤ exampleRand.supply.length ∧ exampleRand.supply.length % 16 = 0 ∧
    ∃ block, exampleCrypto.block = some block ∧
      exampleCrypto.decrypt exampleRand.supply =
        Run.ret (ZeroUnPadding (stdCBCDecrypt block (exampleRand.supply.take 16)
          (exampleRand.supply.drop 16)), none) ∧
      (∀ iv : List Byte, iv.length = 16 →
        Crypto.decrypt { block := exampleCrypto.block, bkey := iv } exampleRand.supply =
          exampleCrypto.decrypt exampleRand.supply) ∧
      (∀ iv : List Byte, iv.length = 16 →
        (cipher.decryptLoop block 16 exampleRand.supply.length iv exampleRand.supply).drop 16 =
          stdCBCDecrypt block (exampleRand.supply.take 16) (exampleRand.supply.drop 16)) ∧
      (∀ (iv : List Byte) (P : GoString), iv.length = 16 →
        stdCBCDecrypt block iv
          (cipher.encryptLoop block 16 (ZeroPadding P).length iv (ZeroPadding P)) =
          ZeroPadding P) :=
  ⟨newCrypto_valid exampleKey (by decide), by decide, by decide,
    C14_decrypt_independent_of_key_iv exampleKey exampleCrypto
      (newCrypto_valid exampleKey (by decide)) exampleRand.supply (by decide) (by decide)⟩

/-- C11. Structured round trip: for every valid key, every random source that delivers an
IV, every value `v` whose JSON text `marshal v` neither begins nor ends with a zero byte,
and every pointer destination, `Decrypt.Msg(t).Out(dest)` on the token `t` returned by
`Encrypt.Msg(marshal v).Do()` returns what `json.Unmarshal(marshal v, dest)` returns,
whatever `json.Unmarshal` does: the decoder is handed exactly the bytes of the JSON text.
When the decoder accepts this text and stores `v` in the destination (`load` reads the
value a destination holds), `Out` returns nil and the destination holds `v`. -/
theorem C11_structured_round_trip {D Val : Type} (V : Values D) (marshal : Val → List Byte)
    (load : D → Val) (key : GoString)
    (hkey : key.length = 16 ∨ key.length = 24 ∨ key.length = 32)
    (rand : Reader) (hr : 16 ≤ rand.supply.length) (v : Val) (out : D)
    (hptr : V.KindOf out = reflect.Kind.Ptr)
    (hJ : noZeroEnds (marshal v))
    (hU : (V.Unmarshal (marshal v) out).2 = none)
    (hV : load (V.Unmarshal (marshal v) out).1 = v) :
    ∃ c t, NewCrypto key = (some c, none) ∧
      (c.Encrypt.Msg (marshal v)).Do rand = Run.ret (t, none) ∧
      (∀ unmarshal : List Byte → D → D × GoError,
        DecryptMsgCall.Out { V with Unmarshal := unmarshal } (c.Decrypt.Msg t) out =
          Run.ret (unmarshal (marshal v) out)) ∧
      ∃ dest, DecryptMsgCall.Out V (c.Decrypt.Msg t) out = Run.ret (dest, none) ∧
        load dest = v := by
  have hk : 16 ≤ key.length := by omega
  have hiv : (rand.supply.take 16).length = 16 := by simp; omega
  have hOut : ∀ W : Values D, W.KindOf out = reflect.Kind.Ptr →
      DecryptMsgCall.Out W ((Crypto.Decrypt
        { block := some (aes.newBlock key), bkey := key }).Msg
          (base64.EncodeToString (rand.supply.take 16 ++
            cipher.encryptLoop (aes.newBlock key) 16 (ZeroPadding (marshal v)).length
              (rand.supply.take 16) (ZeroPadding (marshal v))))) out =
        Run.ret (W.Unmarshal (marshal v) out) := by
    intro W hW
    simp only [Crypto.Decrypt, NewDecryptService, DecryptService.Msg, DecryptMsgCall.Out,
      isPointer, hW, decodeString_encodeToString,
      decrypt_envelope { block := some (aes.newBlock key), bkey := key } (aes.newBlock key)
        rfl (newBlock_isAES key) hk _ hiv (marshal v),
      stripZeros_of_noZeroEnds _ hJ]
    generalize W.Unmarshal (marshal v) out = u
    obtain ⟨d, err⟩ := u
    cases err <;> simp
  refine ⟨{ block := some (aes.newBlock key), bkey := key },
    base64.EncodeToString (rand.supply.take 16 ++
      cipher.encryptLoop (aes.newBlock key) 16 (ZeroPadding (marshal v)).length
        (rand.supply.take 16) (ZeroPadding (marshal v))),
    newCrypto_valid key hkey, ?_, ?_, (V.Unmarshal (marshal v) out).1, ?_, hV⟩
  · simp only [Crypto.Encrypt, NewEncryptService, EncryptService.Msg, EncryptMsgCall.Do,
      encrypt_eq { block := some (aes.newBlock key), bkey := key } (aes.newBlock key) rfl
        (newBlock_isAES key) rand hr (marshal v)]
    simp
  · intro unmarshal
    exact hOut { V with Unmarshal := unmarshal } hptr
  · rw [hOut V hptr, ← hU]

/-- C11 at the JSON text `{}`, a pointer destination and a decoder that stores the text. -/
theorem C11_structured_round_trip_witness :
    (exampleKey.length = 16 ∨ exampleKey.length = 24 ∨ exampleKey.length = 32) ∧
    16 ≤ exampleRand.supply.length ∧
    exampleValues.KindOf (true, []) = reflect.Kind.Ptr ∧
    noZeroEnds ("{}".toList.map ch) ∧
    ∃ c t, NewCrypto exampleKey = (some c, none) ∧
      (c.Encrypt.Msg ("{}".toList.map ch)).Do exampleRand = Run.ret (t, none) ∧
      (∀ unmarshal : List Byte → Bool × List Byte → (Bool × List Byte) × GoError,
        DecryptMsgCall.Out { exampleValues with Unmarshal := unmarshal } (c.Decrypt.Msg t)
          (true, []) = Run.ret (unmarshal ("{}".toList.map ch) (true, []))) ∧
      ∃ dest, DecryptMsgCall.Out exampleValues (c.Decrypt.Msg t) (true, []) =
          Run.ret (dest, none) ∧
        dest.2 = "{}".toList.map ch :=
  ⟨by decide, by decide, by decide, by decide,
    C11_structured_round_trip exampleValues (fun v : List Byte => v) Prod.snd exampleKey
      (by decide) exampleRand (by decide) ("{}".toList.map ch) (true, []) (by decide)
      (by decide) rfl rfl⟩

end Cryhel
